import Mathlib

/-!
# deps: dependency-graph traversals

A shallow embedding of `deps.go` (package `main`): the dependency filter, the
parser of the fetcher's text, the FIFO queue and the visited set, paths as Go
slices over shared backing arrays, and the three breadth-first traversals
`buildTree`, `findPath` and `findAllPaths`, followed by theorems about them.

Conventions of the embedding
* A Go `string` is a Lean `String`; library functions on strings are written
  over the list of characters.
* The external command `go list -f '{{.Imports}}' pkg` is the parameter
  `fetch : String → Except GoError String` (combined output, or the error).
* A Go slice of strings is a header `(ptr, len, cap)` into a heap of backing
  arrays, so that `append` shares or reallocates as Go does.  The capacity that
  `append` picks when it reallocates, and `strconv.IsPrint`, belong to the Go
  runtime and are fields of `GoRuntime`.
* `for !q.empty() { ... }` is `forLoop` with a fuel argument; the result `none`
  means that the fuel ran out.
* Progress text written by the traversals (`fmt.Printf("%d    %s", ...)`) is
  not part of the embedding.
-/

namespace Deps

/-! ## Go runtime pieces -/

/-- A Go `error` value: either the error of the external command, or one built
by `fmt.Errorf`. -/
inductive GoError where
  | exec (msg : String)
  | errorf (msg : String)
deriving DecidableEq, Repr

/-- The method `Error()` of an error value. -/
def GoError.Error : GoError → String
  | .exec msg => msg
  | .errorf msg => msg

/-- The parts of the Go runtime and library the program depends on. -/
structure GoRuntime where
  /-- The capacity `append` asks for when a slice of capacity `oldCap` must grow
  to hold `newLen` elements. -/
  growCap : (oldCap newLen : Nat) → Nat
  /-- The library predicate `strconv.IsPrint` on runes. -/
  isPrint : Char → Bool

/-- The loop of `nextslicecap` for slices of 256 elements or more: add a quarter
of the capacity plus 192 until `newLen` fits. -/
def nextslicecap.grow (newLen : Nat) : Nat → Nat → Nat
  | 0, newcap => newcap
  | fuel + 1, newcap =>
    let c := newcap + (newcap + 3 * 256) / 4
    if newLen ≤ c then c else nextslicecap.grow newLen fuel c

/-- Capacity growth of the gc runtime (`nextslicecap`): `newLen` when it exceeds
twice the old capacity, else double below 256 elements, else the loop above.
The rounding to an allocation size class that follows it in `growslice` is left
out: it keeps the powers of two, the only capacities that arise from a slice of
capacity 1 that grows by one element at a time. -/
def nextslicecap (oldCap newLen : Nat) : Nat :=
  if 2 * oldCap < newLen then newLen
  else if oldCap < 256 then 2 * oldCap
  else nextslicecap.grow newLen newLen oldCap

/-- The gc runtime, with `IsPrint` given on ASCII (space up to tilde). -/
def gcRuntime : GoRuntime where
  growCap := nextslicecap
  isPrint := fun c => decide (0x20 ≤ c.toNat ∧ c.toNat < 0x7f)

/-- What a function call of the program produces: a run-time panic, or its two
return values (the result, `none` for `nil`, and the error, `none` for `nil`). -/
inductive Outcome (α : Type) where
  | crashed
  | returned (val : Option α) (err : Option GoError)
deriving DecidableEq, Repr

/-- Control flow at the end of one loop-body execution. -/
inductive Flow (σ ρ : Type) where
  | continue_ (s : σ)
  | return_ (r : ρ)

/-- The loop `for cond { body }` followed by `after`, run with a bound on the
number of iterations; `none` when the bound is reached. -/
def forLoop {σ ρ : Type} (cond : σ → Bool) (body : σ → Flow σ ρ) (after : σ → ρ) :
    Nat → σ → Option ρ
  | 0, _ => none
  | fuel + 1, s =>
    if cond s then
      match body s with
      | .continue_ s1 => forLoop cond body after fuel s1
      | .return_ r => some r
    else some (after s)

/-! ## strings and strconv -/

/-- The library function `strings.HasPrefix`, on character lists. -/
def HasPrefix (s pre : String) : Bool :=
  pre.data.isPrefixOf s.data

/-- The library function `strings.Trim`: drop leading and trailing characters
that occur in `cutset`. -/
def Trim (s cutset : String) : String :=
  ⟨((s.data.dropWhile (fun c => cutset.data.contains c)).reverse.dropWhile
      (fun c => cutset.data.contains c)).reverse⟩

/-- Splitting a character list at every occurrence of one separator character;
the result has one more piece than there are separators. -/
def splitChars (sep : Char) : List Char → List (List Char)
  | [] => [[]]
  | c :: cs =>
    if c = sep then [] :: splitChars sep cs
    else
      match splitChars sep cs with
      | [] => [[c]]
      | w :: ws => (c :: w) :: ws

/-- The library function `strings.Split` for a separator of one character. -/
def Split (s : String) (sep : Char) : List String :=
  (splitChars sep s.data).map String.mk

/-- Lower-case hexadecimal digit of `n % 16`. -/
def lowerhex (n : Nat) : Char :=
  "0123456789abcdef".data.getD (n % 16) '0'

/-- The library function `strconv.appendEscapedRune` for the double quote,
neither ASCII-only nor graphic-only: what `%q` writes for one rune. -/
def appendEscapedRune (rt : GoRuntime) (r : Char) : List Char :=
  if r = '"' ∨ r = '\\' then ['\\', r]
  else if rt.isPrint r then [r]
  else if r = Char.ofNat 7 then ['\\', 'a']
  else if r = Char.ofNat 8 then ['\\', 'b']
  else if r = Char.ofNat 12 then ['\\', 'f']
  else if r = '\n' then ['\\', 'n']
  else if r = '\r' then ['\\', 'r']
  else if r = '\t' then ['\\', 't']
  else if r = Char.ofNat 11 then ['\\', 'v']
  else if r.toNat < 0x20 ∨ r.toNat = 0x7f then
    ['\\', 'x', lowerhex (r.toNat / 16), lowerhex r.toNat]
  else if r.toNat < 0x10000 then
    ['\\', 'u', lowerhex (r.toNat / 4096), lowerhex (r.toNat / 256),
      lowerhex (r.toNat / 16), lowerhex r.toNat]
  else
    ['\\', 'U', lowerhex (r.toNat / 268435456), lowerhex (r.toNat / 16777216),
      lowerhex (r.toNat / 1048576), lowerhex (r.toNat / 65536),
      lowerhex (r.toNat / 4096), lowerhex (r.toNat / 256),
      lowerhex (r.toNat / 16), lowerhex r.toNat]

/-- The library function `strconv.Quote`, which `fmt` applies for the verb `%q`
to a string operand. -/
def Quote (rt : GoRuntime) (s : String) : String :=
  ⟨'"' :: (s.data.flatMap (appendEscapedRune rt)) ++ ['"']⟩

/-! ## Queue and set -/

/-- The generic FIFO `queue[T]`: its field `vals`. -/
structure queue (T : Type) where
  vals : List T
deriving Repr

/-- Method `queue.empty`. -/
def queue.empty {T : Type} (q : queue T) : Bool :=
  q.vals.length == 0

/-- Method `queue.add`. -/
def queue.add {T : Type} (q : queue T) (t : T) : queue T :=
  ⟨q.vals ++ [t]⟩

/-- Method `queue.next`: `none` stands for the panic of `q.vals[0]` on an empty
slice; otherwise the first item and the queue without it. -/
def queue.next {T : Type} (q : queue T) : Option (T × queue T) :=
  match q.vals with
  | [] => none
  | t :: rest => some (t, ⟨rest⟩)

/-- Method `queue.size`. -/
def queue.size {T : Type} (q : queue T) : Nat :=
  q.vals.length

/-- The type `set[string]`, a map from members to the empty struct: the list of
its keys. -/
structure stringSet where
  keys : List String
deriving Repr

/-- Method `set.add`. -/
def stringSet.add (s : stringSet) (t : String) : stringSet :=
  ⟨t :: s.keys⟩

/-- Method `set.contains`. -/
def stringSet.contains (s : stringSet) (t : String) : Bool :=
  decide (t ∈ s.keys)

/-! ## Paths: slices of strings over a heap of backing arrays -/

/-- The backing arrays allocated so far; a pointer is an index into the list. -/
abbrev Heap := List (List String)

/-- The type `path` (`[]string`): a slice header. -/
structure path where
  ptr : Nat
  len : Nat
  cap : Nat
deriving DecidableEq, Repr

/-- The elements of a slice, as they read in heap `h`. -/
def path.read (h : Heap) (p : path) : List String :=
  (h[p.ptr]?.getD []).take p.len

/-- The composite literal `path{s}`: a fresh array of one element. -/
def path.lit (h : Heap) (s : String) : Heap × path :=
  (h ++ [[s]], ⟨h.length, 1, 1⟩)

/-- Method `path.last`, `p[len(p)-1]`; `none` stands for the index panic. -/
def path.last (h : Heap) (p : path) : Option String :=
  if p.len = 0 then none else (h[p.ptr]?.getD [])[p.len - 1]?

/-- Method `path.append`, the built-in `append(p, s)`: with spare capacity the
element is written into the shared backing array at index `len(p)`; otherwise a
new array is allocated, the elements copied and `s` stored after them. -/
def path.append (rt : GoRuntime) (h : Heap) (p : path) (s : String) : Heap × path :=
  if p.len < p.cap then
    (h.set p.ptr ((h[p.ptr]?.getD []).set p.len s), ⟨p.ptr, p.len + 1, p.cap⟩)
  else
    let c := max (p.len + 1) (rt.growCap p.cap (p.len + 1))
    (h ++ [p.read h ++ s :: List.replicate (c - (p.len + 1)) ""], ⟨h.length, p.len + 1, c⟩)

/-! ## Fetching, parsing, filtering -/

/-- Function `parseDeps`. -/
def parseDeps (raw : String) : List String :=
  let peeled := Trim raw "'[]\n"
  Split peeled ' '

/-- Function `filterDeps`: the loop that appends the matching elements. -/
def filterDeps (deps : List String) : List String :=
  deps.foldl
    (fun fdeps dep => if HasPrefix dep "github.com/juju/juju" then fdeps ++ [dep] else fdeps)
    []

/-- The filtered dependencies of `pkg` as a traversal computes them: run the
command, then `filterDeps (parseDeps output)`. -/
def expand (fetch : String → Except GoError String) (pkg : String) :
    Except GoError (List String) :=
  match fetch pkg with
  | .error err => .error err
  | .ok output => .ok (filterDeps (parseDeps output))

/-! ## findPath -/

/-- Local variables of `findPath` and `findAllPaths` that live across
iterations, with the heap. -/
structure PathState where
  heap : Heap
  paths : List path
  visited : stringSet
  q : queue path

/-- The loop `for _, dep := range fdeps` of `findPath`, for path `p`: either the
heap and queue after all of `fdeps`, or the heap and the path that is returned. -/
def findPath.deps (rt : GoRuntime) (target : String) (p : path) :
    List String → Heap → queue path → (Heap × queue path) ⊕ (Heap × path)
  | [], h, q => .inl (h, q)
  | dep :: rest, h, q =>
    let r := p.append rt h dep
    if dep = target then .inr r
    else findPath.deps rt target p rest r.1 (q.add r.2)

/-- One execution of the body of the loop `for !q.empty()` of `findPath`. -/
def findPath.body (rt : GoRuntime) (fetch : String → Except GoError String)
    (target : String) (st : PathState) : Flow PathState (Outcome (List String)) :=
  match st.q.next with
  | none => .return_ .crashed
  | some (p, q) =>
    match p.last st.heap with
    | none => .return_ .crashed
    | some pkg =>
      if st.visited.contains pkg then .continue_ { st with q := q }
      else
        let visited := st.visited.add pkg
        match expand fetch pkg with
        | .error err => .return_ (.returned none (some err))
        | .ok fdeps =>
          match findPath.deps rt target p fdeps st.heap q with
          | .inr (h, newPath) => .return_ (.returned (some (newPath.read h)) none)
          | .inl (h, q1) => .continue_ { st with heap := h, visited := visited, q := q1 }

/-- The error built by `fmt.Errorf("%q does not depend on %q", root, target)`. -/
def notFound (rt : GoRuntime) (root target : String) : GoError :=
  .errorf (Quote rt root ++ " does not depend on " ++ Quote rt target)

/-- The state of `findPath` and `findAllPaths` on entry to the loop. -/
def PathState.init (root : String) : PathState :=
  let r := path.lit [] root
  { heap := r.1, paths := [], visited := ⟨[]⟩, q := (queue.mk []).add r.2 }

/-- The loop `for !q.empty()` of `findPath` and the `return` after it, started
in state `st`. -/
def findPath.loop (rt : GoRuntime) (fetch : String → Except GoError String)
    (root target : String) (fuel : Nat) (st : PathState) : Option (Outcome (List String)) :=
  forLoop (fun st => !st.q.empty) (findPath.body rt fetch target)
    (fun _ => .returned none (some (notFound rt root target))) fuel st

/-- Function `findPath`. -/
def findPath (rt : GoRuntime) (fetch : String → Except GoError String) (fuel : Nat)
    (root target : String) : Option (Outcome (List String)) :=
  findPath.loop rt fetch root target fuel (PathState.init root)

/-! ## findAllPaths -/

/-- The loop `for _, dep := range fdeps` of `findAllPaths`, for path `p`. -/
def findAllPaths.deps (rt : GoRuntime) (target : String) (p : path) :
    List String → PathState → PathState
  | [], st => st
  | dep :: rest, st =>
    let r := p.append rt st.heap dep
    if dep = target then
      findAllPaths.deps rt target p rest { st with heap := r.1, paths := st.paths ++ [r.2] }
    else if !st.visited.contains dep then
      findAllPaths.deps rt target p rest
        { st with heap := r.1, visited := st.visited.add dep, q := st.q.add r.2 }
    else findAllPaths.deps rt target p rest { st with heap := r.1 }

/-- One execution of the body of the loop `for !q.empty()` of `findAllPaths`. -/
def findAllPaths.body (rt : GoRuntime) (fetch : String → Except GoError String)
    (target : String) (st : PathState) : Flow PathState (Outcome (List (List String))) :=
  match st.q.next with
  | none => .return_ .crashed
  | some (p, q) =>
    match p.last st.heap with
    | none => .return_ .crashed
    | some pkg =>
      match expand fetch pkg with
      | .error err => .return_ (.returned none (some err))
      | .ok fdeps => .continue_ (findAllPaths.deps rt target p fdeps { st with q := q })

/-- The loop `for !q.empty()` of `findAllPaths` and the `return` after it,
started in state `st`; the returned slices are read in the final heap. -/
def findAllPaths.loop (rt : GoRuntime) (fetch : String → Except GoError String)
    (target : String) (fuel : Nat) (st : PathState) : Option (Outcome (List (List String))) :=
  forLoop (fun st => !st.q.empty) (findAllPaths.body rt fetch target)
    (fun st => .returned (some (st.paths.map (path.read st.heap))) none) fuel st

/-- Function `findAllPaths`. -/
def findAllPaths (rt : GoRuntime) (fetch : String → Except GoError String) (fuel : Nat)
    (root target : String) : Option (Outcome (List (List String))) :=
  findAllPaths.loop rt fetch target fuel (PathState.init root)

/-! ## Trees -/

/-- The type `tree` as a value: a label and the child trees in order. -/
inductive tree where
  | mk (val : String) (children : List tree)
deriving Repr

/-- The label of a tree node. -/
def tree.val : tree → String
  | .mk v _ => v

/-- The children of a tree node. -/
def tree.children : tree → List tree
  | .mk _ cs => cs

mutual
/-- Method `tree.print`: the text written to standard output. -/
def tree.print : tree → String → String
  | .mk val children, pre => pre ++ val ++ "\n" ++ tree.printChildren children (pre ++ "  ")
/-- The loop `for _, c := range t.children` of `tree.print`. -/
def tree.printChildren : List tree → String → String
  | [], _ => ""
  | c :: cs, childPrefix => c.print childPrefix ++ tree.printChildren cs childPrefix
end

/-- A `tree` struct in memory: `children` is a slice of pointers. -/
structure treeCell where
  val : String
  children : List Nat
deriving Repr

/-- The `tree` structs allocated so far; a `*tree` is an index into the list. -/
abbrev TreeHeap := List treeCell

/-- The statement `t.children = append(t.children, depT)`.  The slice
`t.children` has one owner, so it is kept as a list. -/
def TreeHeap.addChild (h : TreeHeap) (t depT : Nat) : TreeHeap :=
  match h[t]? with
  | none => h
  | some c => h.set t ⟨c.val, c.children ++ [depT]⟩

/-- The tree a pointer denotes: follow the child pointers, at most `fuel` levels
deep.  A child is allocated after its parent, so the number of structs in the
heap is enough fuel. -/
def readTree (h : TreeHeap) : Nat → Nat → tree
  | 0, t => .mk (h[t]?.getD ⟨"", []⟩).val []
  | fuel + 1, t => .mk (h[t]?.getD ⟨"", []⟩).val ((h[t]?.getD ⟨"", []⟩).children.map (readTree h fuel))

/-! ## buildTree -/

/-- Local variables of `buildTree` that live across iterations, with the heap;
`base` is always pointer 0. -/
structure TreeState where
  heap : TreeHeap
  visited : stringSet
  q : queue Nat

/-- The loop `for _, dep := range fdeps` of `buildTree`, for the node `t`. -/
def buildTree.deps (t : Nat) : List String → TreeHeap → queue Nat → TreeHeap × queue Nat
  | [], h, q => (h, q)
  | dep :: rest, h, q =>
    let depT := h.length
    let h1 := h ++ [⟨dep, []⟩]
    buildTree.deps t rest (h1.addChild t depT) (q.add depT)

/-- One execution of the body of the loop `for !q.empty()` of `buildTree`. -/
def buildTree.body (fetch : String → Except GoError String) (st : TreeState) :
    Flow TreeState (Outcome tree) :=
  match st.q.next with
  | none => .return_ .crashed
  | some (t, q) =>
    match st.heap[t]? with
    | none => .return_ .crashed
    | some cell =>
      let pkg := cell.val
      if st.visited.contains pkg then .continue_ { st with q := q }
      else
        let visited := st.visited.add pkg
        match expand fetch pkg with
        | .error err => .return_ (.returned none (some err))
        | .ok fdeps =>
          let r := buildTree.deps t fdeps st.heap q
          .continue_ { heap := r.1, visited := visited, q := r.2 }

/-- The state of `buildTree` on entry to the loop. -/
def TreeState.init (root : String) : TreeState :=
  { heap := [⟨root, []⟩], visited := ⟨[]⟩, q := (queue.mk []).add 0 }

/-- The loop `for !q.empty()` of `buildTree` and the `return` after it, started
in state `st`; the returned pointer `base` is read in the final heap. -/
def buildTree.loop (fetch : String → Except GoError String) (fuel : Nat) (st : TreeState) :
    Option (Outcome tree) :=
  forLoop (fun st => !st.q.empty) (buildTree.body fetch)
    (fun st => .returned (some (readTree st.heap st.heap.length 0)) none) fuel st

/-- Function `buildTree`. -/
def buildTree (fetch : String → Except GoError String) (fuel : Nat) (root : String) :
    Option (Outcome tree) :=
  buildTree.loop fetch fuel (TreeState.init root)

/-! ## main -/

/-- How the process ends: `os.Exit(code)` or falling off `main` (code 0), or a
run-time panic (the runtime prints the panic to standard error and exits with
status 2). -/
inductive Exit where
  | code (n : Nat)
  | indexPanic (index length : Nat)
  | panicked
deriving DecidableEq, Repr

/-- What a run of the program leaves behind: the text on standard output and
the way it ended. -/
structure Process where
  stdout : String
  exit : Exit
deriving DecidableEq, Repr

/-- The text `fmt.Println` writes for a path, one identifier per line. -/
def printPath (p : List String) : String :=
  p.foldl (fun out pkg => out ++ pkg ++ "\n") ""

/-- Function `main`, on the argument vector `os.Args`. -/
def main (rt : GoRuntime) (fetch : String → Except GoError String) (fuel : Nat)
    (Args : List String) : Option Process :=
  if Args.length ≤ 1 then
    some ⟨"no action specified\nvalid actions are: tree, path, paths\n", .code 1⟩
  else
    match Args[1]?, Args[2]? with
    | none, _ => some ⟨"", .indexPanic 1 Args.length⟩
    | some _, none => some ⟨"", .indexPanic 2 Args.length⟩
    | some action, some root =>
      if action = "tree" then
        let out := "Building dependency tree for " ++ Quote rt root ++ "...\n"
        match buildTree fetch fuel root with
        | none => none
        | some .crashed => some ⟨out, .panicked⟩
        | some (.returned _ (some err)) => some ⟨out ++ err.Error ++ "\n", .code 1⟩
        | some (.returned none none) => some ⟨out, .panicked⟩
        | some (.returned (some t) none) => some ⟨out ++ t.print "", .code 0⟩
      else if action = "path" then
        match Args[3]? with
        | none => some ⟨"", .indexPanic 3 Args.length⟩
        | some target =>
          let out := "Finding path from " ++ Quote rt root ++ " to " ++ Quote rt target ++ "...\n"
          match findPath rt fetch fuel root target with
          | none => none
          | some .crashed => some ⟨out, .panicked⟩
          | some (.returned _ (some err)) => some ⟨out ++ err.Error ++ "\n", .code 1⟩
          | some (.returned p none) => some ⟨out ++ printPath (p.getD []), .code 0⟩
      else if action = "paths" then
        match Args[3]? with
        | none => some ⟨"", .indexPanic 3 Args.length⟩
        | some target =>
          let out :=
            "Finding all paths from " ++ Quote rt root ++ " to " ++ Quote rt target ++ "...\n"
          match findAllPaths rt fetch fuel root target with
          | none => none
          | some .crashed => some ⟨out, .panicked⟩
          | some (.returned _ (some err)) => some ⟨out ++ err.Error ++ "\n", .code 1⟩
          | some (.returned paths none) =>
            some ⟨out ++ (paths.getD []).foldl (fun o p => o ++ "\n" ++ printPath p) "", .code 0⟩
      else some ⟨"", .code 0⟩

/-- The exit status of the process. -/
def Exit.status : Exit → Nat
  | .code n => n
  | .indexPanic _ _ => 2
  | .panicked => 2

/-! ## Example graphs -/

/-- The example of the specification: A imports B and C (and `fmt`), B imports
D, C imports D (and `os`), D imports nothing; every other package fails. -/
def diamond : String → Except GoError String := fun pkg =>
  if pkg = "github.com/juju/juju/a" then
    .ok "'[fmt github.com/juju/juju/b github.com/juju/juju/c]'\n"
  else if pkg = "github.com/juju/juju/b" then .ok "'[github.com/juju/juju/d]'\n"
  else if pkg = "github.com/juju/juju/c" then .ok "'[github.com/juju/juju/d os]'\n"
  else if pkg = "github.com/juju/juju/d" then .ok "'[]'\n"
  else .error (.exec "exit status 1")

/-- A chain A, B, C whose last node C imports D and E; D imports T; the
packages E and T have no imports. -/
def fork : String → Except GoError String := fun pkg =>
  if pkg = "github.com/juju/juju/a" then .ok "'[github.com/juju/juju/b]'\n"
  else if pkg = "github.com/juju/juju/b" then .ok "'[github.com/juju/juju/c]'\n"
  else if pkg = "github.com/juju/juju/c" then
    .ok "'[github.com/juju/juju/d github.com/juju/juju/e]'\n"
  else if pkg = "github.com/juju/juju/d" then .ok "'[github.com/juju/juju/t]'\n"
  else if pkg = "github.com/juju/juju/e" then .ok "'[]'\n"
  else if pkg = "github.com/juju/juju/t" then .ok "'[]'\n"
  else .error (.exec "exit status 1")

/-- The path a, b, c built from `path{"a"}` by `append("b")` and `append("c")`
on the gc runtime, with the heap after the calls. -/
def sibling.p : Heap × path :=
  let r0 := path.lit [] "a"
  let r1 := r0.2.append gcRuntime r0.1 "b"
  r1.2.append gcRuntime r1.1 "c"

/-- The result of `q1 := p.append("s")`, with the heap after the call. -/
def sibling.q1 : Heap × path :=
  sibling.p.2.append gcRuntime sibling.p.1 "s"

/-- The result of `q2 := p.append("t")` computed after `q1`, with the heap after
the call. -/
def sibling.q2 : Heap × path :=
  sibling.p.2.append gcRuntime sibling.q1.1 "t"

/-! ## Graph notions, invariants and measures -/

/-- The filtered dependencies of a package, empty when the fetch fails. -/
def fdepsOf (fetch : String → Except GoError String) (pkg : String) : List String :=
  match expand fetch pkg with
  | .ok fdeps => fdeps
  | .error _ => []

/-- An edge of the dependency graph: `y` is a filtered dependency of `x`. -/
def Edge (fetch : String → Except GoError String) (x y : String) : Prop :=
  y ∈ fdepsOf fetch x

instance Edge.decidable (fetch : String → Except GoError String) (x y : String) :
    Decidable (Edge fetch x y) :=
  inferInstanceAs (Decidable (y ∈ fdepsOf fetch x))

/-- Reachability along zero or more edges. -/
def Reach (fetch : String → Except GoError String) (root x : String) : Prop :=
  Relation.ReflTransGen (Edge fetch) root x

/-- A slice header is well formed in a heap: it is not empty, its length is
within its capacity, and its backing array has that capacity. -/
def path.ok (h : Heap) (p : path) : Prop :=
  p.len ≠ 0 ∧ p.len ≤ p.cap ∧ (h[p.ptr]?.getD []).length = p.cap

/-- A well-formed slice all of whose elements lie in the set `V`. -/
def path.within (V : Set String) (h : Heap) (p : path) : Prop :=
  p.ok h ∧ ∀ x ∈ p.read h, x ∈ V

/-- The members of `Vf` that are not in the visited set. -/
def unvisited (Vf : Finset String) (visited : stringSet) : Finset String :=
  Vf.filter (fun x => x ∉ visited.keys)

/-- The termination measure of `findPath`: the length of the queue plus the
number of edges that leave the members of `Vf` not yet visited. -/
def findPath.measure (fetch : String → Except GoError String) (Vf : Finset String)
    (st : PathState) : Nat :=
  st.q.vals.length + Finset.sum (unvisited Vf st.visited) (fun x => (fdepsOf fetch x).length)

/-- The termination measure of `findAllPaths`: the length of the queue plus the
number of members of `Vf` not yet visited. -/
def findAllPaths.measure (Vf : Finset String) (st : PathState) : Nat :=
  st.q.vals.length + (unvisited Vf st.visited).card

/-- The label of the node a pointer refers to. -/
def TreeHeap.label (h : TreeHeap) (t : Nat) : String :=
  (h[t]?.getD ⟨"", []⟩).val

/-- One more than the number of child pointers held by the nodes before `j`. -/
def TreeHeap.childStart (h : TreeHeap) (j : Nat) : Nat :=
  1 + ((h.take j).map (fun c => c.children.length)).sum

/-- The heap after the loop over the dependencies of node `t` (whose struct is
`cell`): `t` gets the new pointers as further children, and one childless node
per dependency is added at the end. -/
def TreeHeap.expandAt (h : TreeHeap) (t : Nat) (cell : treeCell) (fdeps : List String) :
    TreeHeap :=
  h.set t ⟨cell.val, cell.children ++ List.range' h.length fdeps.length⟩
    ++ fdeps.map (fun d => ⟨d, []⟩)

/-- The loop invariant of `buildTree`, with `i` the number of nodes taken from
the queue so far.  Nodes are allocated in the order in which they are queued,
so the queue holds the pointers `i`, ..., `len - 1`; the children of node `j`
are a block of consecutive pointers that starts where the children of the
nodes before `j` end; a node taken from the queue has children labelled by its
filtered dependencies when its label occurs for the first time, and no
children otherwise; the visited set holds the labels of the nodes taken. -/
structure TreeInv (fetch : String → Except GoError String) (root : String) (st : TreeState)
    (i : Nat) : Prop where
  le : i ≤ st.heap.length
  queue_eq : st.q.vals = List.range' i (st.heap.length - i)
  root_label : st.heap[0]?.map treeCell.val = some root
  children_eq : ∀ j cell, st.heap[j]? = some cell →
    cell.children = List.range' (st.heap.childStart j) cell.children.length
  pending : ∀ j cell, st.heap[j]? = some cell → i ≤ j → cell.children = []
  repeated : ∀ j cell, st.heap[j]? = some cell → j < i →
    cell.val ∈ (st.heap.take j).map treeCell.val → cell.children = []
  first : ∀ j cell, st.heap[j]? = some cell → j < i →
    cell.val ∉ (st.heap.take j).map treeCell.val →
    (∃ out, fetch cell.val = .ok out) ∧ cell.children.map st.heap.label = fdepsOf fetch cell.val
  start_done : st.heap.childStart i = st.heap.length
  start_gt : ∀ j, j < i → j < st.heap.childStart j
  visited_iff : ∀ x, x ∈ st.visited.keys ↔ x ∈ (st.heap.take i).map treeCell.val
  reach : ∀ cell ∈ st.heap, Reach fetch root cell.val

/-- From state `s` the loop `for cond { body }` reaches, after finitely many
iterations, a state that satisfies `P`, or returns from its body with a result
that satisfies `E`. -/
inductive Eventually {σ ρ : Type} (cond : σ → Bool) (body : σ → Flow σ ρ) (P : σ → Prop)
    (E : ρ → Prop) : σ → Prop where
  | now {s : σ} : P s → Eventually cond body P E s
  | ret {s : σ} {r : ρ} : cond s = true → body s = .return_ r → E r →
      Eventually cond body P E s
  | step {s s1 : σ} : cond s = true → body s = .continue_ s1 →
      Eventually cond body P E s1 → Eventually cond body P E s

mutual
/-- The number of nodes of a tree. -/
def tree.size : tree → Nat
  | .mk _ children => 1 + tree.sizeAll children
/-- The number of nodes of a list of trees. -/
def tree.sizeAll : List tree → Nat
  | [] => 0
  | c :: cs => c.size + tree.sizeAll cs
end

/-- Breadth-first listing of the nodes of a queue of trees, at most `fuel` of
them: the first tree is listed, and its children go to the end of the queue. -/
def bfsOrder : Nat → List tree → List tree
  | 0, _ => []
  | _ + 1, [] => []
  | fuel + 1, t :: q => t :: bfsOrder fuel (q ++ t.children)

/-- The nodes of a tree (each with its subtree) in breadth-first order. -/
def tree.nodes (t : tree) : List tree :=
  bfsOrder t.size [t]

/-- The termination measure of `buildTree`: the length of the queue plus the
number of edges that leave the members of `Vf` not yet visited. -/
def buildTree.measure (fetch : String → Except GoError String) (Vf : Finset String)
    (st : TreeState) : Nat :=
  st.q.vals.length + Finset.sum (unvisited Vf st.visited) (fun x => (fdepsOf fetch x).length)

/-- Reachability along exactly `n` edges. -/
def ReachIn (fetch : String → Except GoError String) : Nat → String → String → Prop
  | 0, a, b => a = b
  | n + 1, a, b => ∃ c, ReachIn fetch n a c ∧ Edge fetch c b

/-- The list `l` is a walk of the graph from `root` to `x`: it starts with
`root`, ends with `x`, and every consecutive pair is an edge. -/
inductive WalkTo (fetch : String → Except GoError String) (root : String) :
    List String → String → Prop where
  | single : WalkTo fetch root [root] root
  | snoc {l : List String} {x y : String} : WalkTo fetch root l x → Edge fetch x y →
      WalkTo fetch root (l ++ [y]) y

/-- Heap `h1` comes after heap `h`, and no slice of at most `N` elements has
changed: every slice that is well formed in `h` is well formed in `h1`, and
reads the same there when it has at most `N` elements. -/
def Stable (N : Nat) (h h1 : Heap) : Prop :=
  ∀ r : path, r.ok h → r.ok h1 ∧ (r.len ≤ N → r.read h1 = r.read h)

/-- The slice `c` is the child path that `findPath` queues for the dependency
`d` of the path `p`, which reads `l0`: it is one element longer than `p`, well
formed in heap `h1`, full if shorter than `N`, and, when `p` is shorter than
`N`, it reads `l0` followed by `d`. -/
def ChildOf (N : Nat) (p : path) (l0 : List String) (h1 : Heap) (c : path) (d : String) :
    Prop :=
  c.len = p.len + 1 ∧ c.ok h1 ∧ (p.len + 1 < N → c.cap = c.len)
    ∧ (p.len < N → c.read h1 = l0 ++ [d])

/-- The loop invariant of `findPath` for a target at distance `k`, on a runtime
whose `append` leaves no spare capacity in slices shorter than `N`, with
`k ≤ N`.  The queue is sorted by length and spans at most two lengths; queued
paths of at most `k` elements are walks from the root; queued paths shorter
than `N` are full; a package that is fewer steps from the root than the length
of every queued path allows is visited; the dependencies of a visited package
are visited or queued with a path that is short enough; the root is visited
or alone in the queue; no visited package has the target as a dependency. -/
structure BfsInv (fetch : String → Except GoError String) (root target : String)
    (k N : Nat) (st : PathState) : Prop where
  sorted : st.q.vals.Pairwise (fun a b => a.len ≤ b.len)
  span : ∀ a ∈ st.q.vals, ∀ b ∈ st.q.vals, b.len ≤ a.len + 1
  ok : ∀ p ∈ st.q.vals, p.ok st.heap
  walk : ∀ p ∈ st.q.vals, p.len ≤ k → ∃ x, WalkTo fetch root (p.read st.heap) x
  full : ∀ p ∈ st.q.vals, p.len < N → p.cap = p.len
  level : ∀ x m, ReachIn fetch m root x → m + 2 ≤ k →
    (∀ p ∈ st.q.vals, m + 1 < p.len) → x ∈ st.visited.keys
  edges : ∀ w m, ReachIn fetch m root w → w ∈ st.visited.keys → m + 2 ≤ k →
    ∀ y ∈ fdepsOf fetch w, y ∈ st.visited.keys ∨
      ∃ p ∈ st.q.vals, (p.read st.heap).getLast? = some y ∧ p.len ≤ m + 2
  root : root ∈ st.visited.keys ∨ ∃ p, st.q.vals = [p] ∧ p.read st.heap = [root]
  no_target : ∀ w ∈ st.visited.keys, target ∉ fdepsOf fetch w

/-- State `s2` is reached from state `s` by zero or more complete executions of
the body of the loop `for cond { body }`. -/
inductive Reaches {σ ρ : Type} (cond : σ → Bool) (body : σ → Flow σ ρ) : σ → σ → Prop where
  | refl (s : σ) : Reaches cond body s s
  | step {s s1 s2 : σ} : cond s = true → body s = .continue_ s1 → Reaches cond body s1 s2 →
      Reaches cond body s s2

mutual
/-- The nodes of a tree in depth-first pre-order, children in list order, each
with its depth below the root of the tree, counted from `d`: the node itself at
depth `d`, then the nodes of its children at depth `d + 1` and below. -/
def tree.preorder : tree → Nat → List (Nat × String)
  | .mk val children, d => (d, val) :: tree.preorderAll children (d + 1)
/-- The pre-order listing of a list of trees, one tree after the other. -/
def tree.preorderAll : List tree → Nat → List (Nat × String)
  | [], _ => []
  | c :: cs, d => c.preorder d ++ tree.preorderAll cs d
end

/-- The text of a list of lines: every line is followed by a newline. -/
def unlines : List String → String
  | [] => ""
  | l :: ls => l ++ "\n" ++ unlines ls

/-- The string of `n` spaces. -/
def spaces (n : Nat) : String :=
  ⟨List.replicate n ' '⟩

/-- The tokens of a list joined by single spaces. -/
def joinTokens : List String → String
  | [] => ""
  | [t] => t
  | t :: u :: ts => t ++ " " ++ joinTokens (u :: ts)

/-- The text the list command writes for a list of imports: the list between
square brackets, inside the quotes of the format argument, and a newline. -/
def listOutput (L : List String) : String :=
  "'[" ++ joinTokens L ++ "]'\n"

mutual
/-- The nodes of a tree, each with its subtree, in the order `tree.print` visits
them: the node, then the nodes of each child in turn. -/
def tree.subtrees : tree → List tree
  | .mk val children => .mk val children :: tree.subtreesAll children
/-- The nodes of a list of trees in printing order. -/
def tree.subtreesAll : List tree → List tree
  | [] => []
  | c :: cs => c.subtrees ++ tree.subtreesAll cs
end

/-- A graph in which C is a direct import of the root A and is also reached
through B and D: A imports B and C, B imports D, D imports C, C imports E. -/
def detour : String → Except GoError String := fun pkg =>
  if pkg = "github.com/juju/juju/a" then
    .ok "'[github.com/juju/juju/b github.com/juju/juju/c]'\n"
  else if pkg = "github.com/juju/juju/b" then .ok "'[github.com/juju/juju/d]'\n"
  else if pkg = "github.com/juju/juju/c" then .ok "'[github.com/juju/juju/e]'\n"
  else if pkg = "github.com/juju/juju/d" then .ok "'[github.com/juju/juju/c]'\n"
  else if pkg = "github.com/juju/juju/e" then .ok "'[]'\n"
  else .error (.exec "exit status 1")

/-- The slice `s` is well formed in heap `h`, has at most `L + 1` elements, and
what it reads satisfies `P`. -/
def path.good (P : List String → Prop) (L : Nat) (h : Heap) (s : path) : Prop :=
  s.ok h ∧ s.len ≤ L + 1 ∧ P (s.read h)

/-- The state after `n` complete executions of the body of the loop
`for cond { body }` started in state `s`; `none` when the loop ends earlier. -/
def forLoop.iterate {σ ρ : Type} (cond : σ → Bool) (body : σ → Flow σ ρ) : Nat → σ → Option σ
  | 0, s => some s
  | n + 1, s =>
    if cond s then
      match body s with
      | .continue_ s1 => forLoop.iterate cond body n s1
      | .return_ _ => none
    else none

/-- The loop invariant of `findAllPaths`, for every runtime.  The queued slices
and the collected slices are well formed and read walks from the root; the
queue is sorted by length and spans at most two lengths; the collected slices
are sorted by length and at most one element longer than a queued slice; the
visited set holds pairwise distinct reachable packages, and not the target. -/
structure AllInv (fetch : String → Except GoError String) (root target : String)
    (st : PathState) : Prop where
  q_good : ∀ s ∈ st.q.vals, s.ok st.heap ∧ ∃ x, WalkTo fetch root (s.read st.heap) x
  r_good : ∀ s ∈ st.paths, s.ok st.heap ∧ ∃ x, WalkTo fetch root (s.read st.heap) x
  sorted : st.q.vals.Pairwise (fun a b => a.len ≤ b.len)
  span : ∀ a ∈ st.q.vals, ∀ b ∈ st.q.vals, b.len ≤ a.len + 1
  r_sorted : st.paths.Pairwise (fun a b => a.len ≤ b.len)
  r_le : ∀ r ∈ st.paths, ∀ a ∈ st.q.vals, r.len ≤ a.len + 1
  nodup : st.visited.keys.Nodup
  no_target : target ∉ st.visited.keys
  visited_reach : ∀ x ∈ st.visited.keys, Reach fetch root x

/-- The state of `findAllPaths` after `n` complete iterations of its loop. -/
def findAllPaths.stateAfter (rt : GoRuntime) (fetch : String → Except GoError String)
    (target root : String) (n : Nat) : Option PathState :=
  forLoop.iterate (fun st => !st.q.empty) (findAllPaths.body rt fetch target) n
    (PathState.init root)

/-- What the slices in the queue read, in queue order. -/
def PathState.queued (st : PathState) : List (List String) :=
  st.q.vals.map (path.read st.heap)

/-- A graph with a cycle through the root: A imports B and T, B imports A, T
imports nothing. -/
def cycle : String → Except GoError String := fun pkg =>
  if pkg = "github.com/juju/juju/a" then
    .ok "'[github.com/juju/juju/b github.com/juju/juju/t]'\n"
  else if pkg = "github.com/juju/juju/b" then .ok "'[github.com/juju/juju/a]'\n"
  else if pkg = "github.com/juju/juju/t" then .ok "'[]'\n"
  else .error (.exec "exit status 1")

/-- What `findPath` keeps true of the elements `l` that a queued slice reads:
they are a walk from the root, all but the last are visited and pairwise
distinct, and the target is not among the elements after the first. -/
def PathGood (fetch : String → Except GoError String) (root target : String)
    (visited : List String) (l : List String) : Prop :=
  (∃ x, WalkTo fetch root l x) ∧ (∀ y ∈ l.dropLast, y ∈ visited) ∧ l.dropLast.Nodup
    ∧ target ∉ l.tail

/-- The loop invariant of `findPath`, for every runtime: the queue is sorted by
length and spans at most two lengths, every queued slice is well formed and
reads a walk as described by `PathGood`, and the visited set holds pairwise
distinct reachable packages. -/
structure PathInv (fetch : String → Except GoError String) (root target : String)
    (st : PathState) : Prop where
  sorted : st.q.vals.Pairwise (fun a b => a.len ≤ b.len)
  span : ∀ a ∈ st.q.vals, ∀ b ∈ st.q.vals, b.len ≤ a.len + 1
  good : ∀ s ∈ st.q.vals,
    s.ok st.heap ∧ PathGood fetch root target st.visited.keys (s.read st.heap)
  nodup : st.visited.keys.Nodup
  visited_reach : ∀ x ∈ st.visited.keys, Reach fetch root x

/-- The states in which the body of the loop `for cond { body }` is executed, in
order, in a run from state `s` with the given fuel. -/
def forLoop.states {σ ρ : Type} (cond : σ → Bool) (body : σ → Flow σ ρ) : Nat → σ → List σ
  | 0, _ => []
  | fuel + 1, s =>
    if cond s then
      s :: (match body s with
        | .continue_ s1 => forLoop.states cond body fuel s1
        | .return_ _ => [])
    else []

/-- The package for which one execution of the body of `findPath` in state `st`
calls the list command: the last element of the path taken from the queue,
unless it is visited. -/
def findPath.fetched (st : PathState) : Option String :=
  match st.q.next with
  | none => none
  | some (p, _) =>
    match p.last st.heap with
    | none => none
    | some pkg => if st.visited.contains pkg then none else some pkg

/-- The package for which one execution of the body of `findAllPaths` in state
`st` calls the list command: the last element of the path taken from the
queue. -/
def findAllPaths.fetched (st : PathState) : Option String :=
  match st.q.next with
  | none => none
  | some (p, _) => p.last st.heap

/-- The package for which one execution of the body of `buildTree` in state `st`
calls the list command: the label of the node taken from the queue, unless it is
visited. -/
def buildTree.fetched (st : TreeState) : Option String :=
  match st.q.next with
  | none => none
  | some (t, _) =>
    match st.heap[t]? with
    | none => none
    | some cell => if st.visited.contains cell.val then none else some cell.val

/-- The packages for which a run of `findPath` calls the list command, in
order. -/
def findPath.fetches (rt : GoRuntime) (fetch : String → Except GoError String) (fuel : Nat)
    (root target : String) : List String :=
  (forLoop.states (fun st => !st.q.empty) (findPath.body rt fetch target) fuel
    (PathState.init root)).filterMap findPath.fetched

/-- The packages for which a run of `findAllPaths` calls the list command, in
order. -/
def findAllPaths.fetches (rt : GoRuntime) (fetch : String → Except GoError String)
    (fuel : Nat) (root target : String) : List String :=
  (forLoop.states (fun st => !st.q.empty) (findAllPaths.body rt fetch target) fuel
    (PathState.init root)).filterMap findAllPaths.fetched

/-- The packages for which a run of `buildTree` calls the list command, in
order. -/
def buildTree.fetches (fetch : String → Except GoError String) (fuel : Nat)
    (root : String) : List String :=
  (forLoop.states (fun st => !st.q.empty) (buildTree.body fetch) fuel
    (TreeState.init root)).filterMap buildTree.fetched

/-- A graph with a cycle that does not pass through the root: A imports B, B
imports C, C imports T and B, T imports nothing. -/
def lasso : String → Except GoError String := fun pkg =>
  if pkg = "github.com/juju/juju/a" then .ok "'[github.com/juju/juju/b]'\n"
  else if pkg = "github.com/juju/juju/b" then .ok "'[github.com/juju/juju/c]'\n"
  else if pkg = "github.com/juju/juju/c" then
    .ok "'[github.com/juju/juju/t github.com/juju/juju/b]'\n"
  else if pkg = "github.com/juju/juju/t" then .ok "'[]'\n"
  else .error (.exec "exit status 1")

/-- What `findAllPaths` keeps true of the elements `l` of a short queued path: the
elements after the first are pairwise distinct, visited, and differ from the
target. -/
def ShortQ (target : String) (visited : List String) (l : List String) : Prop :=
  l.tail.Nodup ∧ (∀ y ∈ l.tail, y ∈ visited) ∧ target ∉ l.tail

/-- What `findAllPaths` keeps true of the elements `l` of a short collected path:
the elements after the first are pairwise distinct and the last one is the
target. -/
def ShortR (target : String) (l : List String) : Prop :=
  l.tail.Nodup ∧ l.getLast? = some target

/-- The part of the loop invariant of `findAllPaths` that holds for slices of at
most `N` elements on a runtime whose `append` leaves no spare capacity in slices
shorter than `N`: queued slices shorter than `N` are full, and the slices of at
most `N` elements read as `ShortQ` and `ShortR` say. -/
structure ShortInv (N : Nat) (target : String) (st : PathState) : Prop where
  q_short : ∀ s ∈ st.q.vals, (s.len < N → s.cap = s.len)
    ∧ (s.len ≤ N → ShortQ target st.visited.keys (s.read st.heap))
  r_short : ∀ s ∈ st.paths, s.len ≤ N → ShortR target (s.read st.heap)

/-! ## Loops -/

theorem forLoop_succ {σ ρ : Type} (cond : σ → Bool) (body : σ → Flow σ ρ) (after : σ → ρ)
    (fuel : Nat) (s : σ) :
    forLoop cond body after (fuel + 1) s =
      if cond s then
        match body s with
        | .continue_ s1 => forLoop cond body after fuel s1
        | .return_ r => some r
      else some (after s) := rfl

/-- More fuel does not change a result. -/
theorem forLoop_mono {σ ρ : Type} {cond : σ → Bool} {body : σ → Flow σ ρ} {after : σ → ρ}
    {n : Nat} {s : σ} {r : ρ} (h : forLoop cond body after n s = some r) :
    ∀ m, n ≤ m → forLoop cond body after m s = some r := by
  induction n generalizing s with
  | zero => simp [forLoop] at h
  | succ n ih =>
    intro m hm
    obtain ⟨k, rfl⟩ : ∃ k, m = k + 1 := ⟨m - 1, by omega⟩
    rw [forLoop_succ] at h ⊢
    by_cases hc : cond s
    · simp only [hc, if_true] at h ⊢
      cases hb : body s with
      | continue_ s1 =>
        simp only [hb] at h ⊢
        exact ih h k (by omega)
      | return_ r1 =>
        simp only [hb] at h ⊢
        exact h
    · simp only [hc] at h ⊢
      exact h

/-- Two runs that both finish give the same result. -/
theorem forLoop_det {σ ρ : Type} {cond : σ → Bool} {body : σ → Flow σ ρ} {after : σ → ρ}
    {n m : Nat} {s : σ} {r1 r2 : ρ} (h1 : forLoop cond body after n s = some r1)
    (h2 : forLoop cond body after m s = some r2) : r1 = r2 := by
  have a := forLoop_mono h1 (max n m) (le_max_left _ _)
  have b := forLoop_mono h2 (max n m) (le_max_right _ _)
  rw [a] at b
  exact Option.some.inj b

/-- Invariant rule: a finished run ends in a state that satisfies the invariant,
either by leaving the loop or by returning from the body. -/
theorem forLoop_inv {σ ρ : Type} {cond : σ → Bool} {body : σ → Flow σ ρ} {after : σ → ρ}
    (Inv : σ → Prop)
    (hpres : ∀ s s1, Inv s → cond s = true → body s = .continue_ s1 → Inv s1)
    {n : Nat} {s : σ} {r : ρ} (hs : Inv s) (h : forLoop cond body after n s = some r) :
    ∃ s1, Inv s1 ∧ ((cond s1 = false ∧ r = after s1) ∨ (cond s1 = true ∧ body s1 = .return_ r)) := by
  induction n generalizing s with
  | zero => simp [forLoop] at h
  | succ n ih =>
    rw [forLoop_succ] at h
    by_cases hc : cond s
    · simp only [hc, if_true] at h
      cases hb : body s with
      | continue_ s1 =>
        simp only [hb] at h
        exact ih (hpres s s1 hs hc hb) h
      | return_ r1 =>
        simp only [hb] at h
        exact ⟨s, hs, Or.inr ⟨hc, by rw [hb, Option.some.inj h]⟩⟩
    · simp only [hc] at h
      exact ⟨s, hs, Or.inl ⟨by simpa using hc, (Option.some.inj h).symm⟩⟩

/-- Termination rule: with an invariant and a measure that every iteration
decreases, the run finishes within `measure + 1` iterations. -/
theorem forLoop_terminates {σ ρ : Type} {cond : σ → Bool} {body : σ → Flow σ ρ}
    {after : σ → ρ} (Inv : σ → Prop) (μ : σ → Nat)
    (hpres : ∀ s s1, Inv s → cond s = true → body s = .continue_ s1 → Inv s1 ∧ μ s1 < μ s)
    {s : σ} (hs : Inv s) : ∃ r, forLoop cond body after (μ s + 1) s = some r := by
  generalize hk : μ s = k
  induction k using Nat.strong_induction_on generalizing s with
  | _ k ih =>
    rw [forLoop_succ]
    by_cases hc : cond s
    · simp only [hc, if_true]
      cases hb : body s with
      | continue_ s1 =>
        simp only
        obtain ⟨hi, hlt⟩ := hpres s s1 hs hc hb
        obtain ⟨r, hr⟩ := ih (μ s1) (by omega) hi rfl
        exact ⟨r, forLoop_mono hr k (by omega)⟩
      | return_ r1 => exact ⟨r1, rfl⟩
    · simp only [hc]
      exact ⟨_, rfl⟩

theorem findPath_mono {rt : GoRuntime} {fetch : String → Except GoError String} {n : Nat}
    {root target : String} {r : Outcome (List String)}
    (h : findPath rt fetch n root target = some r) (m : Nat) (hm : n ≤ m) :
    findPath rt fetch m root target = some r :=
  forLoop_mono h m hm

theorem findAllPaths_mono {rt : GoRuntime} {fetch : String → Except GoError String} {n : Nat}
    {root target : String} {r : Outcome (List (List String))}
    (h : findAllPaths rt fetch n root target = some r) (m : Nat) (hm : n ≤ m) :
    findAllPaths rt fetch m root target = some r :=
  forLoop_mono h m hm

theorem buildTree_mono {fetch : String → Except GoError String} {n : Nat}
    {root : String} {r : Outcome tree}
    (h : buildTree fetch n root = some r) (m : Nat) (hm : n ≤ m) :
    buildTree fetch m root = some r :=
  forLoop_mono h m hm

/-! ## Slices and the heap -/

theorem getD_set_heap (h : Heap) (i j : Nat) (a : List String) :
    (h.set i a)[j]?.getD [] = if i = j ∧ i < h.length then a else h[j]?.getD [] := by
  rw [List.getElem?_set]
  by_cases hij : i = j
  · subst hij
    by_cases hl : i < h.length
    · simp [hl]
    · have : h[i]? = none := List.getElem?_eq_none (by omega)
      simp [hl, this]
  · simp [hij]

theorem path.ok_ptr_lt {h : Heap} {p : path} (hp : p.ok h) : p.ptr < h.length := by
  obtain ⟨h0, h1, h2⟩ := hp
  by_contra hc
  rw [List.getElem?_eq_none (by omega)] at h2
  simp at h2
  omega

theorem path.read_length {h : Heap} {p : path} (hp : p.ok h) : (p.read h).length = p.len := by
  obtain ⟨_, h1, h2⟩ := hp
  simp [path.read, h2, h1]

theorem path.append_len (rt : GoRuntime) (h : Heap) (p : path) (s : String) :
    (p.append rt h s).2.len = p.len + 1 := by
  unfold path.append
  split <;> rfl

/-- Reading the slice that `append` returns, right after the call. -/
theorem path.append_read_new (rt : GoRuntime) {h : Heap} {p : path} (s : String)
    (hp : p.ok h) : (p.append rt h s).2.read (p.append rt h s).1 = p.read h ++ [s] := by
  have hptr := path.ok_ptr_lt hp
  obtain ⟨h0, h1, h2⟩ := hp
  unfold path.append
  split
  · rename_i hlt
    simp only [path.read, getD_set_heap, hptr, and_self, if_true]
    rw [List.take_succ, List.set_take, List.getElem?_set]
    simp only [if_true, h2, hlt]
    rw [List.set_eq_of_length_le (by simp)]
    rfl
  · simp only [path.read]
    rw [List.getElem?_append_right (le_refl _)]
    simp only [Nat.sub_self, List.getElem?_cons_zero, Option.getD_some]
    have hl : (List.take p.len (h[p.ptr]?.getD [])).length = p.len := by simp [h2, h1]
    rw [List.take_append_eq_append_take, hl]
    simp [List.take_of_length_le (le_of_eq hl) ]

theorem path.append_ok_new (rt : GoRuntime) {h : Heap} {p : path} (s : String)
    (hp : p.ok h) : (p.append rt h s).2.ok (p.append rt h s).1 := by
  have hptr := path.ok_ptr_lt hp
  obtain ⟨h0, h1, h2⟩ := hp
  unfold path.append
  split
  · rename_i hlt
    refine ⟨by simp, by simp; omega, ?_⟩
    simp only [getD_set_heap, hptr, and_self, if_true, List.length_set]
    exact h2
  · refine ⟨by simp, by simp, ?_⟩
    simp only
    rw [List.getElem?_append_right (le_refl _)]
    simp [path.read, h2, h1]
    omega

/-- A well-formed slice stays well formed when `append` is applied to another. -/
theorem path.append_ok_old (rt : GoRuntime) {h : Heap} {p q : path} (s : String)
    (hq : q.ok h) : q.ok (p.append rt h s).1 := by
  have hptr := path.ok_ptr_lt hq
  obtain ⟨h0, h1, h2⟩ := hq
  unfold path.append
  split
  · refine ⟨h0, h1, ?_⟩
    simp only [getD_set_heap]
    split
    · rename_i hc
      rw [List.length_set, hc.1]; exact h2
    · exact h2
  · refine ⟨h0, h1, ?_⟩
    simp only
    rw [List.getElem?_append_left hptr]; exact h2

/-- How the elements of another slice read after `append(p, s)`: unchanged,
unless `p` has spare capacity and the slice shares the backing array of `p` and
is longer than `p`; then its element at index `len(p)` is now `s`. -/
theorem path.append_read_old (rt : GoRuntime) {h : Heap} {p q : path} (s : String)
    (hq : q.ok h) :
    q.read (p.append rt h s).1 =
      if p.len < p.cap ∧ q.ptr = p.ptr ∧ p.len < q.len then (q.read h).set p.len s
      else q.read h := by
  have hptr := path.ok_ptr_lt hq
  obtain ⟨h0, h1, h2⟩ := hq
  unfold path.append
  by_cases hlt : p.len < p.cap
  · simp only [hlt, if_true, path.read, getD_set_heap, true_and]
    by_cases hpq : q.ptr = p.ptr
    · have hp' : p.ptr < h.length := hpq ▸ hptr
      simp only [hpq, hp', and_self, if_true, true_and]
      rw [List.set_take]
      split
      · rfl
      · rw [List.set_eq_of_length_le]
        simp; omega
    · have : ¬ (p.ptr = q.ptr ∧ p.ptr < h.length) := fun hc => hpq hc.1.symm
      simp [this, hpq]
  · simp only [hlt, if_false, path.read, false_and]
    rw [List.getElem?_append_left hptr]

theorem path.last_eq {h : Heap} {p : path} (hp : p.ok h) :
    p.last h = (p.read h).getLast? := by
  have hl := path.read_length hp
  obtain ⟨h0, h1, h2⟩ := hp
  rw [List.getLast?_eq_getElem?, hl]
  simp only [path.last, h0, if_false, path.read]
  rw [List.getElem?_take_of_lt (by omega)]

/-! ## The dependency filter (C7) -/

theorem filterDeps_fold (acc deps : List String) :
    deps.foldl
        (fun fdeps dep => if HasPrefix dep "github.com/juju/juju" then fdeps ++ [dep] else fdeps)
        acc =
      acc ++ deps.filter (fun dep => HasPrefix dep "github.com/juju/juju") := by
  induction deps generalizing acc with
  | nil => simp
  | cons d ds ih =>
    rw [List.foldl_cons, ih]
    by_cases hd : HasPrefix d "github.com/juju/juju" = true
    · simp [hd, List.filter_cons]
    · simp [hd, List.filter_cons]

theorem filterDeps_eq (deps : List String) :
    filterDeps deps = deps.filter (fun dep => HasPrefix dep "github.com/juju/juju") := by
  unfold filterDeps
  rw [filterDeps_fold]
  rfl

theorem HasPrefix_iff (s pre : String) :
    HasPrefix s pre = true ↔ ∃ rest : String, s = pre ++ rest := by
  unfold HasPrefix
  rw [List.isPrefixOf_iff_prefix]
  constructor
  · rintro ⟨t, ht⟩
    refine ⟨⟨t⟩, ?_⟩
    apply String.ext
    simp [← ht]
  · rintro ⟨rest, rfl⟩
    exact ⟨rest.data, by simp⟩

/-- C7: `filterDeps` is the order-preserving filter by the prefix
"github.com/juju/juju": it returns the elements of `deps` that start with the
prefix (those of the form prefix followed by some rest), in their order and
with their multiplicity, so it is a sub-list of `deps`; it is empty for the empty
list and empty exactly when no element matches; being a total function it
never fails. -/
theorem filterDeps_prefix_filter (deps : List String) :
    filterDeps deps = deps.filter (fun dep => HasPrefix dep "github.com/juju/juju")
      ∧ (∀ dep : String, HasPrefix dep "github.com/juju/juju" = true ↔
          ∃ rest : String, dep = "github.com/juju/juju" ++ rest)
      ∧ List.Sublist (filterDeps deps) deps
      ∧ filterDeps [] = []
      ∧ (filterDeps deps = [] ↔
          ∀ dep ∈ deps, ¬ ∃ rest : String, dep = "github.com/juju/juju" ++ rest) := by
  refine ⟨filterDeps_eq deps, fun dep => HasPrefix_iff dep _, ?_, rfl, ?_⟩
  · rw [filterDeps_eq]; exact List.filter_sublist _
  · rw [filterDeps_eq, List.filter_eq_nil_iff]
    constructor
    · intro h dep hd hc
      exact h dep hd ((HasPrefix_iff dep _).2 hc)
    · intro h dep hd hc
      exact h dep hd ((HasPrefix_iff dep _).1 hc)

/-! ## Evaluations on the example graphs (C5, C4, C8, C10) -/

/-- C5 (as stated, refuted): on the example graph `findAllPaths` from A to D
never returns the one-element list holding only the path A, B, D. -/
theorem findAllPaths_diamond_not_single :
    ¬ ∃ fuel, findAllPaths gcRuntime diamond fuel "github.com/juju/juju/a"
        "github.com/juju/juju/d" =
      some (.returned (some [["github.com/juju/juju/a", "github.com/juju/juju/b",
        "github.com/juju/juju/d"]]) none) := by
  rintro ⟨fuel, h⟩
  have h4 : findAllPaths gcRuntime diamond 4 "github.com/juju/juju/a"
      "github.com/juju/juju/d" =
      some (.returned (some [["github.com/juju/juju/a", "github.com/juju/juju/b",
        "github.com/juju/juju/d"], ["github.com/juju/juju/a", "github.com/juju/juju/c",
        "github.com/juju/juju/d"]]) none) := by decide
  have := forLoop_det h h4
  revert this
  decide

/-- C5 (amended): on the example graph `findAllPaths` from A to D returns the
two paths A, B, D and A, C, D, in this order: the target is never put into the
visited set, so every edge into it yields a path. -/
theorem findAllPaths_diamond (fuel : Nat) :
    findAllPaths gcRuntime diamond (fuel + 4) "github.com/juju/juju/a"
        "github.com/juju/juju/d" =
      some (.returned (some [["github.com/juju/juju/a", "github.com/juju/juju/b",
        "github.com/juju/juju/d"], ["github.com/juju/juju/a", "github.com/juju/juju/c",
        "github.com/juju/juju/d"]]) none) :=
  findAllPaths_mono (n := 4) (by decide) (fuel + 4) (by omega)

/-- C4 (evaluation at the failing input): on the graph `fork` the one path that
`findAllPaths` from A to D returns reads A, B, C, E when the function returns:
its last element is E, not the target D. -/
theorem findAllPaths_fork_overwritten (fuel : Nat) :
    findAllPaths gcRuntime fork (fuel + 6) "github.com/juju/juju/a"
        "github.com/juju/juju/d" =
      some (.returned (some [["github.com/juju/juju/a", "github.com/juju/juju/b",
        "github.com/juju/juju/c", "github.com/juju/juju/e"]]) none) :=
  findAllPaths_mono (n := 6) (by decide) (fuel + 6) (by omega)

/-- C8 (evaluation at the failing input): for the path `p` = a, b, c built by
two appends from `path{a}` (length 3, capacity 4), `q1 = p.append(s)` reads
a, b, c, s right after the call, and reads a, b, c, t once `q2 = p.append(t)`
has been computed; `p` itself still reads a, b, c.  In `findPath` on the graph
`fork` the queued path A, B, C, D is overwritten in this way by A, B, C, E, the
package D is never expanded, and the search from A for T, which D imports,
ends with the not-found error. -/
theorem append_overwrites_sibling :
    sibling.p.2.len = 3 ∧ sibling.p.2.cap = 4
      ∧ sibling.q1.2.read sibling.q1.1 = ["a", "b", "c", "s"]
      ∧ sibling.q1.2.read sibling.q2.1 = ["a", "b", "c", "t"]
      ∧ sibling.q2.2.read sibling.q2.1 = ["a", "b", "c", "t"]
      ∧ sibling.p.2.read sibling.q2.1 = ["a", "b", "c"]
      ∧ ReachIn fork 4 "github.com/juju/juju/a" "github.com/juju/juju/t"
      ∧ findPath gcRuntime fork 7 "github.com/juju/juju/a" "github.com/juju/juju/t" =
          some (.returned none
            (some (notFound gcRuntime "github.com/juju/juju/a" "github.com/juju/juju/t"))) := by
  refine ⟨by decide, by decide, by decide, by decide, by decide, by decide, ?_, by decide⟩
  exact ⟨"github.com/juju/juju/d", ⟨"github.com/juju/juju/c", ⟨"github.com/juju/juju/b",
    ⟨"github.com/juju/juju/a", rfl, by decide⟩, by decide⟩, by decide⟩, by decide⟩

/-- C10 (evaluation at the failing inputs): with no action the usage text is
printed and the exit code is 1; with an action and no root, or `path` or `paths`
with a root and no target, the program ends in the index panic of `os.Args[2]`
or `os.Args[3]` with nothing written to standard output (no usage message),
whatever the runtime and the fetcher. -/
theorem main_missing_arguments (rt : GoRuntime) (fetch : String → Except GoError String)
    (fuel : Nat) :
    main rt fetch fuel ["deps"] =
        some ⟨"no action specified\nvalid actions are: tree, path, paths\n", .code 1⟩
      ∧ main rt fetch fuel ["deps", "tree"] = some ⟨"", .indexPanic 2 2⟩
      ∧ main rt fetch fuel ["deps", "path"] = some ⟨"", .indexPanic 2 2⟩
      ∧ main rt fetch fuel ["deps", "paths"] = some ⟨"", .indexPanic 2 2⟩
      ∧ main rt fetch fuel ["deps", "path", "github.com/juju/juju/a"] =
          some ⟨"", .indexPanic 3 3⟩
      ∧ main rt fetch fuel ["deps", "paths", "github.com/juju/juju/a"] =
          some ⟨"", .indexPanic 3 3⟩
      ∧ (Exit.indexPanic 2 2).status = 2 := by
  refine ⟨rfl, rfl, rfl, rfl, ?_, ?_, rfl⟩
  · simp [main]
  · simp [main]

/-! ## Unreachable targets (C2, C3) -/

theorem forLoop_total {σ ρ : Type} {cond : σ → Bool} {body : σ → Flow σ ρ}
    {after : σ → ρ} (Inv : σ → Prop) (μ : σ → Nat)
    (hstep : ∀ s, Inv s → cond s = true →
      ∃ s1, body s = .continue_ s1 ∧ Inv s1 ∧ μ s1 < μ s)
    {s : σ} (hs : Inv s) :
    ∃ s1, Inv s1 ∧ cond s1 = false ∧ forLoop cond body after (μ s + 1) s = some (after s1) := by
  obtain ⟨r, hr⟩ := @forLoop_terminates _ _ cond body after Inv μ
    (fun s s1 hi hc hb => by
      obtain ⟨s2, h2, hi2, hlt⟩ := hstep s hi hc
      rw [hb] at h2
      cases h2
      exact ⟨hi2, hlt⟩) _ hs
  obtain ⟨s1, hi1, hcase⟩ := @forLoop_inv _ _ cond body after Inv
    (fun s s1 hi hc hb => by
      obtain ⟨s2, h2, hi2, _⟩ := hstep s hi hc
      rw [hb] at h2
      cases h2
      exact hi2) _ _ _ hs hr
  rcases hcase with ⟨hc, rfl⟩ | ⟨hc, hb⟩
  · exact ⟨s1, hi1, hc, hr⟩
  · obtain ⟨s2, h2, _⟩ := hstep s1 hi1 hc
    rw [hb] at h2
    cases h2

theorem path.within_append_old (rt : GoRuntime) {V : Set String} {h : Heap} {p q : path}
    {s : String} (hq : q.within V h) (hs : s ∈ V) : q.within V (p.append rt h s).1 := by
  refine ⟨path.append_ok_old rt s hq.1, ?_⟩
  intro x hx
  rw [path.append_read_old rt s hq.1] at hx
  split at hx
  · rcases List.mem_or_eq_of_mem_set hx with h1 | h1
    · exact hq.2 x h1
    · exact h1 ▸ hs
  · exact hq.2 x hx

theorem path.within_append_new (rt : GoRuntime) {V : Set String} {h : Heap} {p : path}
    {s : String} (hp : p.within V h) (hs : s ∈ V) :
    (p.append rt h s).2.within V (p.append rt h s).1 := by
  refine ⟨path.append_ok_new rt s hp.1, ?_⟩
  intro x hx
  rw [path.append_read_new rt s hp.1] at hx
  rcases List.mem_append.1 hx with h1 | h1
  · exact hp.2 x h1
  · simp at h1; exact h1 ▸ hs

theorem path.within_lit (V : Set String) (s : String) (hs : s ∈ V) :
    (path.lit [] s).2.within V (path.lit [] s).1 := by
  refine ⟨⟨by simp [path.lit], by simp [path.lit], by simp [path.lit]⟩, ?_⟩
  intro x hx
  simp [path.lit, path.read] at hx
  exact hx ▸ hs

theorem path.within_last {V : Set String} {h : Heap} {p : path} (hp : p.within V h) :
    ∃ pkg, p.last h = some pkg ∧ pkg ∈ V := by
  rw [path.last_eq hp.1]
  have hl := path.read_length hp.1
  have hne : p.read h ≠ [] := by
    intro hc
    rw [hc] at hl
    exact hp.1.1 hl.symm
  refine ⟨(p.read h).getLast hne, List.getLast?_eq_getLast _ hne, hp.2 _ (List.getLast_mem hne)⟩

theorem queue.next_cons {T : Type} {q : queue T} (h : (!q.empty) = true) :
    ∃ t rest, q.vals = t :: rest ∧ q.next = some (t, ⟨rest⟩) := by
  cases q with
  | mk vals =>
    cases vals with
    | nil => simp [queue.empty] at h
    | cons t rest => exact ⟨t, rest, rfl, rfl⟩

theorem unvisited_add {Vf : Finset String} {visited : stringSet} {pkg : String} :
    unvisited Vf (visited.add pkg) = (unvisited Vf visited).erase pkg := by
  ext x
  simp only [unvisited, stringSet.add, Finset.mem_filter, List.mem_cons, not_or,
    Finset.mem_erase]
  tauto

theorem mem_unvisited {Vf : Finset String} {visited : stringSet} {pkg : String}
    (h1 : pkg ∈ Vf) (h2 : visited.contains pkg = false) : pkg ∈ unvisited Vf visited := by
  simp only [unvisited, Finset.mem_filter]
  refine ⟨h1, ?_⟩
  simpa [stringSet.contains] using h2

/-- The loop over the dependencies in `findPath` when none of them is the
target: every dependency adds one path to the queue. -/
theorem findPath_deps_inl (rt : GoRuntime) (target : String) (V : Set String) (p : path)
    (fdeps : List String) (hV : ∀ d ∈ fdeps, d ∈ V) (ht : target ∉ fdeps) :
    ∀ (h : Heap) (q : queue path), p.within V h → (∀ r ∈ q.vals, r.within V h) →
      ∃ h1 q1, findPath.deps rt target p fdeps h q = .inl (h1, q1)
        ∧ q1.vals.length = q.vals.length + fdeps.length
        ∧ ∀ r ∈ q1.vals, r.within V h1 := by
  induction fdeps with
  | nil =>
    intro h q _ hq
    exact ⟨h, q, rfl, rfl, hq⟩
  | cons d ds ih =>
    intro h q hp hq
    have hd : d ∈ V := hV d (List.mem_cons_self _ _)
    have hne : d ≠ target := fun hc => ht (hc ▸ List.mem_cons_self _ _)
    simp only [findPath.deps, hne, if_false]
    obtain ⟨h1, q1, e, hl, hw⟩ := ih (fun x hx => hV x (List.mem_cons_of_mem _ hx))
      (fun hc => ht (List.mem_cons_of_mem _ hc)) (p.append rt h d).1
      (q.add (p.append rt h d).2) (path.within_append_old rt hp hd) (by
        intro r hr
        simp only [queue.add, List.mem_append, List.mem_singleton] at hr
        rcases hr with hr | hr
        · exact path.within_append_old rt (hq r hr) hd
        · rw [hr]; exact path.within_append_new rt hp hd)
    refine ⟨h1, q1, e, ?_, hw⟩
    rw [hl]
    simp [queue.add]
    omega

theorem expand_eq_fdepsOf {fetch : String → Except GoError String} {pkg out : String}
    (h : fetch pkg = .ok out) : expand fetch pkg = .ok (fdepsOf fetch pkg) := by
  simp [fdepsOf, expand, h]

theorem exists_closed_finset (fetch : String → Except GoError String) (root : String)
    (hfin : {x | Reach fetch root x}.Finite) :
    ∃ Vf : Finset String, root ∈ Vf ∧ (∀ x ∈ Vf, Reach fetch root x)
      ∧ (∀ x, Reach fetch root x → x ∈ Vf)
      ∧ ∀ x ∈ Vf, ∀ y ∈ fdepsOf fetch x, y ∈ Vf := by
  refine ⟨hfin.toFinset, ?_, ?_, ?_, ?_⟩
  · simp [Reach, Relation.ReflTransGen.refl]
  · intro x hx
    simpa using hx
  · intro x hx
    simpa using hx
  · intro x hx y hy
    simp only [Set.Finite.mem_toFinset, Set.mem_setOf_eq] at hx ⊢
    exact Relation.ReflTransGen.tail hx hy

/-- One iteration of `findPath` in a closed finite set of packages none of
which fails or has the target as a dependency: the loop goes on, the queued
paths stay inside the set, and the measure drops. -/
theorem findPath_body_unreachable (rt : GoRuntime) (fetch : String → Except GoError String)
    (target : String) (Vf : Finset String)
    (hclosed : ∀ x ∈ Vf, ∀ y ∈ fdepsOf fetch x, y ∈ Vf)
    (hok : ∀ x ∈ Vf, ∃ out, fetch x = .ok out)
    (hno : ∀ x ∈ Vf, target ∉ fdepsOf fetch x)
    (st : PathState) (hinv : ∀ r ∈ st.q.vals, r.within (↑Vf : Set String) st.heap)
    (hc : (!st.q.empty) = true) :
    ∃ st1, findPath.body rt fetch target st = .continue_ st1
      ∧ (∀ r ∈ st1.q.vals, r.within (↑Vf : Set String) st1.heap)
      ∧ findPath.measure fetch Vf st1 < findPath.measure fetch Vf st := by
  obtain ⟨p, rest, hvals, hnext⟩ := queue.next_cons hc
  have hp : p.within (↑Vf : Set String) st.heap := hinv p (by rw [hvals]; exact List.mem_cons_self _ _)
  have hrest : ∀ r ∈ rest, r.within (↑Vf : Set String) st.heap :=
    fun r hr => hinv r (by rw [hvals]; exact List.mem_cons_of_mem _ hr)
  obtain ⟨pkg, hlast, hpkg⟩ := path.within_last hp
  have hpkg' : pkg ∈ Vf := hpkg
  unfold findPath.body
  simp only [hnext, hlast]
  by_cases hv : st.visited.contains pkg = true
  · simp only [hv, if_true]
    refine ⟨_, rfl, hrest, ?_⟩
    simp [findPath.measure, hvals]
  · simp only [hv]
    obtain ⟨out, hout⟩ := hok pkg hpkg'
    rw [expand_eq_fdepsOf hout]
    obtain ⟨h1, q1, e, hl, hw⟩ := findPath_deps_inl rt target (↑Vf : Set String) p
      (fdepsOf fetch pkg) (fun d hd => hclosed pkg hpkg' d hd) (hno pkg hpkg') st.heap ⟨rest⟩
      hp hrest
    simp only [e]
    refine ⟨_, rfl, hw, ?_⟩
    simp only [findPath.measure, hl, hvals, unvisited_add, List.length_cons]
    have hmem := mem_unvisited hpkg' (by simpa using hv)
    have := Finset.add_sum_erase (unvisited Vf st.visited)
      (fun x => (fdepsOf fetch x).length) hmem
    simp only at this
    omega

theorem findPath_measure_init (fetch : String → Except GoError String) (Vf : Finset String)
    (root : String) :
    findPath.measure fetch Vf (PathState.init root) =
      1 + Finset.sum Vf (fun x => (fdepsOf fetch x).length) := by
  simp [findPath.measure, PathState.init, unvisited, queue.add, path.lit]

theorem init_within (V : Set String) (root : String) (hroot : root ∈ V) :
    ∀ r ∈ (PathState.init root).q.vals, r.within V (PathState.init root).heap := by
  intro r hr
  simp only [PathState.init, queue.add, List.nil_append, List.mem_singleton] at hr
  rw [hr]
  exact path.within_lit V root hroot

/-- In a closed finite set of packages none of which fails or has the target as
a dependency, `findPath` ends with the not-found error. -/
theorem findPath_unreachable_aux (rt : GoRuntime) (fetch : String → Except GoError String)
    (root target : String) (Vf : Finset String) (hroot : root ∈ Vf)
    (hclosed : ∀ x ∈ Vf, ∀ y ∈ fdepsOf fetch x, y ∈ Vf)
    (hok : ∀ x ∈ Vf, ∃ out, fetch x = .ok out)
    (hno : ∀ x ∈ Vf, target ∉ fdepsOf fetch x) (fuel : Nat)
    (hfuel : 2 + Finset.sum Vf (fun x => (fdepsOf fetch x).length) ≤ fuel) :
    findPath rt fetch fuel root target = some (.returned none (some (notFound rt root target))) := by
  obtain ⟨s1, _, _, hrun⟩ := @forLoop_total _ _ (fun st : PathState => !st.q.empty)
    (findPath.body rt fetch target)
    (fun _ => Outcome.returned none (some (notFound rt root target)))
    (fun st => ∀ r ∈ st.q.vals, r.within (↑Vf : Set String) st.heap)
    (findPath.measure fetch Vf)
    (fun s hi hc => findPath_body_unreachable rt fetch target Vf hclosed hok hno s hi hc)
    (PathState.init root) (init_within _ root hroot)
  rw [findPath_measure_init] at hrun
  exact forLoop_mono hrun fuel (by omega)

/-- The loop over the dependencies in `findAllPaths` when none of them is the
target: nothing is collected, the queued paths stay inside the set, and the
measure is unchanged. -/
theorem findAllPaths_deps_unreachable (rt : GoRuntime) (target : String) (Vf : Finset String)
    (p : path) (fdeps : List String) (hV : ∀ d ∈ fdeps, d ∈ Vf) (ht : target ∉ fdeps) :
    ∀ (st : PathState), p.within (↑Vf : Set String) st.heap →
      (∀ r ∈ st.q.vals, r.within (↑Vf : Set String) st.heap) →
      (∀ r ∈ (findAllPaths.deps rt target p fdeps st).q.vals,
          r.within (↑Vf : Set String) (findAllPaths.deps rt target p fdeps st).heap)
        ∧ (findAllPaths.deps rt target p fdeps st).paths = st.paths
        ∧ findAllPaths.measure Vf (findAllPaths.deps rt target p fdeps st)
            = findAllPaths.measure Vf st := by
  induction fdeps with
  | nil =>
    intro st _ hq
    exact ⟨hq, rfl, rfl⟩
  | cons d ds ih =>
    intro st hp hq
    have hd : d ∈ (↑Vf : Set String) := hV d (List.mem_cons_self _ _)
    have hne : d ≠ target := fun hc => ht (hc ▸ List.mem_cons_self _ _)
    have hV' : ∀ x ∈ ds, x ∈ Vf := fun x hx => hV x (List.mem_cons_of_mem _ hx)
    have ht' : target ∉ ds := fun hc => ht (List.mem_cons_of_mem _ hc)
    simp only [findAllPaths.deps, hne, if_false]
    by_cases hv : st.visited.contains d = true
    · simp only [hv, Bool.not_true, Bool.false_eq_true, if_false]
      obtain ⟨a, b, c⟩ := ih hV' ht' { st with heap := (p.append rt st.heap d).1 }
        (path.within_append_old rt hp hd)
        (fun r hr => path.within_append_old rt (hq r hr) hd)
      exact ⟨a, b, c⟩
    · simp only [hv, Bool.not_false, if_true]
      obtain ⟨a, b, c⟩ := ih hV' ht'
        { st with heap := (p.append rt st.heap d).1, visited := st.visited.add d,
                  q := st.q.add (p.append rt st.heap d).2 }
        (path.within_append_old rt hp hd)
        (by
          intro r hr
          simp only [queue.add, List.mem_append, List.mem_singleton] at hr
          rcases hr with hr | hr
          · exact path.within_append_old rt (hq r hr) hd
          · rw [hr]; exact path.within_append_new rt hp hd)
      refine ⟨a, b, ?_⟩
      rw [c]
      simp only [findAllPaths.measure, queue.add, unvisited_add, List.length_append,
        List.length_singleton]
      have hmem := @mem_unvisited Vf st.visited d hd (by simpa using hv)
      have := Finset.card_erase_add_one hmem
      omega

/-- One iteration of `findAllPaths` in a closed finite set of packages none of
which fails or has the target as a dependency. -/
theorem findAllPaths_body_unreachable (rt : GoRuntime)
    (fetch : String → Except GoError String) (target : String) (Vf : Finset String)
    (hclosed : ∀ x ∈ Vf, ∀ y ∈ fdepsOf fetch x, y ∈ Vf)
    (hok : ∀ x ∈ Vf, ∃ out, fetch x = .ok out)
    (hno : ∀ x ∈ Vf, target ∉ fdepsOf fetch x)
    (st : PathState)
    (hinv : (∀ r ∈ st.q.vals, r.within (↑Vf : Set String) st.heap) ∧ st.paths = [])
    (hc : (!st.q.empty) = true) :
    ∃ st1, findAllPaths.body rt fetch target st = .continue_ st1
      ∧ ((∀ r ∈ st1.q.vals, r.within (↑Vf : Set String) st1.heap) ∧ st1.paths = [])
      ∧ findAllPaths.measure Vf st1 < findAllPaths.measure Vf st := by
  obtain ⟨p, rest, hvals, hnext⟩ := queue.next_cons hc
  have hp : p.within (↑Vf : Set String) st.heap :=
    hinv.1 p (by rw [hvals]; exact List.mem_cons_self _ _)
  have hrest : ∀ r ∈ rest, r.within (↑Vf : Set String) st.heap :=
    fun r hr => hinv.1 r (by rw [hvals]; exact List.mem_cons_of_mem _ hr)
  obtain ⟨pkg, hlast, hpkg⟩ := path.within_last hp
  have hpkg' : pkg ∈ Vf := hpkg
  unfold findAllPaths.body
  simp only [hnext, hlast]
  obtain ⟨out, hout⟩ := hok pkg hpkg'
  rw [expand_eq_fdepsOf hout]
  obtain ⟨a, b, c⟩ := findAllPaths_deps_unreachable rt target Vf p (fdepsOf fetch pkg)
    (fun d hd => hclosed pkg hpkg' d hd) (hno pkg hpkg') { st with q := ⟨rest⟩ } hp hrest
  refine ⟨_, rfl, ⟨a, by rw [b]; exact hinv.2⟩, ?_⟩
  rw [c]
  simp [findAllPaths.measure, hvals]

/-- In a closed finite set of packages none of which fails or has the target as
a dependency, `findAllPaths` ends with the empty list and no error. -/
theorem findAllPaths_unreachable_aux (rt : GoRuntime)
    (fetch : String → Except GoError String)
    (root target : String) (Vf : Finset String) (hroot : root ∈ Vf)
    (hclosed : ∀ x ∈ Vf, ∀ y ∈ fdepsOf fetch x, y ∈ Vf)
    (hok : ∀ x ∈ Vf, ∃ out, fetch x = .ok out)
    (hno : ∀ x ∈ Vf, target ∉ fdepsOf fetch x) (fuel : Nat)
    (hfuel : 2 + Vf.card ≤ fuel) :
    findAllPaths rt fetch fuel root target = some (.returned (some []) none) := by
  obtain ⟨s1, hs1, _, hrun⟩ := @forLoop_total _ _ (fun st : PathState => !st.q.empty)
    (findAllPaths.body rt fetch target)
    (fun st => Outcome.returned (some (st.paths.map (path.read st.heap))) none)
    (fun st => (∀ r ∈ st.q.vals, r.within (↑Vf : Set String) st.heap) ∧ st.paths = [])
    (findAllPaths.measure Vf)
    (fun s hi hc => findAllPaths_body_unreachable rt fetch target Vf hclosed hok hno s hi hc)
    (PathState.init root) ⟨init_within _ root hroot, rfl⟩
  rw [hs1.2] at hrun
  have hm : findAllPaths.measure Vf (PathState.init root) = 1 + Vf.card := by
    simp [findAllPaths.measure, PathState.init, unvisited, queue.add, path.lit]
  rw [hm] at hrun
  exact forLoop_mono hrun fuel (by omega)

theorem reach_mem_of_closed {fetch : String → Except GoError String} {root : String}
    (V : List String) (hroot : root ∈ V) (hclosed : ∀ x ∈ V, ∀ y ∈ fdepsOf fetch x, y ∈ V) :
    ∀ x, Reach fetch root x → x ∈ V := by
  intro x hx
  induction hx with
  | refl => exact hroot
  | tail _ hbc ih => exact hclosed _ ih _ hbc

theorem reach_finite_of_closed {fetch : String → Except GoError String} {root : String}
    (V : List String) (hroot : root ∈ V) (hclosed : ∀ x ∈ V, ∀ y ∈ fdepsOf fetch x, y ∈ V) :
    {x | Reach fetch root x}.Finite :=
  (List.finite_toSet V).subset (fun x hx => reach_mem_of_closed V hroot hclosed x hx)

theorem fetch_ok_of_closed {fetch : String → Except GoError String} {root : String}
    (V : List String) (hroot : root ∈ V) (hclosed : ∀ x ∈ V, ∀ y ∈ fdepsOf fetch x, y ∈ V)
    (hok : ∀ x ∈ V, (fetch x).toBool = true) :
    ∀ x, Reach fetch root x → ∃ out, fetch x = .ok out := by
  intro x hx
  have := hok x (reach_mem_of_closed V hroot hclosed x hx)
  cases h : fetch x with
  | ok out => exact ⟨out, rfl⟩
  | error e => simp [h, Except.toBool] at this

theorem not_transGen_of_closed {fetch : String → Except GoError String} {root target : String}
    (V : List String) (hroot : root ∈ V) (hclosed : ∀ x ∈ V, ∀ y ∈ fdepsOf fetch x, y ∈ V)
    (hno : ∀ x ∈ V, target ∉ fdepsOf fetch x) :
    ¬ Relation.TransGen (Edge fetch) root target := by
  intro h
  obtain ⟨b, hb, hbt⟩ := Relation.TransGen.tail'_iff.1 h
  exact hno b (reach_mem_of_closed V hroot hclosed b hb) hbt

theorem not_edge_of_not_transGen {fetch : String → Except GoError String}
    {root target : String} (hno : ¬ Relation.TransGen (Edge fetch) root target) :
    ∀ x, Reach fetch root x → target ∉ fdepsOf fetch x :=
  fun _ hx hc => hno (Relation.TransGen.tail'_iff.2 ⟨_, hx, hc⟩)

/-- What `%q` writes for an identifier whose characters are all printable and
none of which is a double quote or a backslash: the identifier between double
quotes. -/
theorem Quote_plain (rt : GoRuntime) (s : String)
    (h : ∀ c ∈ s.data, c ≠ '"' ∧ c ≠ '\\' ∧ rt.isPrint c = true) :
    Quote rt s = "\"" ++ s ++ "\"" := by
  have key : ∀ l : List Char, (∀ c ∈ l, c ≠ '"' ∧ c ≠ '\\' ∧ rt.isPrint c = true) →
      l.flatMap (appendEscapedRune rt) = l := by
    intro l
    induction l with
    | nil => intro _; rfl
    | cons c cs ih =>
      intro hl
      obtain ⟨h1, h2, h3⟩ := hl c (List.mem_cons_self _ _)
      rw [List.flatMap_cons, ih (fun x hx => hl x (List.mem_cons_of_mem _ hx))]
      simp [appendEscapedRune, h1, h2, h3]
  apply String.ext
  simp only [Quote, key s.data h, String.data_append]
  rfl

/-- C2 (as stated, refuted): for the root `a"b` in a graph without edges,
`findPath` returns the not-found error, and the root does not occur in its
message: the message holds the quoted form, in which the double quote is
escaped. -/
theorem findPath_message_not_verbatim :
    findPath gcRuntime (fun _ => .ok "'[]'\n") 2 "a\"b" "t" =
        some (.returned none (some (.errorf "\"a\\\"b\" does not depend on \"t\"")))
      ∧ ¬ ("a\"b".data <:+: "\"a\\\"b\" does not depend on \"t\"".data) := by
  constructor
  · decide
  · decide

/-- C2 (amended): in a graph with finitely many packages reachable from the
root, none of whose fetches fails, and with no path of one or more edges from
root to target, `findPath` returns no path and the error whose message is the
root as `%q` quotes it, then " does not depend on ", then the target as `%q`
quotes it; and an identifier made of printable characters other than the double
quote and the backslash is quoted by putting it, unchanged, between double
quotes. -/
theorem findPath_not_found (rt : GoRuntime) (fetch : String → Except GoError String)
    (root target : String) (hfin : {x | Reach fetch root x}.Finite)
    (hok : ∀ x, Reach fetch root x → ∃ out, fetch x = .ok out)
    (hno : ¬ Relation.TransGen (Edge fetch) root target) :
    (∃ n, ∀ fuel, n ≤ fuel →
        findPath rt fetch fuel root target =
          some (.returned none
            (some (.errorf (Quote rt root ++ " does not depend on " ++ Quote rt target)))))
      ∧ ∀ s : String, (∀ c ∈ s.data, c ≠ '"' ∧ c ≠ '\\' ∧ rt.isPrint c = true) →
          Quote rt s = "\"" ++ s ++ "\"" := by
  obtain ⟨Vf, hroot, hreach, _, hclosed⟩ := exists_closed_finset fetch root hfin
  refine ⟨⟨_, fun fuel hfuel => findPath_unreachable_aux rt fetch root target Vf hroot hclosed
    (fun x hx => hok x (hreach x hx))
    (fun x hx => not_edge_of_not_transGen hno x (hreach x hx)) fuel hfuel⟩, Quote_plain rt⟩

/-- C3: in a graph with finitely many packages reachable from the root, none of
whose fetches fails, and with no path of one or more edges from root to target,
`findAllPaths` returns the empty list and a nil error, whereas `findPath`
returns a nil path and the not-found error. -/
theorem findAllPaths_unreachable (rt : GoRuntime) (fetch : String → Except GoError String)
    (root target : String) (hfin : {x | Reach fetch root x}.Finite)
    (hok : ∀ x, Reach fetch root x → ∃ out, fetch x = .ok out)
    (hno : ¬ Relation.TransGen (Edge fetch) root target) :
    ∃ n, ∀ fuel, n ≤ fuel →
      findAllPaths rt fetch fuel root target = some (.returned (some []) none)
        ∧ findPath rt fetch fuel root target =
            some (.returned none (some (notFound rt root target))) := by
  obtain ⟨Vf, hroot, hreach, _, hclosed⟩ := exists_closed_finset fetch root hfin
  refine ⟨max (2 + Vf.card) (2 + Finset.sum Vf (fun x => (fdepsOf fetch x).length)),
    fun fuel hfuel => ⟨?_, ?_⟩⟩
  · exact findAllPaths_unreachable_aux rt fetch root target Vf hroot hclosed
      (fun x hx => hok x (hreach x hx))
      (fun x hx => not_edge_of_not_transGen hno x (hreach x hx)) fuel
      (le_trans (le_max_left _ _) hfuel)
  · exact findPath_unreachable_aux rt fetch root target Vf hroot hclosed
      (fun x hx => hok x (hreach x hx))
      (fun x hx => not_edge_of_not_transGen hno x (hreach x hx)) fuel
      (le_trans (le_max_right _ _) hfuel)

theorem diamond_closed :
    ∀ x ∈ ["github.com/juju/juju/a", "github.com/juju/juju/b", "github.com/juju/juju/c",
        "github.com/juju/juju/d"],
      ∀ y ∈ fdepsOf diamond x,
        y ∈ ["github.com/juju/juju/a", "github.com/juju/juju/b", "github.com/juju/juju/c",
          "github.com/juju/juju/d"] := by
  decide

theorem diamond_ok :
    ∀ x ∈ ["github.com/juju/juju/a", "github.com/juju/juju/b", "github.com/juju/juju/c",
        "github.com/juju/juju/d"], (diamond x).toBool = true := by
  decide

/-- C2 (witness): the hypotheses hold on the example graph for the root A and a
target outside the graph. -/
theorem findPath_not_found_witness :
    (∃ n, ∀ fuel, n ≤ fuel →
        findPath gcRuntime diamond fuel "github.com/juju/juju/a" "github.com/juju/juju/x" =
          some (.returned none
            (some (.errorf (Quote gcRuntime "github.com/juju/juju/a" ++ " does not depend on "
              ++ Quote gcRuntime "github.com/juju/juju/x")))))
      ∧ ∀ s : String, (∀ c ∈ s.data, c ≠ '"' ∧ c ≠ '\\' ∧ gcRuntime.isPrint c = true) →
          Quote gcRuntime s = "\"" ++ s ++ "\"" :=
  findPath_not_found gcRuntime diamond "github.com/juju/juju/a" "github.com/juju/juju/x"
    (reach_finite_of_closed _ (by decide) diamond_closed)
    (fetch_ok_of_closed _ (by decide) diamond_closed diamond_ok)
    (not_transGen_of_closed _ (by decide) diamond_closed (by decide))

/-- C3 (witness): the hypotheses hold on the example graph for the root D and
the target A. -/
theorem findAllPaths_unreachable_witness :
    ∃ n, ∀ fuel, n ≤ fuel →
      findAllPaths gcRuntime diamond fuel "github.com/juju/juju/d" "github.com/juju/juju/a"
          = some (.returned (some []) none)
        ∧ findPath gcRuntime diamond fuel "github.com/juju/juju/d" "github.com/juju/juju/a" =
            some (.returned none
              (some (notFound gcRuntime "github.com/juju/juju/d" "github.com/juju/juju/a"))) :=
  findAllPaths_unreachable gcRuntime diamond "github.com/juju/juju/d" "github.com/juju/juju/a"
    (reach_finite_of_closed _ (by decide) diamond_closed)
    (fetch_ok_of_closed _ (by decide) diamond_closed diamond_ok)
    (not_transGen_of_closed _ (by decide) diamond_closed (by decide))

/-! ## The invariant of buildTree -/

theorem set_eq_self_of_getElem {α : Type} (l : List α) (i : Nat) (a : α)
    (h : l[i]? = some a) : l.set i a = l := by
  apply List.ext_getElem?
  intro j
  rw [List.getElem?_set]
  by_cases hij : i = j
  · subst hij
    have hl : i < l.length := (List.getElem?_eq_some.1 h).1
    simp [hl, h]
  · simp [hij]

/-- Closed form of the loop over the dependencies in `buildTree`. -/
theorem buildTree_deps_eq (t : Nat) (fdeps : List String) :
    ∀ (h : TreeHeap) (q : queue Nat) (cell : treeCell), h[t]? = some cell →
      buildTree.deps t fdeps h q =
        (h.expandAt t cell fdeps, ⟨q.vals ++ List.range' h.length fdeps.length⟩) := by
  induction fdeps with
  | nil =>
    intro h q cell hc
    simp [buildTree.deps, TreeHeap.expandAt, set_eq_self_of_getElem h t cell hc]
  | cons d ds ih =>
    intro h q cell hc
    have ht : t < h.length := (List.getElem?_eq_some.1 hc).1
    have hadd : (h ++ [(⟨d, []⟩ : treeCell)]).addChild t h.length =
        h.set t ⟨cell.val, cell.children ++ [h.length]⟩ ++ [⟨d, []⟩] := by
      unfold TreeHeap.addChild
      rw [List.getElem?_append_left ht, hc]
      simp only
      rw [List.set_append_left _ _ ht]
    simp only [buildTree.deps, hadd]
    rw [ih _ _ ⟨cell.val, cell.children ++ [h.length]⟩ (by
      rw [List.getElem?_append_left (by simpa using ht)]
      exact List.getElem?_set_self ht)]
    simp only [TreeHeap.expandAt, queue.add, List.length_append, List.length_set,
      List.length_singleton, List.length_cons, List.map_cons, Prod.mk.injEq, queue.mk.injEq]
    constructor
    · rw [List.set_append_left _ _ (by simpa using ht), List.set_set, List.append_assoc,
        List.append_assoc, List.range'_succ]
      rfl
    · rw [List.append_assoc, List.range'_succ]
      rfl

theorem expandAt_length (h : TreeHeap) (t : Nat) (cell : treeCell) (fdeps : List String) :
    (h.expandAt t cell fdeps).length = h.length + fdeps.length := by
  simp [TreeHeap.expandAt]

/-- Reading a struct after the loop over the dependencies of node `t`. -/
theorem expandAt_getElem? (h : TreeHeap) (t : Nat) (cell : treeCell) (fdeps : List String)
    (ht : t < h.length) (j : Nat) :
    (h.expandAt t cell fdeps)[j]? =
      if j < h.length then
        if j = t then some ⟨cell.val, cell.children ++ List.range' h.length fdeps.length⟩
        else h[j]?
      else (fdeps[j - h.length]?).map (fun d => ⟨d, []⟩) := by
  unfold TreeHeap.expandAt
  rw [List.getElem?_append]
  simp only [List.length_set]
  by_cases hj : j < h.length
  · simp only [hj, if_true]
    rw [List.getElem?_set]
    by_cases hjt : j = t
    · subst hjt
      simp [hj]
    · have : ¬ t = j := fun hc => hjt hc.symm
      simp [hjt, this]
  · simp only [hj, if_false, List.getElem?_map]

theorem expandAt_map_val (h : TreeHeap) (t : Nat) (cell : treeCell) (fdeps : List String)
    (hc : h[t]? = some cell) :
    (h.expandAt t cell fdeps).map treeCell.val = h.map treeCell.val ++ fdeps := by
  have ht : t < h.length := (List.getElem?_eq_some.1 hc).1
  apply List.ext_getElem?
  intro j
  rw [List.getElem?_map, expandAt_getElem? h t cell fdeps ht, List.getElem?_append]
  simp only [List.length_map]
  by_cases hj : j < h.length
  · simp only [hj, if_true, List.getElem?_map]
    by_cases hjt : j = t
    · subst hjt
      simp [hc]
    · simp [hjt]
  · simp only [hj, if_false]
    cases fdeps[j - h.length]? <;> rfl

theorem expandAt_take_le (h : TreeHeap) (t : Nat) (cell : treeCell) (fdeps : List String)
    (j : Nat) (hj : j ≤ t) (ht : t < h.length) :
    (h.expandAt t cell fdeps).take j = h.take j := by
  unfold TreeHeap.expandAt
  rw [List.take_append_of_le_length (by simp; omega)]
  rcases Nat.lt_or_eq_of_le hj with h1 | h1
  · exact List.take_set_of_lt _ _ h1
  · subst h1
    rw [List.set_take]
    exact List.set_eq_of_length_le (by simp)

theorem expandAt_take_succ (h : TreeHeap) (t : Nat) (cell : treeCell) (fdeps : List String)
    (ht : t < h.length) :
    (h.expandAt t cell fdeps).take (t + 1) =
      h.take t ++ [⟨cell.val, cell.children ++ List.range' h.length fdeps.length⟩] := by
  rw [List.take_succ, expandAt_take_le h t cell fdeps t (le_refl _) ht,
    expandAt_getElem? h t cell fdeps ht]
  simp [ht]

theorem label_expandAt_old (h : TreeHeap) (t : Nat) (cell : treeCell) (fdeps : List String)
    (hc : h[t]? = some cell) (c : Nat) (hlt : c < h.length) :
    (h.expandAt t cell fdeps).label c = h.label c := by
  have ht : t < h.length := (List.getElem?_eq_some.1 hc).1
  unfold TreeHeap.label
  rw [expandAt_getElem? h t cell fdeps ht]
  simp only [hlt, if_true]
  by_cases hct : c = t
  · subst hct
    simp [hc]
  · simp [hct]

theorem label_expandAt_new (h : TreeHeap) (t : Nat) (cell : treeCell) (fdeps : List String)
    (hc : h[t]? = some cell) :
    (List.range' h.length fdeps.length).map (h.expandAt t cell fdeps).label = fdeps := by
  have ht : t < h.length := (List.getElem?_eq_some.1 hc).1
  apply List.ext_getElem?
  intro k
  rw [List.getElem?_map]
  by_cases hk : k < fdeps.length
  · rw [List.getElem?_range' _ _ hk]
    simp only [Option.map_some', TreeHeap.label, Nat.one_mul]
    rw [expandAt_getElem? h t cell fdeps ht]
    have : ¬ (h.length + k < h.length) := by omega
    simp only [this, if_false, Nat.add_sub_cancel_left]
    rw [List.getElem?_eq_getElem hk]
    rfl
  · rw [List.getElem?_eq_none (by simp; omega), List.getElem?_eq_none (by omega)]
    rfl

theorem range_append_of_eq (s m n k : Nat) (h : s + m = k) :
    List.range' s m ++ List.range' k n = List.range' s (m + n) := by
  subst h
  rw [Nat.add_comm m n, ← List.range'_append s m n 1]
  simp

theorem childStart_succ (h : TreeHeap) (j : Nat) (cell : treeCell) (hc : h[j]? = some cell) :
    h.childStart (j + 1) = h.childStart j + cell.children.length := by
  simp [TreeHeap.childStart, List.take_succ, hc, List.sum_append]
  omega

theorem childStart_mono (h : TreeHeap) {j k : Nat} (hjk : j ≤ k) :
    h.childStart j ≤ h.childStart k := by
  obtain ⟨d, rfl⟩ := Nat.exists_eq_add_of_le hjk
  unfold TreeHeap.childStart
  rw [← List.take_append_drop j (h.take (j + d))]
  rw [List.take_take, Nat.min_eq_left (by omega), List.map_append, List.sum_append]
  omega

theorem TreeInv_init (fetch : String → Except GoError String) (root : String) :
    TreeInv fetch root (TreeState.init root) 0 where
  le := Nat.zero_le _
  queue_eq := rfl
  root_label := rfl
  children_eq := by
    intro j cell hc
    cases j with
    | zero => simp [TreeState.init] at hc; subst hc; rfl
    | succ j => simp [TreeState.init] at hc
  pending := by
    intro j cell hc _
    cases j with
    | zero => simp [TreeState.init] at hc; subst hc; rfl
    | succ j => simp [TreeState.init] at hc
  repeated := by intro j cell _ hj; omega
  first := by intro j cell _ hj; omega
  start_done := rfl
  start_gt := by intro j hj; omega
  visited_iff := by intro x; simp [TreeState.init]
  reach := by
    intro cell hc
    simp [TreeState.init] at hc
    subst hc
    exact Relation.ReflTransGen.refl

/-- What one execution of the body of the loop of `buildTree` does in a state
that satisfies the invariant: it skips a node whose label is visited, returns
the error of a failing fetch, or expands the node. -/
theorem buildTree_body_spec {fetch : String → Except GoError String} {root : String}
    {st : TreeState} {i : Nat} (hinv : TreeInv fetch root st i)
    (hc : (!st.q.empty) = true) :
    ∃ cell, st.heap[i]? = some cell ∧ i < st.heap.length ∧
      ((st.visited.contains cell.val = true ∧
          buildTree.body fetch st =
            .continue_ { st with q := ⟨List.range' (i + 1) (st.heap.length - (i + 1))⟩ })
        ∨ (st.visited.contains cell.val = false ∧ ∃ e, fetch cell.val = .error e ∧
            buildTree.body fetch st = .return_ (.returned none (some e)))
        ∨ (st.visited.contains cell.val = false ∧ (∃ out, fetch cell.val = .ok out) ∧
            buildTree.body fetch st =
              .continue_
                { heap := st.heap.expandAt i cell (fdepsOf fetch cell.val),
                  visited := st.visited.add cell.val,
                  q := ⟨List.range' (i + 1)
                    (st.heap.length + (fdepsOf fetch cell.val).length - (i + 1))⟩ })) := by
  obtain ⟨t, rest, hvals, hnext⟩ := queue.next_cons hc
  have hq := hinv.queue_eq
  rw [hvals] at hq
  obtain ⟨hti, hpos, hrest⟩ := List.range'_eq_cons_iff.1 hq.symm
  subst hti
  have hlt : i < st.heap.length := by omega
  refine ⟨st.heap[i], List.getElem?_eq_getElem hlt, hlt, ?_⟩
  unfold buildTree.body
  simp only [hnext, List.getElem?_eq_getElem hlt]
  have hrest' : rest = List.range' (i + 1) (st.heap.length - (i + 1)) := by
    rw [hrest]; congr 1
  by_cases hv : st.visited.contains st.heap[i].val = true
  · left
    simp only [hv, if_true, true_and]
    rw [hrest']
  · right
    have hv' : st.visited.contains st.heap[i].val = false := by simpa using hv
    simp only [hv', Bool.false_eq_true, if_false, true_and]
    cases hf : fetch st.heap[i].val with
    | error e =>
      left
      refine ⟨e, rfl, ?_⟩
      simp [expand, hf]
    | ok out =>
      right
      refine ⟨⟨out, rfl⟩, ?_⟩
      rw [expand_eq_fdepsOf hf]
      simp only
      rw [buildTree_deps_eq i _ st.heap ⟨rest⟩ st.heap[i] (List.getElem?_eq_getElem hlt)]
      simp only [Flow.continue_.injEq, TreeState.mk.injEq, queue.mk.injEq, true_and]
      rw [hrest', range_append_of_eq _ _ _ _ (by omega)]
      congr 1
      omega

theorem mem_visited_iff (s : stringSet) (x : String) :
    s.contains x = true ↔ x ∈ s.keys := by
  simp [stringSet.contains]

/-- The invariant of `buildTree` is kept when a node with a visited label is
skipped. -/
theorem TreeInv_skip {fetch : String → Except GoError String} {root : String}
    {st : TreeState} {i : Nat} (hinv : TreeInv fetch root st i) {cell : treeCell}
    (hcell : st.heap[i]? = some cell) (hv : st.visited.contains cell.val = true) :
    TreeInv fetch root
      { st with q := ⟨List.range' (i + 1) (st.heap.length - (i + 1))⟩ } (i + 1) := by
  have hlt : i < st.heap.length := (List.getElem?_eq_some.1 hcell).1
  have hnil : cell.children = [] := hinv.pending i cell hcell (le_refl _)
  have htake : (st.heap.take (i + 1)).map treeCell.val
      = (st.heap.take i).map treeCell.val ++ [cell.val] := by
    simp [List.take_succ, hcell]
  have hvis : cell.val ∈ (st.heap.take i).map treeCell.val :=
    (hinv.visited_iff _).1 ((mem_visited_iff _ _).1 hv)
  refine
    { le := hlt
      queue_eq := rfl
      root_label := hinv.root_label
      children_eq := hinv.children_eq
      pending := fun j c hc hj => hinv.pending j c hc (by omega)
      repeated := ?_
      first := ?_
      start_done := ?_
      start_gt := ?_
      visited_iff := ?_
      reach := hinv.reach }
  · intro j c hc hj hmem
    rcases Nat.lt_or_eq_of_le (Nat.lt_succ_iff.1 hj) with h1 | h1
    · exact hinv.repeated j c hc h1 hmem
    · subst h1
      exact hinv.pending j c hc (le_refl _)
  · intro j c hc hj hmem
    rcases Nat.lt_or_eq_of_le (Nat.lt_succ_iff.1 hj) with h1 | h1
    · exact hinv.first j c hc h1 hmem
    · subst h1
      rw [hcell] at hc
      cases hc
      exact absurd hvis hmem
  · show st.heap.childStart (i + 1) = st.heap.length
    rw [childStart_succ _ _ _ hcell, hnil, hinv.start_done]
    rfl
  · intro j hj
    rcases Nat.lt_or_eq_of_le (Nat.lt_succ_iff.1 hj) with h1 | h1
    · exact hinv.start_gt j h1
    · subst h1
      show j < st.heap.childStart j
      rw [hinv.start_done]
      exact hlt
  · intro x
    show x ∈ st.visited.keys ↔ x ∈ (st.heap.take (i + 1)).map treeCell.val
    rw [htake, List.mem_append, hinv.visited_iff]
    constructor
    · intro h; exact Or.inl h
    · rintro (h | h)
      · exact h
      · simp at h
        rw [h]; exact hvis

theorem children_lt_of_inv {fetch : String → Except GoError String} {root : String}
    {st : TreeState} {i : Nat} (hinv : TreeInv fetch root st i) {j : Nat} {cell : treeCell}
    (hcell : st.heap[j]? = some cell) :
    ∀ c ∈ cell.children, st.heap.childStart j ≤ c ∧ c < st.heap.length := by
  intro c hc
  by_cases hj : i ≤ j
  · rw [hinv.pending j cell hcell hj] at hc
    simp at hc
  · rw [hinv.children_eq j cell hcell, List.mem_range'_1] at hc
    refine ⟨hc.1, ?_⟩
    have h1 := childStart_succ _ _ _ hcell
    have h2 := childStart_mono st.heap (show j + 1 ≤ i by omega)
    have h3 := hinv.start_done
    omega

/-- The invariant of `buildTree` is kept when a node with a new label is
expanded. -/
theorem TreeInv_expand {fetch : String → Except GoError String} {root : String}
    {st : TreeState} {i : Nat} (hinv : TreeInv fetch root st i) {cell : treeCell}
    (hcell : st.heap[i]? = some cell) (hv : st.visited.contains cell.val = false)
    (hok : ∃ out, fetch cell.val = .ok out) :
    TreeInv fetch root
      { heap := st.heap.expandAt i cell (fdepsOf fetch cell.val),
        visited := st.visited.add cell.val,
        q := ⟨List.range' (i + 1)
          (st.heap.length + (fdepsOf fetch cell.val).length - (i + 1))⟩ } (i + 1) := by
  have hlt : i < st.heap.length := (List.getElem?_eq_some.1 hcell).1
  have hnil : cell.children = [] := hinv.pending i cell hcell (le_refl _)
  have hnv : cell.val ∉ (st.heap.take i).map treeCell.val := by
    intro hc
    have := (mem_visited_iff _ _).2 ((hinv.visited_iff _).2 hc)
    rw [hv] at this
    exact Bool.false_ne_true this
  have hget := expandAt_getElem? st.heap i cell (fdepsOf fetch cell.val) hlt
  have hstart : ∀ j, j ≤ i → (st.heap.expandAt i cell (fdepsOf fetch cell.val)).childStart j
      = st.heap.childStart j := by
    intro j hj
    unfold TreeHeap.childStart
    rw [expandAt_take_le _ _ _ _ j hj hlt]
  have hnew : (st.heap.expandAt i cell (fdepsOf fetch cell.val))[i]? =
      some ⟨cell.val, List.range' st.heap.length (fdepsOf fetch cell.val).length⟩ := by
    rw [hget]; simp [hlt, hnil]
  have htakeval : ∀ j, j ≤ i →
      ((st.heap.expandAt i cell (fdepsOf fetch cell.val)).take j).map treeCell.val
        = (st.heap.take j).map treeCell.val := by
    intro j hj
    rw [expandAt_take_le _ _ _ _ j hj hlt]
  refine
    { le := by simp only [expandAt_length]; omega
      queue_eq := by simp only [expandAt_length]
      root_label := ?_
      children_eq := ?_
      pending := ?_
      repeated := ?_
      first := ?_
      start_done := ?_
      start_gt := ?_
      visited_iff := ?_
      reach := ?_ }
  · show (st.heap.expandAt i cell (fdepsOf fetch cell.val))[0]?.map treeCell.val = some root
    rw [← List.getElem?_map, expandAt_map_val _ _ _ _ hcell,
      List.getElem?_append_left (by simp; omega), List.getElem?_map]
    exact hinv.root_label
  · intro j c hc
    change (st.heap.expandAt i cell (fdepsOf fetch cell.val))[j]? = some c at hc
    show c.children = List.range' ((st.heap.expandAt i cell (fdepsOf fetch cell.val)).childStart j)
      c.children.length
    by_cases hji : j = i
    · subst hji
      rw [hnew] at hc
      cases hc
      rw [hstart j (le_refl _), hinv.start_done]
      simp
    · rw [hget] at hc
      by_cases hjn : j < st.heap.length
      · simp only [hjn, hji, if_true, if_false] at hc
        by_cases hlt' : j < i
        · rw [hstart j (le_of_lt hlt')]
          exact hinv.children_eq j c hc
        · rw [hinv.pending j c hc (by omega)]
          rfl
      · simp only [hjn, if_false] at hc
        cases hd : (fdepsOf fetch cell.val)[j - st.heap.length]? with
        | none => simp [hd] at hc
        | some d => simp [hd] at hc; subst hc; rfl
  · intro j c hc hj
    change (st.heap.expandAt i cell (fdepsOf fetch cell.val))[j]? = some c at hc
    rw [hget] at hc
    by_cases hjn : j < st.heap.length
    · have hji : ¬ j = i := by omega
      simp only [hjn, hji, if_true, if_false] at hc
      exact hinv.pending j c hc (by omega)
    · simp only [hjn, if_false] at hc
      cases hd : (fdepsOf fetch cell.val)[j - st.heap.length]? with
      | none => simp [hd] at hc
      | some d => simp [hd] at hc; subst hc; rfl
  · intro j c hc hj hmem
    change (st.heap.expandAt i cell (fdepsOf fetch cell.val))[j]? = some c at hc
    change c.val ∈ ((st.heap.expandAt i cell (fdepsOf fetch cell.val)).take j).map treeCell.val
      at hmem
    rw [htakeval j (by omega)] at hmem
    by_cases hji : j = i
    · subst hji
      rw [hnew] at hc
      cases hc
      exact absurd hmem hnv
    · rw [hget] at hc
      have hjn : j < st.heap.length := by omega
      simp only [hjn, hji, if_true, if_false] at hc
      exact hinv.repeated j c hc (by omega) hmem
  · intro j c hc hj hmem
    change (st.heap.expandAt i cell (fdepsOf fetch cell.val))[j]? = some c at hc
    change c.val ∉ ((st.heap.expandAt i cell (fdepsOf fetch cell.val)).take j).map treeCell.val
      at hmem
    show (∃ out, fetch c.val = .ok out) ∧
      c.children.map (st.heap.expandAt i cell (fdepsOf fetch cell.val)).label
        = fdepsOf fetch c.val
    rw [htakeval j (by omega)] at hmem
    by_cases hji : j = i
    · subst hji
      rw [hnew] at hc
      cases hc
      exact ⟨hok, label_expandAt_new _ _ _ _ hcell⟩
    · rw [hget] at hc
      have hjn : j < st.heap.length := by omega
      simp only [hjn, hji, if_true, if_false] at hc
      obtain ⟨h1, h2⟩ := hinv.first j c hc (by omega) hmem
      refine ⟨h1, ?_⟩
      rw [← h2]
      apply List.map_congr_left
      intro x hx
      exact label_expandAt_old _ _ _ _ hcell x (children_lt_of_inv hinv hc x hx).2
  · show (st.heap.expandAt i cell (fdepsOf fetch cell.val)).childStart (i + 1)
      = (st.heap.expandAt i cell (fdepsOf fetch cell.val)).length
    rw [childStart_succ _ _ _ hnew, hstart i (le_refl _), hinv.start_done, expandAt_length]
    simp
  · intro j hj
    show j < (st.heap.expandAt i cell (fdepsOf fetch cell.val)).childStart j
    rw [hstart j (by omega)]
    rcases Nat.lt_or_eq_of_le (Nat.lt_succ_iff.1 hj) with h1 | h1
    · exact hinv.start_gt j h1
    · subst h1
      rw [hinv.start_done]
      exact hlt
  · intro x
    show x ∈ (st.visited.add cell.val).keys ↔
      x ∈ ((st.heap.expandAt i cell (fdepsOf fetch cell.val)).take (i + 1)).map treeCell.val
    rw [expandAt_take_succ _ _ _ _ hlt]
    simp only [stringSet.add, List.mem_cons, List.map_append, List.map_cons, List.map_nil,
      List.mem_append, List.mem_singleton, hinv.visited_iff]
    tauto
  · intro c hc
    change c ∈ st.heap.expandAt i cell (fdepsOf fetch cell.val) at hc
    have : c.val ∈ (st.heap.expandAt i cell (fdepsOf fetch cell.val)).map treeCell.val :=
      List.mem_map_of_mem _ hc
    rw [expandAt_map_val _ _ _ _ hcell, List.mem_append] at this
    rcases this with h1 | h1
    · obtain ⟨c0, hc0, hval⟩ := List.mem_map.1 h1
      rw [← hval]
      exact hinv.reach c0 hc0
    · exact Relation.ReflTransGen.tail (hinv.reach cell (List.getElem?_mem hcell)) h1

/-! ## Progress of buildTree and failing fetches (C9) -/

theorem Eventually_bind {σ ρ : Type} {cond : σ → Bool} {body : σ → Flow σ ρ}
    {P Q : σ → Prop} {E : ρ → Prop} {s : σ} (h : Eventually cond body P E s)
    (hPQ : ∀ s1, P s1 → Eventually cond body Q E s1) : Eventually cond body Q E s := by
  induction h with
  | now hp => exact hPQ _ hp
  | ret hc hb he => exact Eventually.ret hc hb he
  | step hc hb _ ih => exact Eventually.step hc hb ih

theorem Eventually_returns {σ ρ : Type} {cond : σ → Bool} {body : σ → Flow σ ρ}
    {E : ρ → Prop} {s : σ} (after : σ → ρ)
    (h : Eventually cond body (fun _ => False) E s) :
    ∃ n r, forLoop cond body after n s = some r ∧ E r := by
  induction h with
  | now hp => exact absurd hp id
  | @ret s r hc hb he =>
    refine ⟨1, r, ?_, he⟩
    rw [forLoop_succ]
    simp [hc, hb]
  | @step s s1 hc hb _ ih =>
    obtain ⟨n, r, hr, he⟩ := ih
    refine ⟨n + 1, r, ?_, he⟩
    rw [forLoop_succ]
    simp [hc, hb, hr]

/-- An element of a list has a first occurrence. -/
theorem exists_first_occurrence (l : List String) (x : String) (hx : x ∈ l) :
    ∃ j, l[j]? = some x ∧ x ∉ l.take j := by
  induction l with
  | nil => simp at hx
  | cons a l ih =>
    by_cases hax : a = x
    · exact ⟨0, by simp [hax], by simp⟩
    · have hx' : x ∈ l := by
        rcases List.mem_cons.1 hx with h | h
        · exact absurd h.symm hax
        · exact h
      obtain ⟨j, hj, hn⟩ := ih hx'
      refine ⟨j + 1, by simpa using hj, ?_⟩
      simp only [List.take_succ_cons, List.mem_cons, not_or]
      exact ⟨fun h => hax h.symm, hn⟩

/-- A visited label has a first occurrence among the nodes taken from the
queue; that node was expanded. -/
theorem visited_first {fetch : String → Except GoError String} {root : String}
    {st : TreeState} {i : Nat} (hinv : TreeInv fetch root st i) {x : String}
    (hx : x ∈ st.visited.keys) :
    ∃ j cell, j < i ∧ st.heap[j]? = some cell ∧ cell.val = x
      ∧ x ∉ (st.heap.take j).map treeCell.val
      ∧ (∃ out, fetch x = .ok out) ∧ cell.children.map st.heap.label = fdepsOf fetch x := by
  obtain ⟨j, hj, hn⟩ := exists_first_occurrence _ x ((hinv.visited_iff x).1 hx)
  have hlen : j < ((st.heap.take i).map treeCell.val).length :=
    (List.getElem?_eq_some.1 hj).1
  simp only [List.length_map, List.length_take] at hlen
  have hji : j < i := by omega
  rw [List.getElem?_map, List.getElem?_take_of_lt hji] at hj
  obtain ⟨cell, hcell, hval⟩ := Option.map_eq_some'.1 hj
  rw [← List.map_take, List.take_take, Nat.min_eq_left (le_of_lt hji)] at hn
  subst hval
  obtain ⟨h1, h2⟩ := hinv.first j cell hcell hji hn
  exact ⟨j, cell, hji, hcell, rfl, hn, h1, h2⟩

/-- Every queued node of `buildTree` is taken from the queue after finitely many
iterations, unless the traversal returns an error before: then its label is
visited. -/
theorem buildTree_queue_progress (fetch : String → Except GoError String) (root : String)
    (d : Nat) : ∀ (st : TreeState) (i t : Nat), TreeInv fetch root st i → i ≤ t →
      t < st.heap.length → t - i = d →
      Eventually (fun s : TreeState => !s.q.empty) (buildTree.body fetch)
        (fun s => (∃ k, TreeInv fetch root s k) ∧ st.heap.label t ∈ s.visited.keys)
        (fun r => ∃ e, r = Outcome.returned none (some e)) st := by
  induction d with
  | zero =>
    intro st i t hinv hit htn hd
    have hti : t = i := by omega
    subst hti
    have hc : (!st.q.empty) = true := by
      simp [queue.empty, hinv.queue_eq]; omega
    obtain ⟨cell, hcell, _, hcase⟩ := buildTree_body_spec hinv hc
    have hlab : st.heap.label t = cell.val := by simp [TreeHeap.label, hcell]
    rw [hlab]
    rcases hcase with ⟨hv, _⟩ | ⟨_, e, _, hb⟩ | ⟨hv, hok, hb⟩
    · exact Eventually.now ⟨⟨t, hinv⟩, (mem_visited_iff _ _).1 hv⟩
    · exact Eventually.ret hc hb ⟨e, rfl⟩
    · exact Eventually.step hc hb
        (Eventually.now ⟨⟨t + 1, TreeInv_expand hinv hcell hv hok⟩, by simp [stringSet.add]⟩)
  | succ d ih =>
    intro st i t hinv hit htn hd
    have hc : (!st.q.empty) = true := by
      simp [queue.empty, hinv.queue_eq]; omega
    obtain ⟨cell, hcell, _, hcase⟩ := buildTree_body_spec hinv hc
    rcases hcase with ⟨hv, hb⟩ | ⟨_, e, _, hb⟩ | ⟨hv, hok, hb⟩
    · exact Eventually.step hc hb
        (ih _ (i + 1) t (TreeInv_skip hinv hcell hv) (by omega) htn (by omega))
    · exact Eventually.ret hc hb ⟨e, rfl⟩
    · have := ih _ (i + 1) t (TreeInv_expand hinv hcell hv hok) (by omega)
        (by simp only [expandAt_length]; omega) (by omega)
      rw [label_expandAt_old _ _ _ _ hcell t htn] at this
      exact Eventually.step hc hb this

/-- Every package reachable from the root is visited by `buildTree` after
finitely many iterations, unless the traversal returns an error before. -/
theorem buildTree_reach_progress (fetch : String → Except GoError String) (root : String)
    (y : String) (hy : Reach fetch root y) :
    Eventually (fun s : TreeState => !s.q.empty) (buildTree.body fetch)
      (fun s => (∃ k, TreeInv fetch root s k) ∧ y ∈ s.visited.keys)
      (fun r => ∃ e, r = Outcome.returned none (some e)) (TreeState.init root) := by
  induction hy with
  | refl =>
    exact buildTree_queue_progress fetch root 0 (TreeState.init root) 0 0
      (TreeInv_init fetch root) (le_refl _) (by simp [TreeState.init]) rfl
  | @tail b y _ hby ih =>
    apply Eventually_bind ih
    rintro s ⟨⟨i, hinv⟩, hb⟩
    obtain ⟨j, cell, hji, hcell, hval, _, _, hch⟩ := visited_first hinv hb
    have hy' : y ∈ cell.children.map s.heap.label := by rw [hch]; exact hby
    obtain ⟨c, hc, hlab⟩ := List.mem_map.1 hy'
    have hcn := (children_lt_of_inv hinv hcell c hc).2
    by_cases hci : c < i
    · apply Eventually.now
      refine ⟨⟨i, hinv⟩, (hinv.visited_iff y).2 ?_⟩
      rw [← hlab, List.mem_map]
      refine ⟨s.heap[c], ?_, by simp [TreeHeap.label, List.getElem?_eq_getElem hcn]⟩
      exact List.getElem?_mem (by
        rw [List.getElem?_take_of_lt hci]; exact List.getElem?_eq_getElem hcn)
    · have := buildTree_queue_progress fetch root (c - i) s i c hinv (by omega) hcn rfl
      rw [hlab] at this
      exact this

/-- A failing fetch of a reachable package makes `buildTree` return an error. -/
theorem buildTree_error_of_reach (fetch : String → Except GoError String) (root x : String)
    (hx : Reach fetch root x) (e : GoError) (he : fetch x = .error e) :
    ∃ fuel e1, buildTree fetch fuel root = some (.returned none (some e1)) := by
  have h := buildTree_reach_progress fetch root x hx
  have h2 : Eventually (fun s : TreeState => !s.q.empty) (buildTree.body fetch)
      (fun _ => False) (fun r => ∃ e, r = Outcome.returned none (some e))
      (TreeState.init root) := by
    apply Eventually_bind h
    rintro s ⟨⟨i, hinv⟩, hv⟩
    obtain ⟨_, _, _, _, _, _, ⟨out, hout⟩, _⟩ := visited_first hinv hv
    rw [he] at hout
    cases hout
  obtain ⟨n, r, hr, e1, rfl⟩ := Eventually_returns
    (fun st : TreeState => Outcome.returned (some (readTree st.heap st.heap.length 0)) none) h2
  exact ⟨n, e1, hr⟩

/-- An error returned by `buildTree` is the error of the fetch of a reachable
package, and it comes with a nil tree. -/
theorem buildTree_error_reach (fetch : String → Except GoError String) (root : String)
    (fuel : Nat) (val : Option tree) (e : GoError)
    (h : buildTree fetch fuel root = some (.returned val (some e))) :
    val = none ∧ ∃ x, Reach fetch root x ∧ fetch x = .error e := by
  obtain ⟨s1, ⟨i, hinv⟩, hcase⟩ := @forLoop_inv _ _ (fun st : TreeState => !st.q.empty)
    (buildTree.body fetch)
    (fun st => Outcome.returned (some (readTree st.heap st.heap.length 0)) none)
    (fun st => ∃ i, TreeInv fetch root st i)
    (by
      rintro s s2 ⟨i, hinv⟩ hc hb
      obtain ⟨cell, hcell, _, hcase⟩ := buildTree_body_spec hinv hc
      rcases hcase with ⟨hv, hb2⟩ | ⟨_, e, _, hb2⟩ | ⟨hv, hok, hb2⟩
      · rw [hb] at hb2; cases hb2
        exact ⟨i + 1, TreeInv_skip hinv hcell hv⟩
      · rw [hb] at hb2; cases hb2
      · rw [hb] at hb2; cases hb2
        exact ⟨i + 1, TreeInv_expand hinv hcell hv hok⟩)
    fuel (TreeState.init root) _ ⟨0, TreeInv_init fetch root⟩ h
  rcases hcase with ⟨_, hr⟩ | ⟨hc, hb⟩
  · cases hr
  · obtain ⟨cell, hcell, _, hcase⟩ := buildTree_body_spec hinv hc
    rcases hcase with ⟨_, hb2⟩ | ⟨_, e2, hf, hb2⟩ | ⟨_, _, hb2⟩
    · rw [hb] at hb2; cases hb2
    · rw [hb] at hb2; cases hb2
      exact ⟨rfl, cell.val, hinv.reach cell (List.getElem?_mem hcell), hf⟩
    · rw [hb] at hb2; cases hb2

theorem queue.not_empty_of_next {T : Type} {q q1 : queue T} {t : T}
    (h : q.next = some (t, q1)) : (!q.empty) = true := by
  cases q with
  | mk vals =>
    cases vals with
    | nil => simp [queue.next] at h
    | cons a rest => simp [queue.empty]

/-- A result of the loop started in a state that is reached from `s` is the
result of the loop started in `s`. -/
theorem forLoop_of_reaches {σ ρ : Type} {cond : σ → Bool} {body : σ → Flow σ ρ}
    (after : σ → ρ) {s s2 : σ} (h : Reaches cond body s s2) {n : Nat} {r : ρ}
    (hr : forLoop cond body after n s2 = some r) :
    ∃ m, ∀ fuel, m ≤ fuel → forLoop cond body after fuel s = some r := by
  induction h with
  | refl s => exact ⟨n, fun fuel hfuel => forLoop_mono hr fuel hfuel⟩
  | @step s s1 s2 hc hb _ ih =>
    obtain ⟨m, hm⟩ := ih hr
    refine ⟨m + 1, fun fuel hfuel => ?_⟩
    obtain ⟨f, rfl⟩ : ∃ f, fuel = f + 1 := ⟨fuel - 1, by omega⟩
    rw [forLoop_succ]
    simp only [hc, if_true, hb]
    exact hm f (by omega)

theorem buildTree_loop_fetch_error (fetch : String → Except GoError String)
    (st : TreeState) (t : Nat) (q : queue Nat) (cell : treeCell) (e : GoError) (fuel : Nat)
    (hnext : st.q.next = some (t, q)) (hcell : st.heap[t]? = some cell)
    (hv : st.visited.contains cell.val = false) (hf : fetch cell.val = .error e) :
    buildTree.loop fetch (fuel + 1) st = some (.returned none (some e)) := by
  unfold buildTree.loop
  rw [forLoop_succ]
  simp [queue.not_empty_of_next hnext, buildTree.body, hnext, hcell, hv, expand, hf]

theorem findPath_loop_fetch_error (rt : GoRuntime) (fetch : String → Except GoError String)
    (root target : String) (st : PathState) (p : path) (q : queue path) (pkg : String)
    (e : GoError) (fuel : Nat) (hnext : st.q.next = some (p, q))
    (hlast : p.last st.heap = some pkg) (hv : st.visited.contains pkg = false)
    (hf : fetch pkg = .error e) :
    findPath.loop rt fetch root target (fuel + 1) st = some (.returned none (some e)) := by
  unfold findPath.loop
  rw [forLoop_succ]
  simp [queue.not_empty_of_next hnext, findPath.body, hnext, hlast, hv, expand, hf]

theorem findAllPaths_loop_fetch_error (rt : GoRuntime)
    (fetch : String → Except GoError String) (target : String) (st : PathState) (p : path)
    (q : queue path) (pkg : String) (e : GoError) (fuel : Nat)
    (hnext : st.q.next = some (p, q)) (hlast : p.last st.heap = some pkg)
    (hf : fetch pkg = .error e) :
    findAllPaths.loop rt fetch target (fuel + 1) st = some (.returned none (some e)) := by
  unfold findAllPaths.loop
  rw [forLoop_succ]
  simp [queue.not_empty_of_next hnext, findAllPaths.body, hnext, hlast, expand, hf]

/-- C9: when a traversal, in a state it reaches from its start, takes a node
from the queue to expand it and the fetch of that node fails with error `e`,
the call returns a nil result and exactly `e`: in `buildTree` and `findPath` for
a node whose label is not yet visited, in `findAllPaths` for every node taken
(the paths collected so far are not returned).  An error returned by
`buildTree` always comes with a nil tree and is the fetch error of a package
reachable from the root, and `buildTree` returns an error if and only if the
fetch of some reachable package fails. -/
theorem fetch_failure_aborts (rt : GoRuntime) (fetch : String → Except GoError String)
    (root target : String) :
    (∀ (st : TreeState) (t : Nat) (q : queue Nat) (cell : treeCell) (e : GoError),
        Reaches (fun s : TreeState => !s.q.empty) (buildTree.body fetch)
          (TreeState.init root) st →
        st.q.next = some (t, q) → st.heap[t]? = some cell →
        st.visited.contains cell.val = false → fetch cell.val = .error e →
        ∃ n, ∀ fuel, n ≤ fuel → buildTree fetch fuel root = some (.returned none (some e)))
      ∧ (∀ (st : PathState) (p : path) (q : queue path) (pkg : String) (e : GoError),
          Reaches (fun s : PathState => !s.q.empty) (findPath.body rt fetch target)
            (PathState.init root) st →
          st.q.next = some (p, q) → p.last st.heap = some pkg →
          st.visited.contains pkg = false → fetch pkg = .error e →
          ∃ n, ∀ fuel, n ≤ fuel →
            findPath rt fetch fuel root target = some (.returned none (some e)))
      ∧ (∀ (st : PathState) (p : path) (q : queue path) (pkg : String) (e : GoError),
          Reaches (fun s : PathState => !s.q.empty) (findAllPaths.body rt fetch target)
            (PathState.init root) st →
          st.q.next = some (p, q) → p.last st.heap = some pkg → fetch pkg = .error e →
          ∃ n, ∀ fuel, n ≤ fuel →
            findAllPaths rt fetch fuel root target = some (.returned none (some e)))
      ∧ (∀ (fuel : Nat) (val : Option tree) (e : GoError),
          buildTree fetch fuel root = some (.returned val (some e)) →
          val = none ∧ ∃ x, Reach fetch root x ∧ fetch x = .error e)
      ∧ ((∃ fuel val e, buildTree fetch fuel root = some (.returned val (some e))) ↔
          ∃ x e, Reach fetch root x ∧ fetch x = .error e) := by
  refine ⟨?_, ?_, ?_, ?_, ?_⟩
  · intro st t q cell e hreach hnext hcell hv hf
    exact forLoop_of_reaches _ hreach
      (buildTree_loop_fetch_error fetch st t q cell e 0 hnext hcell hv hf)
  · intro st p q pkg e hreach hnext hlast hv hf
    exact forLoop_of_reaches _ hreach
      (findPath_loop_fetch_error rt fetch root target st p q pkg e 0 hnext hlast hv hf)
  · intro st p q pkg e hreach hnext hlast hf
    exact forLoop_of_reaches _ hreach
      (findAllPaths_loop_fetch_error rt fetch target st p q pkg e 0 hnext hlast hf)
  · exact buildTree_error_reach fetch root
  · constructor
    · rintro ⟨fuel, val, e, h⟩
      obtain ⟨_, x, hx, hf⟩ := buildTree_error_reach fetch root fuel val e h
      exact ⟨x, e, hx, hf⟩
    · rintro ⟨x, e, hx, hf⟩
      obtain ⟨fuel, e1, h⟩ := buildTree_error_of_reach fetch root x hx e hf
      exact ⟨fuel, none, e1, h⟩

/-! ## The tree returned by buildTree (C6) -/

theorem sizeAll_append (a b : List tree) :
    tree.sizeAll (a ++ b) = tree.sizeAll a + tree.sizeAll b := by
  induction a with
  | nil => simp [tree.sizeAll]
  | cons t a ih => simp [tree.sizeAll, ih]; omega

theorem size_eq (t : tree) : t.size = 1 + tree.sizeAll t.children := by
  cases t with
  | mk v cs => simp [tree.size, tree.children]

/-- More fuel than there are nodes does not change the breadth-first listing. -/
theorem bfsOrder_stable (k : Nat) : ∀ (q : List tree), tree.sizeAll q = k →
    ∀ fuel, k ≤ fuel → bfsOrder fuel q = bfsOrder k q := by
  induction k with
  | zero =>
    intro q hq fuel _
    cases q with
    | nil => cases fuel <;> rfl
    | cons t q =>
      simp [tree.sizeAll, size_eq] at hq
  | succ k ih =>
    intro q hq fuel hfuel
    obtain ⟨f, rfl⟩ : ∃ f, fuel = f + 1 := ⟨fuel - 1, by omega⟩
    cases q with
    | nil => rfl
    | cons t q =>
      simp only [bfsOrder]
      rw [ih (q ++ t.children) (by
        rw [sizeAll_append]
        simp only [tree.sizeAll, size_eq] at hq
        omega) f (by omega)]

/-- With enough fuel, `readTree` does not depend on the fuel: a child pointer is
larger than the pointer of its parent. -/
theorem readTree_fuel (h : TreeHeap)
    (hch : ∀ j cell, h[j]? = some cell → ∀ c ∈ cell.children, j < c ∧ c < h.length)
    (d : Nat) : ∀ j, h.length - j ≤ d → ∀ f g, d ≤ f → d ≤ g →
      readTree h f j = readTree h g j := by
  induction d with
  | zero =>
    intro j hj f g _ _
    have hnone : h[j]? = none := List.getElem?_eq_none (by omega)
    cases f <;> cases g <;> simp [readTree, hnone]
  | succ d ih =>
    intro j hj f g hf hg
    obtain ⟨f, rfl⟩ : ∃ f1, f = f1 + 1 := ⟨f - 1, by omega⟩
    obtain ⟨g, rfl⟩ : ∃ g1, g = g1 + 1 := ⟨g - 1, by omega⟩
    simp only [readTree, tree.mk.injEq, true_and]
    apply List.map_congr_left
    intro c hc
    cases hcell : h[j]? with
    | none => simp [hcell] at hc
    | some cell =>
      simp only [hcell, Option.getD_some] at hc
      have := hch j cell hcell c hc
      exact ih c (by omega) f g (by omega) (by omega)

theorem readTree_unfold (h : TreeHeap)
    (hch : ∀ j cell, h[j]? = some cell → ∀ c ∈ cell.children, j < c ∧ c < h.length)
    (j : Nat) (cell : treeCell) (hcell : h[j]? = some cell) :
    readTree h h.length j = .mk cell.val (cell.children.map (readTree h h.length)) := by
  have hlt : j < h.length := (List.getElem?_eq_some.1 hcell).1
  obtain ⟨n, hn⟩ : ∃ n, h.length = n + 1 := ⟨h.length - 1, by omega⟩
  conv_lhs => rw [hn]
  simp only [readTree, hcell, Option.getD_some, tree.mk.injEq, true_and]
  apply List.map_congr_left
  intro c hc
  have := hch j cell hcell c hc
  exact readTree_fuel h hch n c (by omega) n h.length (le_refl _) (by omega)

/-- Breadth-first listing of a heap in which the children of each node are a
block of consecutive pointers after the children of the nodes before it: the
nodes come out in the order of their pointers. -/
theorem bfsOrder_heap (h : TreeHeap) (R : Nat → tree)
    (hR : ∀ j cell, h[j]? = some cell → (R j).children = cell.children.map R)
    (hblock : ∀ j cell, h[j]? = some cell →
      cell.children = List.range' (h.childStart j) cell.children.length)
    (hgt : ∀ j, j < h.length → j < h.childStart j)
    (hend : h.childStart h.length = h.length) :
    ∀ fuel j, j ≤ h.length →
      bfsOrder fuel ((List.range' j (h.childStart j - j)).map R) =
        (List.range' j (min fuel (h.length - j))).map R := by
  intro fuel
  induction fuel with
  | zero => intro j _; simp [bfsOrder]
  | succ f ih =>
    intro j hj
    rcases Nat.lt_or_eq_of_le hj with hlt | heq
    · have hC := hgt j hlt
      have hcell : h[j]? = some h[j] := List.getElem?_eq_getElem hlt
      obtain ⟨k, hk⟩ : ∃ k, h.childStart j - j = k + 1 := ⟨h.childStart j - j - 1, by omega⟩
      obtain ⟨m, hm⟩ : ∃ m, min (f + 1) (h.length - j) = m + 1 :=
        ⟨min (f + 1) (h.length - j) - 1, by omega⟩
      rw [hk, hm, List.range'_succ, List.range'_succ, List.map_cons, List.map_cons]
      simp only [bfsOrder, List.cons.injEq, true_and]
      rw [hR j _ hcell, ← List.map_append, hblock j _ hcell,
        range_append_of_eq _ _ _ _ (by omega)]
      have h1 := childStart_succ h j _ hcell
      have := ih (j + 1) (by omega)
      rw [show h.childStart (j + 1) - (j + 1) = k + (h[j]).children.length by omega] at this
      rw [this]
      congr 2
      omega
    · subst heq
      rw [hend]
      simp only [Nat.sub_self, List.range'_zero, List.map_nil, Nat.min_zero]
      rfl

/-- The children pointers of a node lie strictly between the node and the end
of the heap. -/
theorem children_between {fetch : String → Except GoError String} {root : String}
    {st : TreeState} (hinv : TreeInv fetch root st st.heap.length) :
    ∀ j cell, st.heap[j]? = some cell → ∀ c ∈ cell.children, j < c ∧ c < st.heap.length := by
  intro j cell hcell c hc
  have hlt : j < st.heap.length := (List.getElem?_eq_some.1 hcell).1
  have := children_lt_of_inv hinv hcell c hc
  have := hinv.start_gt j hlt
  omega

/-- The nodes of the tree that `buildTree` returns, in breadth-first order, are
the structs of the final heap in the order of their allocation. -/
theorem nodes_of_final {fetch : String → Except GoError String} {root : String}
    {st : TreeState} (hinv : TreeInv fetch root st st.heap.length) :
    (readTree st.heap st.heap.length 0).nodes =
      (List.range' 0 st.heap.length).map (readTree st.heap st.heap.length) := by
  have hch := children_between hinv
  have hR : ∀ j cell, st.heap[j]? = some cell →
      (readTree st.heap st.heap.length j).children =
        cell.children.map (readTree st.heap st.heap.length) := by
    intro j cell hcell
    rw [readTree_unfold st.heap hch j cell hcell]
    rfl
  have key := bfsOrder_heap st.heap (readTree st.heap st.heap.length) hR hinv.children_eq
    hinv.start_gt hinv.start_done
  have h0 : st.heap.childStart 0 = 1 := by simp [TreeHeap.childStart]
  unfold tree.nodes
  have hstab := bfsOrder_stable (readTree st.heap st.heap.length 0).size
    [readTree st.heap st.heap.length 0] (by simp [tree.sizeAll])
    (max (readTree st.heap st.heap.length 0).size st.heap.length) (le_max_left _ _)
  rw [← hstab]
  have := key (max (readTree st.heap st.heap.length 0).size st.heap.length) 0 (Nat.zero_le _)
  rw [h0] at this
  simp only [Nat.sub_zero, List.range'_one, List.map_cons, List.map_nil] at this
  rw [this, Nat.min_eq_right (le_max_right _ _)]

theorem root_val_of_final {fetch : String → Except GoError String} {root : String}
    {st : TreeState} {i : Nat} (hinv : TreeInv fetch root st i) :
    (readTree st.heap st.heap.length 0).val = root := by
  have h := hinv.root_label
  obtain ⟨cell, hcell, hval⟩ := Option.map_eq_some'.1 h
  have hlt : 0 < st.heap.length := (List.getElem?_eq_some.1 hcell).1
  obtain ⟨n, hn⟩ : ∃ n, st.heap.length = n + 1 := ⟨st.heap.length - 1, by omega⟩
  rw [hn]
  simp [readTree, tree.val, hcell, hval]

/-- Reading the `k`-th node of the returned tree in breadth-first order. -/
theorem nodes_getElem_of_final {fetch : String → Except GoError String} {root : String}
    {st : TreeState} (hinv : TreeInv fetch root st st.heap.length) (k : Nat) (node : tree)
    (hk : (readTree st.heap st.heap.length 0).nodes[k]? = some node) :
    ∃ cell, st.heap[k]? = some cell ∧ node.val = cell.val
      ∧ node.children.map tree.val = cell.children.map st.heap.label
      ∧ (cell.children = [] → node.children = []) := by
  rw [nodes_of_final hinv, List.getElem?_map] at hk
  obtain ⟨j, hj, hnode⟩ := Option.map_eq_some'.1 hk
  have hklt : k < st.heap.length := by
    have := (List.getElem?_eq_some.1 hj).1
    simpa using this
  rw [List.getElem?_range' _ _ hklt] at hj
  simp only [Nat.zero_add, Nat.one_mul, Option.some.injEq] at hj
  subst hj
  have hcell : st.heap[k]? = some st.heap[k] := List.getElem?_eq_getElem hklt
  have hch := children_between hinv
  rw [readTree_unfold st.heap hch k _ hcell] at hnode
  subst hnode
  refine ⟨st.heap[k], hcell, rfl, ?_, ?_⟩
  · simp only [tree.children, List.map_map]
    apply List.map_congr_left
    intro c hc
    have hc2 := (hch k _ hcell c hc).2
    have hcc : st.heap[c]? = some st.heap[c] := List.getElem?_eq_getElem hc2
    simp only [Function.comp, readTree_unfold st.heap hch c _ hcc, tree.val, TreeHeap.label,
      hcc, Option.getD_some]
  · intro hnil
    simp [tree.children, hnil]

theorem nodes_val_of_final {fetch : String → Except GoError String} {root : String}
    {st : TreeState} (hinv : TreeInv fetch root st st.heap.length) :
    (readTree st.heap st.heap.length 0).nodes.map tree.val = st.heap.map treeCell.val := by
  apply List.ext_getElem?
  intro k
  rw [List.getElem?_map, List.getElem?_map]
  cases hk : (readTree st.heap st.heap.length 0).nodes[k]? with
  | none =>
    rw [nodes_of_final hinv, List.getElem?_map] at hk
    have : st.heap.length ≤ k := by
      by_contra hc
      rw [List.getElem?_range' _ _ (by omega)] at hk
      simp at hk
    rw [List.getElem?_eq_none this]
    rfl
  | some node =>
    obtain ⟨cell, hcell, hval, _⟩ := nodes_getElem_of_final hinv k node hk
    simp [hcell, hval]

/-- One iteration of `buildTree` when the packages reachable from the root lie
in the finite set `Vf` and none of their fetches fails: the loop goes on, the
invariant is kept, and the measure drops. -/
theorem buildTree_body_finite (fetch : String → Except GoError String) (root : String)
    (Vf : Finset String) (hV : ∀ x, Reach fetch root x → x ∈ Vf)
    (hok : ∀ x, Reach fetch root x → ∃ out, fetch x = .ok out)
    (st : TreeState) (hinv : ∃ i, TreeInv fetch root st i) (hc : (!st.q.empty) = true) :
    ∃ st1, buildTree.body fetch st = .continue_ st1 ∧ (∃ i, TreeInv fetch root st1 i)
      ∧ buildTree.measure fetch Vf st1 < buildTree.measure fetch Vf st := by
  obtain ⟨i, hinv⟩ := hinv
  obtain ⟨cell, hcell, hlt, hcase⟩ := buildTree_body_spec hinv hc
  have hreach : Reach fetch root cell.val := hinv.reach cell (List.getElem?_mem hcell)
  have hq := hinv.queue_eq
  rcases hcase with ⟨hv, hb⟩ | ⟨_, e, hf, _⟩ | ⟨hv, hok2, hb⟩
  · refine ⟨_, hb, ⟨i + 1, TreeInv_skip hinv hcell hv⟩, ?_⟩
    simp only [buildTree.measure, hq, List.length_range']
    omega
  · obtain ⟨out, hout⟩ := hok _ hreach
    rw [hf] at hout
    cases hout
  · refine ⟨_, hb, ⟨i + 1, TreeInv_expand hinv hcell hv hok2⟩, ?_⟩
    simp only [buildTree.measure, hq, List.length_range', unvisited_add]
    have hmem := mem_unvisited (hV _ hreach) hv
    have := Finset.add_sum_erase (unvisited Vf st.visited)
      (fun x => (fdepsOf fetch x).length) hmem
    simp only at this
    omega

/-- On a graph with finitely many reachable packages, none failing, `buildTree`
returns the tree read from a final heap that satisfies the invariant with every
node taken from the queue. -/
theorem buildTree_finite_aux (fetch : String → Except GoError String) (root : String)
    (hfin : {x | Reach fetch root x}.Finite)
    (hok : ∀ x, Reach fetch root x → ∃ out, fetch x = .ok out) :
    ∃ (n : Nat) (st : TreeState), TreeInv fetch root st st.heap.length
      ∧ ∀ fuel, n ≤ fuel →
        buildTree fetch fuel root =
          some (.returned (some (readTree st.heap st.heap.length 0)) none) := by
  obtain ⟨Vf, _, _, hV, _⟩ := exists_closed_finset fetch root hfin
  obtain ⟨s1, ⟨i, hinv⟩, hc, hrun⟩ := @forLoop_total _ _ (fun st : TreeState => !st.q.empty)
    (buildTree.body fetch)
    (fun st => Outcome.returned (some (readTree st.heap st.heap.length 0)) none)
    (fun st => ∃ i, TreeInv fetch root st i)
    (buildTree.measure fetch Vf)
    (fun s hi hc => buildTree_body_finite fetch root Vf hV hok s hi hc)
    (TreeState.init root) ⟨0, TreeInv_init fetch root⟩
  have hi : i = s1.heap.length := by
    have hq := hinv.queue_eq
    have hle := hinv.le
    have hlen : s1.q.vals.length = 0 := by simpa [queue.empty] using hc
    rw [hq, List.length_range'] at hlen
    omega
  subst hi
  exact ⟨_, s1, hinv, fun fuel hfuel => forLoop_mono hrun fuel hfuel⟩

/-- The labels of the final heap of `buildTree` are the packages reachable from
the root. -/
theorem labels_of_final {fetch : String → Except GoError String} {root : String}
    {st : TreeState} (hinv : TreeInv fetch root st st.heap.length) (x : String) :
    x ∈ st.heap.map treeCell.val ↔ Reach fetch root x := by
  constructor
  · intro hx
    obtain ⟨c, hc, hval⟩ := List.mem_map.1 hx
    rw [← hval]
    exact hinv.reach c hc
  · intro hx
    induction hx with
    | refl =>
      obtain ⟨cell, hcell, hval⟩ := Option.map_eq_some'.1 hinv.root_label
      rw [← hval]
      exact List.mem_map_of_mem _ (List.getElem?_mem hcell)
    | @tail b y _ hby ih =>
      have hb : b ∈ st.visited.keys := by
        rw [hinv.visited_iff, List.take_length]
        exact ih
      obtain ⟨j, cell, _, hcell, _, _, _, hch⟩ := visited_first hinv hb
      have hy : y ∈ cell.children.map st.heap.label := by rw [hch]; exact hby
      obtain ⟨c, hc, hlab⟩ := List.mem_map.1 hy
      have hcn := (children_lt_of_inv hinv hcell c hc).2
      rw [← hlab]
      exact List.mem_map.2 ⟨st.heap[c], List.getElem_mem hcn,
        by simp [TreeHeap.label, List.getElem?_eq_getElem hcn]⟩

/-- C6: on a graph with finitely many packages reachable from the root, none of
whose fetches fails, `buildTree` returns a tree labelled with the root; the
labels that occur in it are exactly the reachable packages; and, listing its
nodes in breadth-first order, the first node with a given label has as children,
in order, one node per filtered dependency of the label, while every later node
with that label has no children. -/
theorem buildTree_expands_once (fetch : String → Except GoError String) (root : String)
    (hfin : {x | Reach fetch root x}.Finite)
    (hok : ∀ x, Reach fetch root x → ∃ out, fetch x = .ok out) :
    ∃ (n : Nat) (T : tree),
      (∀ fuel, n ≤ fuel → buildTree fetch fuel root = some (.returned (some T) none))
        ∧ T.val = root
        ∧ (∀ x, x ∈ T.nodes.map tree.val ↔ Reach fetch root x)
        ∧ ∀ k node, T.nodes[k]? = some node →
            (node.val ∉ (T.nodes.take k).map tree.val →
                node.children.map tree.val = fdepsOf fetch node.val)
              ∧ (node.val ∈ (T.nodes.take k).map tree.val → node.children = []) := by
  obtain ⟨n, st, hinv, hrun⟩ := buildTree_finite_aux fetch root hfin hok
  refine ⟨n, readTree st.heap st.heap.length 0, hrun, root_val_of_final hinv, ?_, ?_⟩
  · intro x
    rw [nodes_val_of_final hinv]
    exact labels_of_final hinv x
  · intro k node hk
    obtain ⟨cell, hcell, hval, hch, hnil⟩ := nodes_getElem_of_final hinv k node hk
    have hklt : k < st.heap.length := (List.getElem?_eq_some.1 hcell).1
    have htake : ((readTree st.heap st.heap.length 0).nodes.take k).map tree.val
        = (st.heap.take k).map treeCell.val := by
      rw [List.map_take, nodes_val_of_final hinv, ← List.map_take]
    rw [htake, hval]
    constructor
    · intro hn
      rw [hch]
      exact (hinv.first k cell hcell hklt hn).2
    · intro hm
      exact hnil (hinv.repeated k cell hcell hklt hm)

/-- C6 (witness): the hypotheses hold on the example graph with root A, where
the tree returned is A with the children B and C, each with the one child D. -/
theorem buildTree_expands_once_witness :
    (∃ (n : Nat) (T : tree),
      (∀ fuel, n ≤ fuel →
          buildTree diamond fuel "github.com/juju/juju/a" = some (.returned (some T) none))
        ∧ T.val = "github.com/juju/juju/a"
        ∧ (∀ x, x ∈ T.nodes.map tree.val ↔ Reach diamond "github.com/juju/juju/a" x)
        ∧ ∀ k node, T.nodes[k]? = some node →
            (node.val ∉ (T.nodes.take k).map tree.val →
                node.children.map tree.val = fdepsOf diamond node.val)
              ∧ (node.val ∈ (T.nodes.take k).map tree.val → node.children = []))
      ∧ buildTree diamond 6 "github.com/juju/juju/a" =
          some (.returned (some (.mk "github.com/juju/juju/a"
            [.mk "github.com/juju/juju/b" [.mk "github.com/juju/juju/d" []],
             .mk "github.com/juju/juju/c" [.mk "github.com/juju/juju/d" []]])) none) :=
  ⟨buildTree_expands_once diamond "github.com/juju/juju/a"
      (reach_finite_of_closed _ (by decide) diamond_closed)
      (fetch_ok_of_closed _ (by decide) diamond_closed diamond_ok),
    by rfl⟩

/-! ## Shortest paths in findPath (C1) -/

theorem WalkTo_length_pos {fetch : String → Except GoError String} {root x : String}
    {l : List String} (h : WalkTo fetch root l x) : 0 < l.length := by
  cases h <;> simp

theorem WalkTo_reachIn {fetch : String → Except GoError String} {root x : String}
    {l : List String} (h : WalkTo fetch root l x) : ReachIn fetch (l.length - 1) root x := by
  induction h with
  | single => rfl
  | @snoc l x y hw he ih =>
    have := WalkTo_length_pos hw
    rw [List.length_append, List.length_singleton, Nat.add_sub_cancel]
    obtain ⟨n, hn⟩ : ∃ n, l.length = n + 1 := ⟨l.length - 1, by omega⟩
    rw [hn] at ih ⊢
    exact ⟨x, ih, he⟩

theorem WalkTo_getLast {fetch : String → Except GoError String} {root x : String}
    {l : List String} (h : WalkTo fetch root l x) : l.getLast? = some x := by
  cases h <;> simp

theorem WalkTo_head {fetch : String → Except GoError String} {root x : String}
    {l : List String} (h : WalkTo fetch root l x) : l.head? = some root := by
  induction h with
  | single => rfl
  | @snoc l x y hw _ ih =>
    cases l with
    | nil => simp at ih
    | cons a l => simpa using ih

theorem WalkTo_chain {fetch : String → Except GoError String} {root x : String}
    {l : List String} (h : WalkTo fetch root l x) : List.Chain' (Edge fetch) l := by
  induction h with
  | single => simp
  | @snoc l x y hw he ih =>
    rw [List.chain'_append]
    refine ⟨ih, by simp, ?_⟩
    intro a ha b hb
    rw [WalkTo_getLast hw] at ha
    simp at ha hb
    subst ha hb
    exact he

theorem ReachIn_reach {fetch : String → Except GoError String} {root x : String} {n : Nat}
    (h : ReachIn fetch n root x) : Reach fetch root x := by
  induction n generalizing x with
  | zero => cases h; exact Relation.ReflTransGen.refl
  | succ n ih =>
    obtain ⟨c, hc, he⟩ := h
    exact Relation.ReflTransGen.tail (ih hc) he

theorem Stable_refl (N : Nat) (h : Heap) : Stable N h h :=
  fun _ hr => ⟨hr, fun _ => rfl⟩

theorem Stable_trans {N : Nat} {h h1 h2 : Heap} (a : Stable N h h1) (b : Stable N h1 h2) :
    Stable N h h2 := by
  intro r hr
  obtain ⟨h1ok, h1read⟩ := a r hr
  obtain ⟨h2ok, h2read⟩ := b r h1ok
  exact ⟨h2ok, fun hl => by rw [h2read hl, h1read hl]⟩

/-- An `append` to a slice that is full whenever it has fewer than `N` elements
changes no slice of at most `N` elements. -/
theorem Stable_append (rt : GoRuntime) (N : Nat) {h : Heap} {p : path} (s : String)
    (hfull : p.len < N → p.cap = p.len) : Stable N h (p.append rt h s).1 := by
  intro r hr
  refine ⟨path.append_ok_old rt s hr, fun hl => ?_⟩
  rw [path.append_read_old rt s hr]
  split
  · rename_i hc
    obtain ⟨h1, _, h3⟩ := hc
    by_cases hp : p.len < N
    · have := hfull hp
      omega
    · omega
  · rfl

/-- An `append` never changes how the slice it is applied to reads. -/
theorem path.append_read_self (rt : GoRuntime) {h : Heap} {p : path} (s : String)
    (hp : p.ok h) : p.read (p.append rt h s).1 = p.read h := by
  rw [path.append_read_old rt s hp]
  split
  · rename_i hc
    omega
  · rfl

/-- The capacity of the slice that `append` returns for a full slice. -/
theorem path.append_cap_of_full (rt : GoRuntime) (h : Heap) (p : path) (s : String)
    (hfull : p.cap = p.len) :
    (p.append rt h s).2.cap = max (p.len + 1) (rt.growCap p.len (p.len + 1)) := by
  unfold path.append
  simp [hfull]

/-- The loop over the dependencies in `findPath`, for a runtime in which
`append` leaves no spare capacity in slices shorter than `N`: if the target is
among the dependencies, the path returned reads as the parent followed by the
target; otherwise one child path per dependency is queued and no slice of at
most `N` elements has changed. -/
theorem findPath_deps_spec (rt : GoRuntime) (target : String) (N : Nat) (p : path)
    (l0 : List String) (hfull : p.len < N → p.cap = p.len)
    (hN : ∀ n, n < N → rt.growCap (n - 1) n ≤ n) (fdeps : List String) :
    ∀ (h : Heap) (q : queue path), p.ok h → p.read h = l0 →
      (target ∈ fdeps → ∃ h1 np, findPath.deps rt target p fdeps h q = .inr (h1, np)
          ∧ np.read h1 = l0 ++ [target])
        ∧ (target ∉ fdeps → ∃ h1 children,
            findPath.deps rt target p fdeps h q = .inl (h1, ⟨q.vals ++ children⟩)
              ∧ List.Forall₂ (ChildOf N p l0 h1) children fdeps ∧ Stable N h h1) := by
  induction fdeps with
  | nil =>
    intro h q _ _
    refine ⟨fun hc => absurd hc (List.not_mem_nil _), fun _ => ?_⟩
    exact ⟨h, [], by simp [findPath.deps], List.Forall₂.nil, Stable_refl N h⟩
  | cons d ds ih =>
    intro h q hp hread
    by_cases hd : d = target
    · subst hd
      refine ⟨fun _ => ?_, fun hc => absurd (List.mem_cons_self _ _) hc⟩
      refine ⟨(p.append rt h d).1, (p.append rt h d).2, by simp [findPath.deps], ?_⟩
      rw [path.append_read_new rt d hp, hread]
    · obtain ⟨ih1, ih2⟩ := ih (p.append rt h d).1 (q.add (p.append rt h d).2)
        (path.append_ok_old rt d hp) (by rw [path.append_read_self rt d hp, hread])
      have hdeps : findPath.deps rt target p (d :: ds) h q =
          findPath.deps rt target p ds (p.append rt h d).1 (q.add (p.append rt h d).2) := by
        simp [findPath.deps, hd]
      rw [hdeps]
      constructor
      · intro ht
        have : target ∈ ds := by
          rcases List.mem_cons.1 ht with h1 | h1
          · exact absurd h1.symm hd
          · exact h1
        exact ih1 this
      · intro ht
        obtain ⟨h1, children, e, hall, hst⟩ := ih2 (fun hc => ht (List.mem_cons_of_mem _ hc))
        refine ⟨h1, (p.append rt h d).2 :: children, ?_, ?_, ?_⟩
        · rw [e]; simp [queue.add]
        · refine List.Forall₂.cons ⟨path.append_len rt h p d, ?_, ?_, ?_⟩ hall
          · exact (hst _ (path.append_ok_new rt d hp)).1
          · intro hlt
            have hpf := hfull (by omega)
            rw [path.append_cap_of_full rt h p d hpf, path.append_len]
            have := hN (p.len + 1) hlt
            simp only [Nat.add_sub_cancel] at this
            omega
          · intro hlt
            rw [(hst _ (path.append_ok_new rt d hp)).2
              (by rw [path.append_len]; omega), path.append_read_new rt d hp, hread]
        · exact Stable_trans (Stable_append rt N d hfull) hst

/-- A package within `j` steps of the root is visited, or the queue holds a path
of at most `j + 1` elements. -/
theorem bfs_short_path {fetch : String → Except GoError String} {root : String} {k : Nat}
    {st : PathState}
    (hedges : ∀ w m, ReachIn fetch m root w → w ∈ st.visited.keys → m + 2 ≤ k →
      ∀ y ∈ fdepsOf fetch w, y ∈ st.visited.keys ∨
        ∃ p ∈ st.q.vals, (p.read st.heap).getLast? = some y ∧ p.len ≤ m + 2)
    (hroot : root ∈ st.visited.keys ∨ ∃ p, st.q.vals = [p] ∧ p.read st.heap = [root])
    (hok : ∀ p ∈ st.q.vals, p.ok st.heap) :
    ∀ j x, ReachIn fetch j root x → j + 1 ≤ k →
      x ∈ st.visited.keys ∨ ∃ p ∈ st.q.vals, p.len ≤ j + 1 := by
  intro j
  induction j with
  | zero =>
    intro x hx _
    cases hx
    rcases hroot with h | ⟨p, hq, hread⟩
    · exact Or.inl h
    · right
      refine ⟨p, by simp [hq], ?_⟩
      have := path.read_length (hok p (by simp [hq]))
      rw [hread] at this
      simp at this
      omega
  | succ j ih =>
    intro x hx hk
    obtain ⟨w, hw, he⟩ := hx
    rcases ih w hw (by omega) with h | ⟨p, hp, hl⟩
    · rcases hedges w j hw h (by omega) x he with h1 | ⟨p, hp, _, hl⟩
      · exact Or.inl h1
      · exact Or.inr ⟨p, hp, hl⟩
    · exact Or.inr ⟨p, hp, by omega⟩

/-- While the target, at distance `k`, has not been found, the queue holds a
path of at most `k` elements. -/
theorem bfs_frontier {fetch : String → Except GoError String} {root target : String}
    {k : Nat} {st : PathState}
    (hedges : ∀ w m, ReachIn fetch m root w → w ∈ st.visited.keys → m + 2 ≤ k →
      ∀ y ∈ fdepsOf fetch w, y ∈ st.visited.keys ∨
        ∃ p ∈ st.q.vals, (p.read st.heap).getLast? = some y ∧ p.len ≤ m + 2)
    (hroot : root ∈ st.visited.keys ∨ ∃ p, st.q.vals = [p] ∧ p.read st.heap = [root])
    (hok : ∀ p ∈ st.q.vals, p.ok st.heap)
    (hnt : ∀ w ∈ st.visited.keys, target ∉ fdepsOf fetch w)
    (hk : 1 ≤ k) (hreach : ReachIn fetch k root target) :
    ∃ p ∈ st.q.vals, p.len ≤ k := by
  obtain ⟨j, rfl⟩ : ∃ j, k = j + 1 := ⟨k - 1, by omega⟩
  obtain ⟨w, hw, he⟩ := hreach
  rcases bfs_short_path hedges hroot hok j w hw (le_refl _) with h | h
  · exact absurd he (hnt w h)
  · exact h

/-- A package exactly `m` steps from the root, with no shorter path queued, is
visited or is the last element of a queued path of `m + 1` elements. -/
theorem bfs_queued {fetch : String → Except GoError String} {root target : String}
    {k N : Nat} {st : PathState} (hinv : BfsInv fetch root target k N st) :
    ∀ m x, ReachIn fetch m root x → m + 1 ≤ k → (∀ p ∈ st.q.vals, m + 1 ≤ p.len) →
      x ∈ st.visited.keys ∨
        ∃ p ∈ st.q.vals, (p.read st.heap).getLast? = some x ∧ p.len ≤ m + 1 := by
  intro m
  cases m with
  | zero =>
    intro x hx _ _
    cases hx
    rcases hinv.root with h | ⟨p, hq, hread⟩
    · exact Or.inl h
    · right
      refine ⟨p, by simp [hq], by simp [hread], ?_⟩
      have := path.read_length (hinv.ok p (by simp [hq]))
      rw [hread] at this
      simp at this
      omega
  | succ m =>
    intro x hx hk hall
    obtain ⟨w, hw, he⟩ := hx
    have hwv := hinv.level w m hw (by omega) (fun p hp => by have := hall p hp; omega)
    exact hinv.edges w m hw hwv (by omega) x he

theorem BfsInv_init (fetch : String → Except GoError String) (root target : String)
    (k N : Nat) : BfsInv fetch root target k N (PathState.init root) where
  sorted := by simp [PathState.init, queue.add]
  span := by
    intro a ha b hb
    simp [PathState.init, queue.add] at ha hb
    subst ha hb
    omega
  ok := by
    intro p hp
    simp [PathState.init, queue.add] at hp
    subst hp
    exact (path.within_lit Set.univ root (Set.mem_univ _)).1
  walk := by
    intro p hp _
    simp [PathState.init, queue.add] at hp
    subst hp
    exact ⟨root, by simpa [PathState.init, path.lit, path.read] using WalkTo.single⟩
  full := by
    intro p hp _
    simp [PathState.init, queue.add] at hp
    subst hp
    rfl
  level := by
    intro x m _ _ hall
    have := hall (path.lit [] root).2 (by simp [PathState.init, queue.add])
    simp [path.lit] at this
  edges := by
    intro w m _ hw
    simp [PathState.init] at hw
  root := Or.inr ⟨(path.lit [] root).2, by simp [PathState.init, queue.add],
    by simp [PathState.init, path.lit, path.read]⟩
  no_target := by
    intro w hw
    simp [PathState.init] at hw

/-- The level part of the invariant of `findPath` after the head `p` of the
queue has been processed: the new queue keeps the rest of the old one, holds
only paths of at most one more element than `p`, and is not empty; the visited
set has grown by the last element of `p`. -/
theorem bfs_level_step {fetch : String → Except GoError String} {root target : String}
    {k N : Nat} {st : PathState} (hinv : BfsInv fetch root target k N st)
    {p : path} {rest : List path} (hq : st.q.vals = p :: rest) {pkg : String}
    (hlast : (p.read st.heap).getLast? = some pkg) (q1 : List path) (keys1 : List String)
    (hsub : ∀ r ∈ rest, r ∈ q1) (hlen : ∀ r ∈ q1, r.len ≤ p.len + 1)
    (hne : ∃ r, r ∈ q1) (hv : ∀ x ∈ st.visited.keys, x ∈ keys1) (hpkg : pkg ∈ keys1) :
    ∀ x m, ReachIn fetch m root x → m + 2 ≤ k → (∀ r ∈ q1, m + 1 < r.len) → x ∈ keys1 := by
  intro x m hx hm hall
  have hmin : ∀ r ∈ st.q.vals, p.len ≤ r.len := by
    intro r hr
    rw [hq] at hr
    rcases List.mem_cons.1 hr with h | h
    · rw [h]
    · have := hinv.sorted
      rw [hq, List.pairwise_cons] at this
      exact this.1 r h
  by_cases hlt : m + 1 < p.len
  · exact hv x (hinv.level x m hx hm (fun r hr => lt_of_lt_of_le hlt (hmin r hr)))
  · obtain ⟨r1, hr1⟩ := hne
    have h1 := hall r1 hr1
    have h2 := hlen r1 hr1
    have hmL : m + 1 = p.len := by omega
    rcases bfs_queued hinv m x hx (by omega) (fun r hr => by rw [hmL]; exact hmin r hr) with
      h | ⟨r, hr, hrl, hrlen⟩
    · exact hv x h
    · rw [hq] at hr
      rcases List.mem_cons.1 hr with h | h
      · subst h
        rw [hlast] at hrl
        cases hrl
        exact hpkg
      · have := hall r (hsub r h)
        omega

/-- The invariant of `findPath` is kept when a path whose last element is
visited is dropped from the queue. -/
theorem BfsInv_skip {fetch : String → Except GoError String} {root target : String}
    {k N : Nat} {st : PathState} (hinv : BfsInv fetch root target k N st)
    (hk : 1 ≤ k) (hreach : ReachIn fetch k root target)
    {p : path} {rest : List path} (hq : st.q.vals = p :: rest) {pkg : String}
    (hlast : (p.read st.heap).getLast? = some pkg) (hv : pkg ∈ st.visited.keys) :
    BfsInv fetch root target k N { st with q := ⟨rest⟩ } := by
  have hmem : ∀ r ∈ rest, r ∈ st.q.vals := fun r hr => by
    rw [hq]; exact List.mem_cons_of_mem _ hr
  have hedges : ∀ w m, ReachIn fetch m root w → w ∈ st.visited.keys → m + 2 ≤ k →
      ∀ y ∈ fdepsOf fetch w, y ∈ st.visited.keys ∨
        ∃ r ∈ rest, (r.read st.heap).getLast? = some y ∧ r.len ≤ m + 2 := by
    intro w m hw hwv hm y hy
    rcases hinv.edges w m hw hwv hm y hy with h | ⟨r, hr, hrl, hrlen⟩
    · exact Or.inl h
    · rw [hq] at hr
      rcases List.mem_cons.1 hr with h | h
      · subst h
        rw [hlast] at hrl
        cases hrl
        exact Or.inl hv
      · exact Or.inr ⟨r, h, hrl, hrlen⟩
  have hroot : root ∈ st.visited.keys ∨ ∃ r, rest = [r] ∧ r.read st.heap = [root] := by
    rcases hinv.root with h | ⟨r, hr, hread⟩
    · exact Or.inl h
    · rw [hq] at hr
      simp only [List.cons.injEq] at hr
      obtain ⟨h1, _⟩ := hr
      subst h1
      rw [hread] at hlast
      simp at hlast
      subst hlast
      exact Or.inl hv
  have hok : ∀ r ∈ rest, r.ok st.heap := fun r hr => hinv.ok r (hmem r hr)
  obtain ⟨r1, hr1, _⟩ := @bfs_frontier fetch root target k { st with q := ⟨rest⟩ }
    hedges hroot hok hinv.no_target hk hreach
  refine
    { sorted := ?_
      span := fun a ha b hb => hinv.span a (hmem a ha) b (hmem b hb)
      ok := hok
      walk := fun r hr => hinv.walk r (hmem r hr)
      full := fun r hr => hinv.full r (hmem r hr)
      level := ?_
      edges := hedges
      root := hroot
      no_target := hinv.no_target }
  · have := hinv.sorted
    rw [hq, List.pairwise_cons] at this
    exact this.2
  · exact bfs_level_step hinv hq hlast rest st.visited.keys (fun r hr => hr)
      (fun r hr => hinv.span p (by rw [hq]; exact List.mem_cons_self _ _) r (hmem r hr))
      ⟨r1, hr1⟩ (fun x hx => hx) hv

theorem forall₂_of_mem_left {α β : Type} {R : α → β → Prop} {l1 : List α} {l2 : List β}
    (h : List.Forall₂ R l1 l2) : ∀ a ∈ l1, ∃ b ∈ l2, R a b := by
  induction h with
  | nil => intro a ha; simp at ha
  | cons hab _ ih =>
    intro a ha
    rcases List.mem_cons.1 ha with h1 | h1
    · subst h1
      exact ⟨_, List.mem_cons_self _ _, hab⟩
    · obtain ⟨b, hb, hr⟩ := ih a h1
      exact ⟨b, List.mem_cons_of_mem _ hb, hr⟩

theorem forall₂_of_mem_right {α β : Type} {R : α → β → Prop} {l1 : List α} {l2 : List β}
    (h : List.Forall₂ R l1 l2) : ∀ b ∈ l2, ∃ a ∈ l1, R a b := by
  induction h with
  | nil => intro b hb; simp at hb
  | cons hab _ ih =>
    intro b hb
    rcases List.mem_cons.1 hb with h1 | h1
    · subst h1
      exact ⟨_, List.mem_cons_self _ _, hab⟩
    · obtain ⟨a, ha, hr⟩ := ih b h1
      exact ⟨a, List.mem_cons_of_mem _ ha, hr⟩

/-- The invariant of `findPath` is kept when the head of the queue is expanded
and the target is not among its dependencies. -/
theorem BfsInv_expand {fetch : String → Except GoError String} {root target : String}
    {k N : Nat} {st : PathState} (hinv : BfsInv fetch root target k N st)
    (hk : 1 ≤ k) (hkN : k ≤ N) (hreach : ReachIn fetch k root target)
    {p : path} {rest : List path} (hq : st.q.vals = p :: rest) {pkg : String}
    (hlast : (p.read st.heap).getLast? = some pkg) (hnv : pkg ∉ st.visited.keys)
    (hnt : target ∉ fdepsOf fetch pkg) (h1 : Heap) (children : List path)
    (hall : List.Forall₂ (ChildOf N p (p.read st.heap) h1) children (fdepsOf fetch pkg))
    (hst : Stable N st.heap h1) :
    BfsInv fetch root target k N
      { heap := h1, paths := st.paths, visited := st.visited.add pkg,
        q := ⟨rest ++ children⟩ } := by
  have hp : p ∈ st.q.vals := by rw [hq]; exact List.mem_cons_self _ _
  have hmem : ∀ r ∈ rest, r ∈ st.q.vals := fun r hr => by
    rw [hq]; exact List.mem_cons_of_mem _ hr
  have hmin : ∀ r ∈ rest, p.len ≤ r.len := by
    have := hinv.sorted
    rw [hq, List.pairwise_cons] at this
    exact this.1
  have hchild := forall₂_of_mem_left hall
  have hdep := forall₂_of_mem_right hall
  have hread : ∀ r ∈ rest, r.len ≤ k → r.read h1 = r.read st.heap := fun r hr hl =>
    (hst r (hinv.ok r (hmem r hr))).2 (le_trans hl hkN)
  -- the queued path of the expanded package is a shortest one
  have hshort : ∀ m, ReachIn fetch m root pkg → m + 2 ≤ k → p.len ≤ m + 1 := by
    intro m hm hmk
    by_contra hc
    have hmin' : ∀ r ∈ st.q.vals, m + 1 < r.len := by
      intro r hr
      rw [hq] at hr
      rcases List.mem_cons.1 hr with h | h
      · rw [h]; omega
      · have := hmin r h; omega
    exact hnv (hinv.level pkg m hm hmk hmin')
  have hedges : ∀ w m, ReachIn fetch m root w → w ∈ (st.visited.add pkg).keys → m + 2 ≤ k →
      ∀ y ∈ fdepsOf fetch w, y ∈ (st.visited.add pkg).keys ∨
        ∃ r ∈ rest ++ children, (r.read h1).getLast? = some y ∧ r.len ≤ m + 2 := by
    intro w m hw hwv hm y hy
    simp only [stringSet.add, List.mem_cons] at hwv ⊢
    rcases hwv with hwp | hwv
    · subst hwp
      obtain ⟨c, hc, hc1, _, _, hc4⟩ := hdep y hy
      have hpl := hshort m hw hm
      right
      refine ⟨c, List.mem_append_right _ hc, ?_, by omega⟩
      rw [hc4 (by omega)]
      simp
    · rcases hinv.edges w m hw hwv hm y hy with h | ⟨r, hr, hrl, hrlen⟩
      · exact Or.inl (Or.inr h)
      · rw [hq] at hr
        rcases List.mem_cons.1 hr with h | h
        · subst h
          rw [hlast] at hrl
          cases hrl
          exact Or.inl (Or.inl rfl)
        · right
          refine ⟨r, List.mem_append_left _ h, ?_, hrlen⟩
          rw [hread r h (by omega)]
          exact hrl
  have hroot : root ∈ (st.visited.add pkg).keys ∨
      ∃ r, rest ++ children = [r] ∧ r.read h1 = [root] := by
    left
    simp only [stringSet.add, List.mem_cons]
    rcases hinv.root with h | ⟨r, hr, hrd⟩
    · exact Or.inr h
    · rw [hq] at hr
      simp only [List.cons.injEq] at hr
      obtain ⟨h2, _⟩ := hr
      subst h2
      rw [hrd] at hlast
      simp at hlast
      exact Or.inl hlast
  have hok : ∀ r ∈ rest ++ children, r.ok h1 := by
    intro r hr
    rcases List.mem_append.1 hr with h | h
    · exact (hst r (hinv.ok r (hmem r h))).1
    · obtain ⟨d, _, hc⟩ := hchild r h
      exact hc.2.1
  have hnt1 : ∀ w ∈ (st.visited.add pkg).keys, target ∉ fdepsOf fetch w := by
    intro w hw
    simp only [stringSet.add, List.mem_cons] at hw
    rcases hw with h | h
    · rw [h]; exact hnt
    · exact hinv.no_target w h
  obtain ⟨r1, hr1, _⟩ := @bfs_frontier fetch root target k
    { heap := h1, paths := st.paths, visited := st.visited.add pkg, q := ⟨rest ++ children⟩ }
    hedges hroot hok hnt1 hk hreach
  have hlen1 : ∀ r ∈ rest ++ children, r.len ≤ p.len + 1 := by
    intro r hr
    rcases List.mem_append.1 hr with h | h
    · exact hinv.span p hp r (hmem r h)
    · obtain ⟨d, _, hc⟩ := hchild r h
      exact le_of_eq hc.1
  have hlen0 : ∀ r ∈ rest ++ children, p.len ≤ r.len := by
    intro r hr
    rcases List.mem_append.1 hr with h | h
    · exact hmin r h
    · obtain ⟨d, _, hc⟩ := hchild r h
      rw [hc.1]; omega
  obtain ⟨x0, hwalk0⟩ := hinv.walk p hp (by
    obtain ⟨r0, hr0, hl0⟩ := @bfs_frontier fetch root target k st hinv.edges hinv.root hinv.ok
      hinv.no_target hk hreach
    rw [hq] at hr0
    rcases List.mem_cons.1 hr0 with h | h
    · rw [← h]; exact hl0
    · have := hmin r0 h; omega)
  have hx0 : x0 = pkg := by
    have := WalkTo_getLast hwalk0
    rw [hlast] at this
    cases this
    rfl
  rw [hx0] at hwalk0
  refine
    { sorted := ?_
      span := fun a ha b hb => by
        have := hlen0 a ha
        have := hlen1 b hb
        omega
      ok := hok
      walk := ?_
      full := ?_
      level := ?_
      edges := hedges
      root := hroot
      no_target := hnt1 }
  · show (rest ++ children).Pairwise (fun a b => a.len ≤ b.len)
    rw [List.pairwise_append]
    refine ⟨?_, ?_, ?_⟩
    · have := hinv.sorted
      rw [hq, List.pairwise_cons] at this
      exact this.2
    · rw [List.pairwise_iff_forall_sublist]
      intro a b hab
      have ha : a ∈ children := hab.subset (by simp)
      have hb : b ∈ children := hab.subset (by simp)
      obtain ⟨_, _, hca⟩ := hchild a ha
      obtain ⟨_, _, hcb⟩ := hchild b hb
      rw [hca.1, hcb.1]
    · intro a ha b hb
      obtain ⟨_, _, hcb⟩ := hchild b hb
      rw [hcb.1]
      exact hinv.span p hp a (hmem a ha)
  · intro r hr hl
    show ∃ x, WalkTo fetch root (r.read h1) x
    rcases List.mem_append.1 hr with h | h
    · rw [hread r h hl]
      exact hinv.walk r (hmem r h) hl
    · obtain ⟨d, hd, hc1, _, _, hc4⟩ := hchild r h
      rw [hc4 (by omega)]
      exact ⟨d, WalkTo.snoc hwalk0 hd⟩
  · intro r hr hl
    rcases List.mem_append.1 hr with h | h
    · exact hinv.full r (hmem r h) hl
    · obtain ⟨d, _, hc1, _, hc3, _⟩ := hchild r h
      exact hc3 (by omega)
  · exact bfs_level_step hinv hq hlast (rest ++ children) (st.visited.add pkg).keys
      (fun r hr => List.mem_append_left _ hr) hlen1 ⟨r1, hr1⟩
      (fun x hx => by simp only [stringSet.add, List.mem_cons]; exact Or.inr hx)
      (by simp [stringSet.add])

/-- While the target, at distance `k`, has not been found, the head of the queue
has at most `k` elements. -/
theorem bfs_head_le {fetch : String → Except GoError String} {root target : String}
    {k N : Nat} {st : PathState} (hinv : BfsInv fetch root target k N st)
    (hk : 1 ≤ k) (hreach : ReachIn fetch k root target)
    {p : path} {rest : List path} (hq : st.q.vals = p :: rest) : p.len ≤ k := by
  obtain ⟨r0, hr0, hl0⟩ := @bfs_frontier fetch root target k st hinv.edges hinv.root hinv.ok
    hinv.no_target hk hreach
  rw [hq] at hr0
  rcases List.mem_cons.1 hr0 with h | h
  · rw [← h]; exact hl0
  · have := hinv.sorted
    rw [hq, List.pairwise_cons] at this
    have := this.1 r0 h
    omega

/-- One iteration of `findPath` for a target at distance `k` (at least 1, at
most `N`): either the loop goes on with the invariant kept and the measure
smaller, or a walk from the root to the target of `k + 1` elements is
returned. -/
theorem findPath_body_bfs (rt : GoRuntime) (fetch : String → Except GoError String)
    (root target : String) (k N : Nat) (Vf : Finset String)
    (hclosed : ∀ x ∈ Vf, ∀ y ∈ fdepsOf fetch x, y ∈ Vf)
    (hok : ∀ x ∈ Vf, ∃ out, fetch x = .ok out)
    (hN : ∀ n, n < N → rt.growCap (n - 1) n ≤ n)
    (hk : 1 ≤ k) (hkN : k ≤ N) (hreach : ReachIn fetch k root target)
    (hmin : ∀ m, m < k → ¬ ReachIn fetch m root target)
    (st : PathState) (hinv : BfsInv fetch root target k N st)
    (hw : ∀ r ∈ st.q.vals, r.within (↑Vf : Set String) st.heap)
    (hc : (!st.q.empty) = true) :
    (∃ st1, findPath.body rt fetch target st = .continue_ st1
        ∧ BfsInv fetch root target k N st1
        ∧ (∀ r ∈ st1.q.vals, r.within (↑Vf : Set String) st1.heap)
        ∧ findPath.measure fetch Vf st1 < findPath.measure fetch Vf st)
      ∨ ∃ l, findPath.body rt fetch target st = .return_ (.returned (some l) none)
          ∧ WalkTo fetch root l target ∧ l.length = k + 1 := by
  obtain ⟨p, rest, hvals, hnext⟩ := queue.next_cons hc
  have hpmem : p ∈ st.q.vals := by rw [hvals]; exact List.mem_cons_self _ _
  have hp := hw p hpmem
  have hrest : ∀ r ∈ rest, r.within (↑Vf : Set String) st.heap :=
    fun r hr => hw r (by rw [hvals]; exact List.mem_cons_of_mem _ hr)
  obtain ⟨pkg, hlast, hpkg⟩ := path.within_last hp
  have hpkg' : pkg ∈ Vf := hpkg
  have hlast' : (p.read st.heap).getLast? = some pkg := by
    rw [← path.last_eq hp.1]; exact hlast
  have hpk : p.len ≤ k := bfs_head_le hinv hk hreach hvals
  unfold findPath.body
  simp only [hnext, hlast]
  by_cases hv : st.visited.contains pkg = true
  · left
    simp only [hv, if_true]
    refine ⟨_, rfl, BfsInv_skip hinv hk hreach hvals hlast' ((mem_visited_iff _ _).1 hv),
      hrest, ?_⟩
    simp [findPath.measure, hvals]
  · simp only [hv]
    have hnv : pkg ∉ st.visited.keys := fun hc => hv ((mem_visited_iff _ _).2 hc)
    obtain ⟨out, hout⟩ := hok pkg hpkg'
    rw [expand_eq_fdepsOf hout]
    obtain ⟨spec1, spec2⟩ := findPath_deps_spec rt target N p (p.read st.heap)
      (hinv.full p hpmem) hN (fdepsOf fetch pkg) st.heap ⟨rest⟩ hp.1 rfl
    obtain ⟨x0, hwalk0⟩ := hinv.walk p hpmem hpk
    have hx0 : x0 = pkg := by
      have := WalkTo_getLast hwalk0
      rw [hlast'] at this
      cases this
      rfl
    rw [hx0] at hwalk0
    by_cases ht : target ∈ fdepsOf fetch pkg
    · right
      obtain ⟨h1, np, e, hread⟩ := spec1 ht
      simp only [e, hread]
      have hwalk : WalkTo fetch root (p.read st.heap ++ [target]) target :=
        WalkTo.snoc hwalk0 ht
      refine ⟨_, rfl, hwalk, ?_⟩
      have hlen := path.read_length hp.1
      have hr := WalkTo_reachIn hwalk
      rw [List.length_append, List.length_singleton, Nat.add_sub_cancel, hlen] at hr
      rw [List.length_append, List.length_singleton, hlen]
      have : ¬ p.len < k := fun hc => hmin p.len hc hr
      omega
    · left
      obtain ⟨h1, children, e, hall, hst⟩ := spec2 ht
      obtain ⟨h2, q2, e2, hl2, hw2⟩ := findPath_deps_inl rt target (↑Vf : Set String) p
        (fdepsOf fetch pkg) (fun d hd => hclosed pkg hpkg' d hd) ht st.heap ⟨rest⟩ hp hrest
      rw [e] at e2
      simp only [Sum.inl.injEq, Prod.mk.injEq] at e2
      obtain ⟨e3, e4⟩ := e2
      subst e3 e4
      simp only [e]
      refine ⟨_, rfl, BfsInv_expand hinv hk hkN hreach hvals hlast' hnv ht h1 children hall hst,
        hw2, ?_⟩
      simp only [findPath.measure, hl2, hvals, unvisited_add, List.length_cons]
      have hmem := mem_unvisited hpkg' (by simpa using hv)
      have := Finset.add_sum_erase (unvisited Vf st.visited)
        (fun x => (fdepsOf fetch x).length) hmem
      simp only at this
      omega

/-- On a graph with finitely many reachable packages, none failing, and a
runtime whose `append` leaves no spare capacity in slices shorter than `N`,
`findPath` returns a walk of `k + 1` elements from the root to a target at
distance `k`, when `1 ≤ k ≤ N`. -/
theorem findPath_shortest_aux (rt : GoRuntime) (fetch : String → Except GoError String)
    (root target : String) (k N : Nat) (hfin : {x | Reach fetch root x}.Finite)
    (hok : ∀ x, Reach fetch root x → ∃ out, fetch x = .ok out)
    (hN : ∀ n, n < N → rt.growCap (n - 1) n ≤ n)
    (hk : 1 ≤ k) (hkN : k ≤ N) (hreach : ReachIn fetch k root target)
    (hmin : ∀ m, m < k → ¬ ReachIn fetch m root target) :
    ∃ n l, (∀ fuel, n ≤ fuel →
        findPath rt fetch fuel root target = some (.returned (some l) none))
      ∧ WalkTo fetch root l target ∧ l.length = k + 1 := by
  obtain ⟨Vf, hroot, hreachV, _, hclosed⟩ := exists_closed_finset fetch root hfin
  have hokV : ∀ x ∈ Vf, ∃ out, fetch x = .ok out := fun x hx => hok x (hreachV x hx)
  have hstep := findPath_body_bfs rt fetch root target k N Vf hclosed hokV hN hk hkN hreach hmin
  have hinit : BfsInv fetch root target k N (PathState.init root) ∧
      ∀ r ∈ (PathState.init root).q.vals,
        r.within (↑Vf : Set String) (PathState.init root).heap :=
    ⟨BfsInv_init fetch root target k N, init_within _ root hroot⟩
  obtain ⟨r, hr⟩ := @forLoop_terminates _ _ (fun st : PathState => !st.q.empty)
    (findPath.body rt fetch target)
    (fun _ => Outcome.returned none (some (notFound rt root target)))
    (fun st => BfsInv fetch root target k N st ∧
      ∀ r ∈ st.q.vals, r.within (↑Vf : Set String) st.heap)
    (findPath.measure fetch Vf)
    (by
      rintro s s1 ⟨hi, hw⟩ hc hb
      rcases hstep s hi hw hc with ⟨s2, hb2, hi2, hw2, hlt⟩ | ⟨l, hb2, _⟩
      · rw [hb] at hb2; cases hb2
        exact ⟨⟨hi2, hw2⟩, hlt⟩
      · rw [hb] at hb2; cases hb2)
    (PathState.init root) hinit
  obtain ⟨s1, ⟨hi1, hw1⟩, hcase⟩ := @forLoop_inv _ _ (fun st : PathState => !st.q.empty)
    (findPath.body rt fetch target)
    (fun _ => Outcome.returned none (some (notFound rt root target)))
    (fun st => BfsInv fetch root target k N st ∧
      ∀ r ∈ st.q.vals, r.within (↑Vf : Set String) st.heap)
    (by
      rintro s s1 ⟨hi, hw⟩ hc hb
      rcases hstep s hi hw hc with ⟨s2, hb2, hi2, hw2, _⟩ | ⟨l, hb2, _⟩
      · rw [hb] at hb2; cases hb2
        exact ⟨hi2, hw2⟩
      · rw [hb] at hb2; cases hb2)
    _ (PathState.init root) r hinit hr
  rcases hcase with ⟨hc, _⟩ | ⟨hc, hb⟩
  · obtain ⟨r0, hr0, _⟩ := @bfs_frontier fetch root target k s1 hi1.edges hi1.root hi1.ok
      hi1.no_target hk hreach
    have : s1.q.vals.length = 0 := by simpa [queue.empty] using hc
    rw [List.length_eq_zero] at this
    rw [this] at hr0
    simp at hr0
  · rcases hstep s1 hi1 hw1 hc with ⟨s2, hb2, _⟩ | ⟨l, hb2, hwalk, hlen⟩
    · rw [hb] at hb2; cases hb2
    · rw [hb] at hb2
      cases hb2
      exact ⟨_, l, fun fuel hfuel => forLoop_mono hr fuel hfuel, hwalk, hlen⟩

/-- C1 (as stated, refuted): on the example graph the target D is at distance 0
from the root D, and `findPath` from D to D does not return the one-element
path: it returns a nil path and the not-found error. -/
theorem findPath_root_is_target :
    ReachIn diamond 0 "github.com/juju/juju/d" "github.com/juju/juju/d"
      ∧ findPath gcRuntime diamond 2 "github.com/juju/juju/d" "github.com/juju/juju/d" =
          some (.returned none
            (some (notFound gcRuntime "github.com/juju/juju/d" "github.com/juju/juju/d"))) := by
  constructor
  · rfl
  · decide

/-- C1 (amended): on a graph with finitely many packages reachable from the
root, none of whose fetches fails, and a runtime whose `append` leaves no spare
capacity in slices of fewer than `N` elements, for a target whose distance from
the root is `k` with `1 ≤ k ≤ N` (a walk of `k` edges leads from the root to the
target and no walk of fewer edges does), `findPath` succeeds and returns a walk
from the root to the target with exactly `k + 1` identifiers. -/
theorem findPath_shortest (rt : GoRuntime) (fetch : String → Except GoError String)
    (root target : String) (k N : Nat) (hfin : {x | Reach fetch root x}.Finite)
    (hok : ∀ x, Reach fetch root x → ∃ out, fetch x = .ok out)
    (hN : ∀ n, n < N → rt.growCap (n - 1) n ≤ n)
    (hk : 1 ≤ k) (hkN : k ≤ N) (hreach : ReachIn fetch k root target)
    (hmin : ∀ m, m < k → ¬ ReachIn fetch m root target) :
    ∃ n l, (∀ fuel, n ≤ fuel →
        findPath rt fetch fuel root target = some (.returned (some l) none))
      ∧ l.length = k + 1 ∧ l.head? = some root ∧ l.getLast? = some target
      ∧ List.Chain' (Edge fetch) l := by
  obtain ⟨n, l, hrun, hwalk, hlen⟩ :=
    findPath_shortest_aux rt fetch root target k N hfin hok hN hk hkN hreach hmin
  exact ⟨n, l, hrun, hlen, WalkTo_head hwalk, WalkTo_getLast hwalk, WalkTo_chain hwalk⟩

/-- C1 (witness): the hypotheses hold on the example graph with the gc runtime
(`N` = 3), root A and target D at distance 2; there `findPath` returns the path
A, B, D. -/
theorem findPath_shortest_witness :
    (∃ n l, (∀ fuel, n ≤ fuel →
        findPath gcRuntime diamond fuel "github.com/juju/juju/a" "github.com/juju/juju/d" =
          some (.returned (some l) none))
      ∧ l.length = 2 + 1 ∧ l.head? = some "github.com/juju/juju/a"
      ∧ l.getLast? = some "github.com/juju/juju/d" ∧ List.Chain' (Edge diamond) l)
      ∧ findPath gcRuntime diamond 2 "github.com/juju/juju/a" "github.com/juju/juju/d" =
          some (.returned (some ["github.com/juju/juju/a", "github.com/juju/juju/b",
            "github.com/juju/juju/d"]) none) :=
  ⟨findPath_shortest gcRuntime diamond "github.com/juju/juju/a" "github.com/juju/juju/d" 2 3
      (reach_finite_of_closed _ (by decide) diamond_closed)
      (fetch_ok_of_closed _ (by decide) diamond_closed diamond_ok)
      (by decide) (by decide) (by decide)
      ⟨"github.com/juju/juju/b", ⟨"github.com/juju/juju/a", rfl, by decide⟩, by decide⟩
      (by
        intro m hm
        interval_cases m
        · show ¬ ("github.com/juju/juju/a" = "github.com/juju/juju/d")
          decide
        · rintro ⟨c, hc, he⟩
          cases hc
          revert he
          decide),
    by decide⟩

/-! ## Printing a tree (C11) -/

theorem unlines_append (a b : List String) : unlines (a ++ b) = unlines a ++ unlines b := by
  induction a with
  | nil => simp [unlines]
  | cons l ls ih => simp [unlines, ih, String.append_assoc]

theorem spaces_succ (pre : String) (d : Nat) :
    pre ++ spaces (2 * d) ++ "  " = pre ++ spaces (2 * (d + 1)) := by
  apply String.ext
  simp only [spaces, String.data_append, List.append_assoc]
  congr 1
  rw [show 2 * (d + 1) = 2 * d + 2 by ring, List.replicate_add]
  rfl

mutual
/-- The text `tree.print` writes is one line per node in pre-order: the prefix,
two spaces per level, the identifier. -/
theorem print_eq_unlines : ∀ (t : tree) (pre : String) (d : Nat),
    t.print (pre ++ spaces (2 * d)) =
      unlines ((t.preorder d).map (fun x => pre ++ spaces (2 * x.1) ++ x.2))
  | .mk val children, pre, d => by
    simp only [tree.print, tree.preorder, List.map_cons, unlines]
    rw [spaces_succ, printChildren_eq_unlines children pre (d + 1)]
theorem printChildren_eq_unlines : ∀ (cs : List tree) (pre : String) (d : Nat),
    tree.printChildren cs (pre ++ spaces (2 * d)) =
      unlines ((tree.preorderAll cs d).map (fun x => pre ++ spaces (2 * x.1) ++ x.2))
  | [], pre, d => by simp [tree.printChildren, tree.preorderAll, unlines]
  | c :: cs, pre, d => by
    simp only [tree.printChildren, tree.preorderAll, List.map_append, unlines_append]
    rw [print_eq_unlines c pre d, printChildren_eq_unlines cs pre d]
end

mutual
theorem preorder_length : ∀ (t : tree) (d : Nat), (t.preorder d).length = t.size
  | .mk val children, d => by
    simp only [tree.preorder, tree.size, List.length_cons]
    rw [preorderAll_length children (d + 1)]
    omega
theorem preorderAll_length : ∀ (cs : List tree) (d : Nat),
    (tree.preorderAll cs d).length = tree.sizeAll cs
  | [], d => by simp [tree.preorderAll, tree.sizeAll]
  | c :: cs, d => by
    simp only [tree.preorderAll, tree.sizeAll, List.length_append]
    rw [preorder_length c d, preorderAll_length cs d]
end

theorem unlines_count (ls : List String) (h : ∀ l ∈ ls, '\n' ∉ l.data) :
    (unlines ls).data.count '\n' = ls.length := by
  induction ls with
  | nil => simp [unlines]
  | cons l ls ih =>
    have h1 : l.data.count '\n' = 0 := List.count_eq_zero.2 (h l (List.mem_cons_self _ _))
    have h2 := ih (fun x hx => h x (List.mem_cons_of_mem _ hx))
    have h3 : ("\n" : String).data = ['\n'] := rfl
    simp only [unlines, String.data_append, List.count_append, h1, h2, h3, List.length_cons]
    simp
    omega

/-- C11: `tree.print` writes one line per node of the tree, in depth-first
pre-order with the children in list order; the line of a node at depth `d` below
the printed tree is the prefix, then `2 * d` spaces, then the identifier of the
node.  The number of lines is the number of nodes, a child is one level (two
spaces) deeper than its parent, and when neither the prefix nor an identifier
contains a newline the text has exactly one newline per node. -/
theorem print_one_line_per_node (t : tree) (pre : String) :
    t.print pre = unlines ((t.preorder 0).map (fun x => pre ++ spaces (2 * x.1) ++ x.2)) ∧
    t.print "" = unlines ((t.preorder 0).map (fun x => spaces (2 * x.1) ++ x.2)) ∧
    (t.preorder 0).length = t.size ∧
    (∀ d, t.preorder d = (d, t.val) :: tree.preorderAll t.children (d + 1)) ∧
    ('\n' ∉ pre.data → (∀ x ∈ t.preorder 0, '\n' ∉ x.2.data) →
      (t.print pre).data.count '\n' = t.size) := by
  have h0 : ∀ p : String, p ++ spaces (2 * 0) = p := by
    intro p
    apply String.ext
    simp [spaces]
  have h1 := print_eq_unlines t pre 0
  rw [h0] at h1
  have h2 := print_eq_unlines t "" 0
  rw [h0] at h2
  refine ⟨h1, ?_, preorder_length t 0, ?_, ?_⟩
  · rw [h2]
    congr 1
  · intro d
    cases t with
    | mk val children => rfl
  · intro hpre hval
    rw [h1, unlines_count, List.length_map, preorder_length]
    intro l hl
    obtain ⟨x, hx, rfl⟩ := List.mem_map.1 hl
    simp only [String.data_append, List.mem_append, not_or, spaces, List.mem_replicate]
    refine ⟨⟨hpre, ?_⟩, hval x hx⟩
    rintro ⟨_, h⟩
    exact absurd h (by decide)

/-! ## Parsing the output of the list command (C17) -/

theorem dropWhile_append_of_all (p : Char → Bool) (pre l : List Char)
    (h : ∀ c ∈ pre, p c = true) : (pre ++ l).dropWhile p = l.dropWhile p := by
  induction pre with
  | nil => rfl
  | cons c cs ih =>
    rw [List.cons_append, List.dropWhile_cons_of_pos (h c (List.mem_cons_self _ _))]
    exact ih (fun x hx => h x (List.mem_cons_of_mem _ hx))

theorem dropWhile_of_head (p : Char → Bool) (l : List Char) (hl : l ≠ [])
    (h : p (l.head hl) = false) : l.dropWhile p = l := by
  cases l with
  | nil => exact absurd rfl hl
  | cons c cs =>
    simp only [List.head_cons] at h
    simp [List.dropWhile_cons, h]

theorem trim_chars (p : Char → Bool) (pre post J : List Char)
    (hpre : ∀ c ∈ pre, p c = true) (hpost : ∀ c ∈ post, p c = true) (hJ : J ≠ [])
    (hhead : p (J.head hJ) = false) (hlast : p (J.getLast hJ) = false) :
    (((pre ++ (J ++ post)).dropWhile p).reverse.dropWhile p).reverse = J := by
  have h1 : J ++ post ≠ [] := by simp [hJ]
  have h2 : (J ++ post).head h1 = J.head hJ := by
    cases J with
    | nil => exact absurd rfl hJ
    | cons c cs => rfl
  rw [dropWhile_append_of_all p pre _ hpre, dropWhile_of_head p _ h1 (by rw [h2]; exact hhead),
    List.reverse_append, dropWhile_append_of_all p _ _ (fun c hc => hpost c (List.mem_reverse.1 hc)),
    dropWhile_of_head p _ (by simpa using hJ) (by rw [List.head_reverse]; exact hlast),
    List.reverse_reverse]

theorem splitChars_single (sep : Char) (w : List Char) (h : sep ∉ w) :
    splitChars sep w = [w] := by
  induction w with
  | nil => rfl
  | cons c cs ih =>
    have hc : c ≠ sep := fun e => h (e ▸ List.mem_cons_self _ _)
    simp [splitChars, hc, ih (fun hm => h (List.mem_cons_of_mem _ hm))]

theorem splitChars_token (sep : Char) (w rest : List Char) (h : sep ∉ w) :
    splitChars sep (w ++ sep :: rest) = w :: splitChars sep rest := by
  induction w with
  | nil => simp [splitChars]
  | cons c cs ih =>
    have hc : c ≠ sep := fun e => h (e ▸ List.mem_cons_self _ _)
    simp [splitChars, hc, ih (fun hm => h (List.mem_cons_of_mem _ hm))]

theorem joinTokens_split (L : List String) (hL : L ≠ [])
    (htok : ∀ t ∈ L, ' ' ∉ t.data) :
    splitChars ' ' (joinTokens L).data = L.map String.data := by
  induction L with
  | nil => exact absurd rfl hL
  | cons t ts ih =>
    cases ts with
    | nil => simpa [joinTokens] using splitChars_single ' ' t.data (htok t (List.mem_cons_self _ _))
    | cons u us =>
      have h1 : (joinTokens (t :: u :: us)).data = t.data ++ ' ' :: (joinTokens (u :: us)).data := by
        simp [joinTokens]
      rw [h1, splitChars_token _ _ _ (htok t (List.mem_cons_self _ _)),
        ih (by simp) (fun x hx => htok x (List.mem_cons_of_mem _ hx))]
      rfl

theorem joinTokens_ends (L : List String) (hL : L ≠ []) (p : Char → Bool)
    (htok : ∀ t ∈ L, t.data ≠ [] ∧ ∀ c ∈ t.data, p c = false) :
    ∃ hJ : (joinTokens L).data ≠ [],
      p ((joinTokens L).data.head hJ) = false ∧ p ((joinTokens L).data.getLast hJ) = false := by
  induction L with
  | nil => exact absurd rfl hL
  | cons t ts ih =>
    have ht := htok t (List.mem_cons_self _ _)
    cases ts with
    | nil =>
      refine ⟨ht.1, ht.2 _ (List.head_mem _), ht.2 _ (List.getLast_mem _)⟩
    | cons u us =>
      have h1 : (joinTokens (t :: u :: us)).data = t.data ++ ' ' :: (joinTokens (u :: us)).data := by
        simp [joinTokens]
      obtain ⟨hJ, _, h3⟩ := ih (by simp) (fun x hx => htok x (List.mem_cons_of_mem _ hx))
      have hne : (joinTokens (t :: u :: us)).data ≠ [] := by
        rw [h1]
        simp
      refine ⟨hne, ?_, ?_⟩
      · have : (joinTokens (t :: u :: us)).data.head hne = t.data.head ht.1 := by
          simp only [h1]
          rw [List.head_append_of_ne_nil]
        rw [this]
        exact ht.2 _ (List.head_mem _)
      · have : (joinTokens (t :: u :: us)).data.getLast hne = (joinTokens (u :: us)).data.getLast hJ := by
          simp only [h1]
          rw [List.getLast_append_of_ne_nil (by simp), List.getLast_cons hJ]
        rw [this]
        exact h3

/-- C17 (counterexample): for the empty list of tokens the text is the output for
a package without imports, and `parseDeps` returns one empty token, not the
empty list. -/
theorem parseDeps_empty_list :
    listOutput [] = "'[]'\n" ∧ parseDeps (listOutput []) = [""] ∧ parseDeps (listOutput []) ≠ [] := by
  decide

/-- C17 (amended): for a non-empty list of tokens, each non-empty and without a
space or one of the characters trimmed by `parseDeps`, parsing the output text
built from the list returns exactly the list; for the empty list the result is
the one-element list holding the empty token, which `filterDeps` drops. -/
theorem parseDeps_tokens (L : List String) (hL : L ≠ [])
    (htok : ∀ t ∈ L, t.data ≠ [] ∧ ∀ c ∈ t.data, c ≠ ' ' ∧ c ∉ "'[]\n".data) :
    parseDeps (listOutput L) = L ∧
    parseDeps (listOutput []) = [""] ∧ filterDeps (parseDeps (listOutput [])) = [] := by
  refine ⟨?_, by decide, by decide⟩
  obtain ⟨hJ, hh, hl⟩ := joinTokens_ends L hL (fun c => "'[]\n".data.contains c)
    (fun t ht => ⟨(htok t ht).1, fun c hc => by simpa using ((htok t ht).2 c hc).2⟩)
  have htrim := trim_chars (fun c => "'[]\n".data.contains c) "'[".data "]'\n".data
    (joinTokens L).data (by decide) (by decide) hJ hh hl
  have hsplit := joinTokens_split L hL (fun t ht hc => ((htok t ht).2 _ hc).1 rfl)
  simp only [parseDeps, listOutput, Trim, Split, String.data_append, List.append_assoc]
  rw [htrim, hsplit, List.map_map]
  exact (List.map_congr_left (fun t _ => rfl)).trans (List.map_id L)

/-- C17 (witness): three tokens. -/
theorem parseDeps_tokens_witness :
    parseDeps (listOutput ["fmt", "github.com/juju/juju/b", "os"]) =
      ["fmt", "github.com/juju/juju/b", "os"] ∧
    parseDeps (listOutput []) = [""] ∧ filterDeps (parseDeps (listOutput [])) = [] :=
  parseDeps_tokens ["fmt", "github.com/juju/juju/b", "os"] (by decide) (by decide)

/-! ## Shared dependencies in the printed tree (C12) -/

theorem subtrees_eq (t : tree) : t.subtrees = t :: tree.subtreesAll t.children := by
  cases t with
  | mk v cs => rfl

theorem subtreesAll_append (a b : List tree) :
    tree.subtreesAll (a ++ b) = tree.subtreesAll a ++ tree.subtreesAll b := by
  induction a with
  | nil => rfl
  | cons t a ih => simp [tree.subtreesAll, ih]

/-- The breadth-first and the depth-first listing hold the same nodes. -/
theorem bfsOrder_perm : ∀ (n : Nat) (q : List tree), tree.sizeAll q ≤ n →
    (bfsOrder n q).Perm (tree.subtreesAll q) := by
  intro n
  induction n with
  | zero =>
    intro q hq
    cases q with
    | nil => exact List.Perm.refl _
    | cons t q => simp [tree.sizeAll, size_eq] at hq
  | succ n ih =>
    intro q hq
    cases q with
    | nil => exact List.Perm.refl _
    | cons t q =>
      have h1 : tree.sizeAll (q ++ t.children) ≤ n := by
        rw [sizeAll_append]
        simp only [tree.sizeAll, size_eq] at hq
        omega
      have h2 := ih (q ++ t.children) h1
      rw [subtreesAll_append] at h2
      simp only [bfsOrder, tree.subtreesAll, subtrees_eq, List.cons_append]
      exact (h2.trans List.perm_append_comm).cons t

theorem nodes_perm (t : tree) : t.nodes.Perm t.subtrees := by
  have h := bfsOrder_perm t.size [t] (by simp [tree.sizeAll])
  simpa [tree.nodes, tree.subtreesAll] using h

mutual
theorem subtrees_val : ∀ (t : tree) (d : Nat),
    t.subtrees.map tree.val = (t.preorder d).map Prod.snd
  | .mk val children, d => by
    simp only [tree.subtrees, tree.preorder, List.map_cons, tree.val]
    rw [subtreesAll_val children (d + 1)]
theorem subtreesAll_val : ∀ (cs : List tree) (d : Nat),
    (tree.subtreesAll cs).map tree.val = (tree.preorderAll cs d).map Prod.snd
  | [], d => rfl
  | c :: cs, d => by
    simp only [tree.subtreesAll, tree.preorderAll, List.map_append]
    rw [subtrees_val c d, subtreesAll_val cs d]
end

theorem countP_le_one_of_pairwise {α : Type} (p : α → Bool) (l : List α)
    (h : l.Pairwise (fun a b => ¬ (p a = true ∧ p b = true))) : l.countP p ≤ 1 := by
  induction l with
  | nil => simp
  | cons a l ih =>
    rw [List.pairwise_cons] at h
    by_cases ha : p a = true
    · have : l.countP p = 0 := by
        rw [List.countP_eq_zero]
        intro b hb hpb
        exact h.1 b hb ⟨ha, hpb⟩
      rw [List.countP_cons_of_pos _ _ ha, this]
    · rw [List.countP_cons_of_neg _ _ ha]
      exact ih h.2

theorem detour_closed :
    ∀ x ∈ ["github.com/juju/juju/a", "github.com/juju/juju/b", "github.com/juju/juju/c",
        "github.com/juju/juju/d", "github.com/juju/juju/e"],
      ∀ y ∈ fdepsOf detour x,
        y ∈ ["github.com/juju/juju/a", "github.com/juju/juju/b", "github.com/juju/juju/c",
          "github.com/juju/juju/d", "github.com/juju/juju/e"] := by
  decide

theorem detour_ok :
    ∀ x ∈ ["github.com/juju/juju/a", "github.com/juju/juju/b", "github.com/juju/juju/c",
        "github.com/juju/juju/d", "github.com/juju/juju/e"], (detour x).toBool = true := by
  decide

/-- C12 (counterexample): on the graph `detour` the tree built from A is printed
as A, B, D, C, C, E.  The first printed occurrence of C, the one below D, has no
subtree although C imports E; the second printed occurrence, the child of A,
carries E. -/
theorem buildTree_detour_first_printed :
    ∃ T : tree, buildTree detour 7 "github.com/juju/juju/a" = some (.returned (some T) none) ∧
      T.print "" = "github.com/juju/juju/a\n  github.com/juju/juju/b\n    github.com/juju/juju/d\n      github.com/juju/juju/c\n  github.com/juju/juju/c\n    github.com/juju/juju/e\n" ∧
      T.subtrees.map (fun node => (node.val, node.children.map tree.val)) =
        [("github.com/juju/juju/a", ["github.com/juju/juju/b", "github.com/juju/juju/c"]),
         ("github.com/juju/juju/b", ["github.com/juju/juju/d"]),
         ("github.com/juju/juju/d", ["github.com/juju/juju/c"]),
         ("github.com/juju/juju/c", []),
         ("github.com/juju/juju/c", ["github.com/juju/juju/e"]),
         ("github.com/juju/juju/e", [])] ∧
      fdepsOf detour "github.com/juju/juju/c" = ["github.com/juju/juju/e"] :=
  ⟨.mk "github.com/juju/juju/a"
      [.mk "github.com/juju/juju/b" [.mk "github.com/juju/juju/d" [.mk "github.com/juju/juju/c" []]],
       .mk "github.com/juju/juju/c" [.mk "github.com/juju/juju/e" []]],
    by rfl, by decide, by decide, by decide⟩

/-- C12 (amended): on a finite graph without failing fetch, the nodes that
`tree.print` visits are the nodes of the tree returned by `buildTree`, in
depth-first order.  For every identifier at most one printed occurrence has a
non-empty subtree, and a printed occurrence with a non-empty subtree carries the
filtered dependencies of its identifier as its children.  The expanded
occurrence is the first one in breadth-first order of the tree: every occurrence
that is not the first in breadth-first order has an empty subtree, wherever it
is printed. -/
theorem buildTree_print_shared (fetch : String → Except GoError String) (root : String)
    (hfin : {x | Reach fetch root x}.Finite)
    (hok : ∀ x, Reach fetch root x → ∃ out, fetch x = .ok out) :
    ∃ (n : Nat) (T : tree),
      (∀ fuel, n ≤ fuel → buildTree fetch fuel root = some (.returned (some T) none))
        ∧ T.subtrees.map tree.val = (T.preorder 0).map Prod.snd
        ∧ T.subtrees.Perm T.nodes
        ∧ (∀ x, T.subtrees.countP (fun node => decide (node.val = x) && !node.children.isEmpty) ≤ 1)
        ∧ (∀ node ∈ T.subtrees, node.children ≠ [] →
            node.children.map tree.val = fdepsOf fetch node.val)
        ∧ (∀ k node, T.nodes[k]? = some node →
            node.val ∈ (T.nodes.take k).map tree.val → node.children = [])
        ∧ (∀ k node, T.nodes[k]? = some node →
            node.val ∉ (T.nodes.take k).map tree.val →
              node.children.map tree.val = fdepsOf fetch node.val) := by
  obtain ⟨n, st, hinv, hrun⟩ := buildTree_finite_aux fetch root hfin hok
  have key : ∀ k node, (readTree st.heap st.heap.length 0).nodes[k]? = some node →
      (node.val ∉ ((readTree st.heap st.heap.length 0).nodes.take k).map tree.val →
          node.children.map tree.val = fdepsOf fetch node.val)
        ∧ (node.val ∈ ((readTree st.heap st.heap.length 0).nodes.take k).map tree.val →
          node.children = []) := by
    intro k node hk
    obtain ⟨cell, hcell, hval, hch, hnil⟩ := nodes_getElem_of_final hinv k node hk
    have hklt : k < st.heap.length := (List.getElem?_eq_some.1 hcell).1
    have htake : ((readTree st.heap st.heap.length 0).nodes.take k).map tree.val
        = (st.heap.take k).map treeCell.val := by
      rw [List.map_take, nodes_val_of_final hinv, ← List.map_take]
    rw [htake, hval]
    constructor
    · intro hn
      rw [hch]
      exact (hinv.first k cell hcell hklt hn).2
    · intro hm
      exact hnil (hinv.repeated k cell hcell hklt hm)
  generalize readTree st.heap st.heap.length 0 = T at hrun key
  refine ⟨n, T, hrun, subtrees_val T 0, (nodes_perm T).symm, ?_, ?_,
    fun k node hk => (key k node hk).2, fun k node hk => (key k node hk).1⟩
  · intro x
    rw [← (nodes_perm T).countP_eq]
    apply countP_le_one_of_pairwise
    rw [List.pairwise_iff_getElem]
    intro i j hi hj hij hp
    simp only [Bool.and_eq_true, decide_eq_true_eq, Bool.not_eq_true', List.isEmpty_eq_false] at hp
    have hmem : (T.nodes[j]).val ∈ (T.nodes.take j).map tree.val := by
      rw [hp.2.1, ← hp.1.1]
      apply List.mem_map_of_mem
      rw [List.mem_take_iff_getElem]
      exact ⟨i, by omega, rfl⟩
    exact hp.2.2 ((key j _ (List.getElem?_eq_getElem hj)).2 hmem)
  · intro node hnode hne
    obtain ⟨k, hk, rfl⟩ := List.getElem_of_mem ((nodes_perm T).mem_iff.2 hnode)
    by_cases hm : (T.nodes[k]).val ∈ (T.nodes.take k).map tree.val
    · exact absurd ((key k _ (List.getElem?_eq_getElem hk)).2 hm) hne
    · exact (key k _ (List.getElem?_eq_getElem hk)).1 hm

/-- C12 (witness): the graph `detour` with root A. -/
theorem buildTree_print_shared_witness :
    ∃ (n : Nat) (T : tree),
      (∀ fuel, n ≤ fuel →
          buildTree detour fuel "github.com/juju/juju/a" = some (.returned (some T) none))
        ∧ T.subtrees.map tree.val = (T.preorder 0).map Prod.snd
        ∧ T.subtrees.Perm T.nodes
        ∧ (∀ x, T.subtrees.countP (fun node => decide (node.val = x) && !node.children.isEmpty) ≤ 1)
        ∧ (∀ node ∈ T.subtrees, node.children ≠ [] →
            node.children.map tree.val = fdepsOf detour node.val)
        ∧ (∀ k node, T.nodes[k]? = some node →
            node.val ∈ (T.nodes.take k).map tree.val → node.children = [])
        ∧ (∀ k node, T.nodes[k]? = some node →
            node.val ∉ (T.nodes.take k).map tree.val →
              node.children.map tree.val = fdepsOf detour node.val) :=
  buildTree_print_shared detour "github.com/juju/juju/a"
    (reach_finite_of_closed _ (by decide) detour_closed)
    (fetch_ok_of_closed _ (by decide) detour_closed detour_ok)

/-! ## findPath and the first path of findAllPaths (C19) -/

/-- C19 (evaluation at the failing input): on the graph `fork`, finite and with
no failing fetch, `findPath` from A to D succeeds with the path A, B, C, D, and
`findAllPaths` from A to D returns a one-element list whose first path reads
A, B, C, E: the slice appended to the result was overwritten by the later
`p.append` for E on the same backing array. -/
theorem findPath_differs_from_first_of_all (fuel : Nat) :
    findPath gcRuntime fork (fuel + 6) "github.com/juju/juju/a" "github.com/juju/juju/d" =
        some (.returned (some ["github.com/juju/juju/a", "github.com/juju/juju/b",
          "github.com/juju/juju/c", "github.com/juju/juju/d"]) none) ∧
      findAllPaths gcRuntime fork (fuel + 6) "github.com/juju/juju/a" "github.com/juju/juju/d" =
        some (.returned (some [["github.com/juju/juju/a", "github.com/juju/juju/b",
          "github.com/juju/juju/c", "github.com/juju/juju/e"]]) none) :=
  ⟨findPath_mono (n := 6) (by decide) (fuel + 6) (by omega),
    findAllPaths_mono (n := 6) (by decide) (fuel + 6) (by omega)⟩

/-! ## Slices that share a backing array -/

theorem take_succ_set {α : Type} (A : List α) (L : Nat) (s : α) (h : L < A.length) :
    (A.take (L + 1)).set L s = A.take L ++ [s] := by
  apply List.ext_getElem
  · simp
    omega
  · intro i h1 h2
    simp only [List.length_append, List.length_take, List.length_singleton] at h2
    rw [List.getElem_set]
    by_cases hi : L = i
    · subst hi
      rw [if_pos rfl, List.getElem_append_right (by simp)]
      simp
    · rw [if_neg hi, List.getElem_append_left (by simp; omega)]
      simp

/-- An `append` to `p` changes a slice of at most one element more than `p`
only by making it read the elements of `p` followed by the new element. -/
theorem path.append_read_cases (rt : GoRuntime) {h : Heap} {p q : path} (s : String)
    (hq : q.ok h) (hlen : q.len ≤ p.len + 1) :
    q.read (p.append rt h s).1 = q.read h ∨ q.read (p.append rt h s).1 = p.read h ++ [s] := by
  rw [path.append_read_old rt s hq]
  split
  · rename_i hc
    right
    obtain ⟨_, h1, h2⟩ := hq
    have hl : q.len = p.len + 1 := by omega
    simp only [path.read, hc.2.1, hl]
    rw [hc.2.1] at h2
    exact take_succ_set _ _ _ (by omega)
  · left
    rfl

theorem path.good_append_old (rt : GoRuntime) {P : List String → Prop} {h : Heap}
    {p q : path} {s : String} (hq : q.good P p.len h) (hP : P (p.read h ++ [s])) :
    q.good P p.len (p.append rt h s).1 := by
  refine ⟨path.append_ok_old rt s hq.1, hq.2.1, ?_⟩
  rcases path.append_read_cases rt s hq.1 hq.2.1 with h1 | h1
  · rw [h1]
    exact hq.2.2
  · rw [h1]
    exact hP

theorem path.good_append_new (rt : GoRuntime) {P : List String → Prop} {h : Heap}
    {p : path} {s : String} (hp : p.ok h) (hP : P (p.read h ++ [s])) :
    (p.append rt h s).2.good P p.len (p.append rt h s).1 := by
  refine ⟨path.append_ok_new rt s hp, ?_, ?_⟩
  · rw [path.append_len]
  · rw [path.append_read_new rt s hp]
    exact hP

theorem WalkTo_mem_reach {fetch : String → Except GoError String} {root x : String}
    {l : List String} (h : WalkTo fetch root l x) :
    Reach fetch root x ∧ ∀ y ∈ l, Reach fetch root y := by
  induction h with
  | single => exact ⟨Relation.ReflTransGen.refl, fun y hy => by simp at hy; rw [hy]; exact Relation.ReflTransGen.refl⟩
  | @snoc l x y _ he ih =>
    have hy : Reach fetch root y := Relation.ReflTransGen.tail ih.1 he
    refine ⟨hy, fun z hz => ?_⟩
    rcases List.mem_append.1 hz with h1 | h1
    · exact ih.2 z h1
    · simp at h1
      rw [h1]
      exact hy

/-! ## The invariant of findAllPaths -/

/-- The loop over the dependencies in `findAllPaths` keeps every slice of the
queue and of the result well formed, with a reading that satisfies `P`, when
`P` holds for the elements of `p` followed by any of the dependencies. -/
theorem findAllPaths_deps_good (rt : GoRuntime) (target : String) (P : List String → Prop)
    (p : path) (l0 : List String) :
    ∀ (fdeps : List String) (st : PathState), (∀ d ∈ fdeps, P (l0 ++ [d])) →
      p.ok st.heap → p.read st.heap = l0 →
      (∀ s ∈ st.q.vals, s.good P p.len st.heap) →
      (∀ s ∈ st.paths, s.good P p.len st.heap) →
      p.ok (findAllPaths.deps rt target p fdeps st).heap
        ∧ p.read (findAllPaths.deps rt target p fdeps st).heap = l0
        ∧ (∀ s ∈ (findAllPaths.deps rt target p fdeps st).q.vals,
            s.good P p.len (findAllPaths.deps rt target p fdeps st).heap)
        ∧ (∀ s ∈ (findAllPaths.deps rt target p fdeps st).paths,
            s.good P p.len (findAllPaths.deps rt target p fdeps st).heap) := by
  intro fdeps
  induction fdeps with
  | nil =>
    intro st _ hp hr hq hres
    exact ⟨hp, hr, hq, hres⟩
  | cons d ds ih =>
    intro st hP hp hr hq hres
    have hPd : P (p.read st.heap ++ [d]) := hr ▸ hP d (List.mem_cons_self _ _)
    have hP' : ∀ x ∈ ds, P (l0 ++ [x]) := fun x hx => hP x (List.mem_cons_of_mem _ hx)
    have hp1 : p.ok (p.append rt st.heap d).1 := path.append_ok_old rt d hp
    have hr1 : p.read (p.append rt st.heap d).1 = l0 := by
      rw [path.append_read_self rt d hp, hr]
    have hq1 : ∀ s ∈ st.q.vals, s.good P p.len (p.append rt st.heap d).1 :=
      fun s hs => path.good_append_old rt (hq s hs) hPd
    have hres1 : ∀ s ∈ st.paths, s.good P p.len (p.append rt st.heap d).1 :=
      fun s hs => path.good_append_old rt (hres s hs) hPd
    have hnew : (p.append rt st.heap d).2.good P p.len (p.append rt st.heap d).1 :=
      path.good_append_new rt hp hPd
    simp only [findAllPaths.deps]
    by_cases hd : d = target
    · rw [if_pos hd]
      refine ih { st with heap := (p.append rt st.heap d).1,
                          paths := st.paths ++ [(p.append rt st.heap d).2] } hP' hp1 hr1 hq1 ?_
      intro s hs
      rcases List.mem_append.1 hs with h1 | h1
      · exact hres1 s h1
      · rw [List.mem_singleton.1 h1]
        exact hnew
    · rw [if_neg hd]
      by_cases hv : st.visited.contains d = true
      · simp only [hv, Bool.not_true, Bool.false_eq_true, if_false]
        exact ih { st with heap := (p.append rt st.heap d).1 } hP' hp1 hr1 hq1 hres1
      · simp only [hv, Bool.not_false, if_true]
        refine ih { st with heap := (p.append rt st.heap d).1, visited := st.visited.add d,
                            q := st.q.add (p.append rt st.heap d).2 } hP' hp1 hr1 ?_ hres1
        intro s hs
        simp only [queue.add, List.mem_append, List.mem_singleton] at hs
        rcases hs with h1 | h1
        · exact hq1 s h1
        · rw [h1]
          exact hnew

/-- What the loop over the dependencies in `findAllPaths` adds: slices at the end
of the queue and of the result, all one element longer than `p`, and one
visited package for every slice added to the queue. -/
theorem findAllPaths_deps_shape (rt : GoRuntime) (target : String) (p : path) :
    ∀ (fdeps : List String) (st : PathState), st.visited.keys.Nodup →
      target ∉ st.visited.keys →
      ∃ (children found : List path) (news : List String),
        (findAllPaths.deps rt target p fdeps st).q.vals = st.q.vals ++ children
          ∧ (findAllPaths.deps rt target p fdeps st).paths = st.paths ++ found
          ∧ (findAllPaths.deps rt target p fdeps st).visited.keys
              = news.reverse ++ st.visited.keys
          ∧ (∀ c ∈ children, c.len = p.len + 1) ∧ (∀ c ∈ found, c.len = p.len + 1)
          ∧ List.Forall₂ (fun c d => ∃ hc, c = (p.append rt hc d).2) children news
          ∧ (∀ d ∈ news, d ∈ fdeps)
          ∧ (findAllPaths.deps rt target p fdeps st).visited.keys.Nodup
          ∧ target ∉ (findAllPaths.deps rt target p fdeps st).visited.keys := by
  intro fdeps
  induction fdeps with
  | nil =>
    intro st hn ht
    exact ⟨[], [], [], by simp [findAllPaths.deps], by simp [findAllPaths.deps],
      by simp [findAllPaths.deps], by simp, by simp, List.Forall₂.nil, by simp, hn, ht⟩
  | cons d ds ih =>
    intro st hn ht
    simp only [findAllPaths.deps]
    by_cases hd : d = target
    · rw [if_pos hd]
      obtain ⟨ch, fo, ne, h1, h2, h3, h4, h5, h6, h7, h8, h9⟩ :=
        ih { st with heap := (p.append rt st.heap d).1,
                     paths := st.paths ++ [(p.append rt st.heap d).2] } hn ht
      refine ⟨ch, (p.append rt st.heap d).2 :: fo, ne, h1, ?_, h3, h4, ?_, h6,
        fun x hx => List.mem_cons_of_mem _ (h7 x hx), h8, h9⟩
      · rw [h2]
        simp
      · intro c hc
        rcases List.mem_cons.1 hc with hc | hc
        · rw [hc, path.append_len]
        · exact h5 c hc
    · rw [if_neg hd]
      by_cases hv : st.visited.contains d = true
      · simp only [hv, Bool.not_true, Bool.false_eq_true, if_false]
        obtain ⟨ch, fo, ne, h1, h2, h3, h4, h5, h6, h7, h8, h9⟩ :=
          ih { st with heap := (p.append rt st.heap d).1 } hn ht
        exact ⟨ch, fo, ne, h1, h2, h3, h4, h5, h6,
          fun x hx => List.mem_cons_of_mem _ (h7 x hx), h8, h9⟩
      · simp only [hv, Bool.not_false, if_true]
        have hdn : d ∉ st.visited.keys := by
          simpa [stringSet.contains] using hv
        obtain ⟨ch, fo, ne, h1, h2, h3, h4, h5, h6, h7, h8, h9⟩ :=
          ih { st with heap := (p.append rt st.heap d).1, visited := st.visited.add d,
                       q := st.q.add (p.append rt st.heap d).2 }
            (List.nodup_cons.2 ⟨hdn, hn⟩)
            (by
              simp only [stringSet.add, List.mem_cons, not_or]
              exact ⟨fun e => hd e.symm, ht⟩)
        refine ⟨(p.append rt st.heap d).2 :: ch, fo, d :: ne, ?_, h2, ?_, ?_, h5,
          List.Forall₂.cons ⟨st.heap, rfl⟩ h6, ?_, h8, h9⟩
        · rw [h1]
          simp [queue.add]
        · rw [h3]
          simp [stringSet.add]
        · intro c hc
          rcases List.mem_cons.1 hc with hc | hc
          · rw [hc, path.append_len]
          · exact h4 c hc
        · intro x hx
          rcases List.mem_cons.1 hx with hx | hx
          · rw [hx]
            exact List.mem_cons_self _ _
          · exact List.mem_cons_of_mem _ (h7 x hx)

theorem AllInv_init (fetch : String → Except GoError String) (root target : String) :
    AllInv fetch root target (PathState.init root) := by
  refine ⟨?_, by simp [PathState.init], by simp [PathState.init, queue.add],
    ?_, by simp [PathState.init], by simp [PathState.init], by simp [PathState.init],
    by simp [PathState.init], by simp [PathState.init]⟩
  · intro s hs
    simp only [PathState.init, queue.add, List.nil_append, List.mem_singleton] at hs
    subst hs
    refine ⟨⟨by simp [path.lit], by simp [path.lit], by simp [PathState.init, path.lit]⟩,
      root, ?_⟩
    have : (path.lit [] root).2.read (PathState.init root).heap = [root] := by
      simp [PathState.init, path.lit, path.read]
    rw [this]
    exact WalkTo.single
  · intro a ha b hb
    simp only [PathState.init, queue.add, List.nil_append, List.mem_singleton] at ha hb
    rw [ha, hb]
    omega

/-- One execution of the body of `findAllPaths` in a state that satisfies the
invariant, with a non-empty queue: the path taken from the queue ends in a
reachable package; either its fetch fails and the function returns the error,
or the loop continues in a state that satisfies the invariant, with new slices
at the end of the queue and of the result and one new visited package for every
slice added to the queue. -/
theorem findAllPaths_body_inv (rt : GoRuntime) (fetch : String → Except GoError String)
    (root target : String) {st : PathState} (hinv : AllInv fetch root target st)
    (hc : (!st.q.empty) = true) :
    ∃ p rest pkg, st.q.vals = p :: rest ∧ p.last st.heap = some pkg ∧ Reach fetch root pkg ∧
      ((∃ err, expand fetch pkg = .error err ∧
          findAllPaths.body rt fetch target st = .return_ (.returned none (some err))) ∨
        ∃ st1 children found news,
          findAllPaths.body rt fetch target st = .continue_ st1
            ∧ AllInv fetch root target st1
            ∧ st1.q.vals = rest ++ children ∧ st1.paths = st.paths ++ found
            ∧ st1.visited.keys = news.reverse ++ st.visited.keys
            ∧ List.Forall₂ (fun c d => ∃ hc, c = (p.append rt hc d).2) children news) := by
  obtain ⟨p, rest, hq, hnext⟩ := queue.next_cons hc
  have hpmem : p ∈ st.q.vals := hq ▸ List.mem_cons_self _ _
  have hrest : ∀ s ∈ rest, s ∈ st.q.vals := fun s hs => hq ▸ List.mem_cons_of_mem _ hs
  obtain ⟨hpok, pkg, hwalk⟩ := hinv.q_good p hpmem
  have hlast : p.last st.heap = some pkg := by
    rw [path.last_eq hpok]
    exact WalkTo_getLast hwalk
  have hreach := (WalkTo_mem_reach hwalk).1
  refine ⟨p, rest, pkg, hq, hlast, hreach, ?_⟩
  cases hex : expand fetch pkg with
  | error err =>
    left
    exact ⟨err, rfl, by simp [findAllPaths.body, hnext, hlast, hex]⟩
  | ok fdeps =>
    right
    have hfd : fdepsOf fetch pkg = fdeps := by simp [fdepsOf, hex]
    have hsorted := hinv.sorted
    rw [hq, List.pairwise_cons] at hsorted
    have hgood := findAllPaths_deps_good rt target (fun l => ∃ x, WalkTo fetch root l x) p
      (p.read st.heap) fdeps { st with q := ⟨rest⟩ }
      (fun d hd => ⟨d, WalkTo.snoc hwalk (show d ∈ fdepsOf fetch pkg from hfd ▸ hd)⟩)
      hpok rfl
      (fun s hs => ⟨(hinv.q_good s (hrest s hs)).1, hinv.span p hpmem s (hrest s hs),
        (hinv.q_good s (hrest s hs)).2⟩)
      (fun s hs => ⟨(hinv.r_good s hs).1, hinv.r_le s hs p hpmem, (hinv.r_good s hs).2⟩)
    obtain ⟨ch, fo, ne, h1, h2, h3, h4, h5, h6, h7, h8, h9⟩ :=
      findAllPaths_deps_shape rt target p fdeps { st with q := ⟨rest⟩ } hinv.nodup hinv.no_target
    refine ⟨findAllPaths.deps rt target p fdeps { st with q := ⟨rest⟩ }, ch, fo, ne,
      by simp [findAllPaths.body, hnext, hlast, hex], ?_, h1, h2, h3, h6⟩
    have hlen_rest : ∀ a ∈ rest, p.len ≤ a.len ∧ a.len ≤ p.len + 1 :=
      fun a ha => ⟨hsorted.1 a ha, hinv.span p hpmem a (hrest a ha)⟩
    have hlen_q : ∀ a ∈ rest ++ ch, p.len ≤ a.len ∧ a.len ≤ p.len + 1 := by
      intro a ha
      rcases List.mem_append.1 ha with h | h
      · exact hlen_rest a h
      · rw [h4 a h]
        omega
    have hlen_r : ∀ r ∈ st.paths ++ fo, r.len ≤ p.len + 1 := by
      intro r hr
      rcases List.mem_append.1 hr with h | h
      · exact hinv.r_le r h p hpmem
      · rw [h5 r h]
    refine ⟨fun s hs => ⟨(hgood.2.2.1 s hs).1, (hgood.2.2.1 s hs).2.2⟩,
      fun s hs => ⟨(hgood.2.2.2 s hs).1, (hgood.2.2.2 s hs).2.2⟩, ?_, ?_, ?_, ?_, h8, h9, ?_⟩
    · rw [h1]
      simp only [List.pairwise_append]
      refine ⟨hsorted.2, ?_, ?_⟩
      · rw [List.pairwise_iff_forall_sublist]
        intro a b hab
        have ha := h4 a (hab.subset (List.mem_cons_self _ _))
        have hb := h4 b (hab.subset (List.mem_cons_of_mem _ (List.mem_singleton_self _)))
        omega
      · intro a ha b hb
        have := (hlen_rest a ha).2
        rw [h4 b hb]
        exact this
    · rw [h1]
      intro a ha b hb
      have := (hlen_q a ha).1
      have := (hlen_q b hb).2
      omega
    · rw [h2]
      simp only [List.pairwise_append]
      refine ⟨hinv.r_sorted, ?_, ?_⟩
      · rw [List.pairwise_iff_forall_sublist]
        intro a b hab
        have ha := h5 a (hab.subset (List.mem_cons_self _ _))
        have hb := h5 b (hab.subset (List.mem_cons_of_mem _ (List.mem_singleton_self _)))
        omega
      · intro a ha b hb
        rw [h5 b hb]
        exact hinv.r_le a ha p hpmem
    · rw [h1, h2]
      intro r hr a ha
      have := hlen_r r hr
      have := (hlen_q a ha).1
      omega
    · rw [h3]
      intro x hx
      rcases List.mem_append.1 hx with h | h
      · exact Relation.ReflTransGen.tail hreach
          (show x ∈ fdepsOf fetch pkg from hfd ▸ h7 x (List.mem_reverse.1 h))
      · exact hinv.visited_reach x h

/-! ## Paths added to the queue of findAllPaths (C13) -/

theorem iterate_inv {σ ρ : Type} {cond : σ → Bool} {body : σ → Flow σ ρ}
    (Inv : Nat → σ → Prop)
    (hpres : ∀ k s s1, Inv k s → cond s = true → body s = .continue_ s1 → Inv (k + 1) s1) :
    ∀ (n k : Nat) (s st : σ), Inv k s → forLoop.iterate cond body n s = some st →
      Inv (k + n) st := by
  intro n
  induction n with
  | zero =>
    intro k s st hs h
    simp only [forLoop.iterate, Option.some.injEq] at h
    rw [← h]
    exact hs
  | succ n ih =>
    intro k s st hs h
    simp only [forLoop.iterate] at h
    by_cases hc : cond s = true
    · rw [if_pos hc] at h
      cases hb : body s with
      | continue_ s1 =>
        rw [hb] at h
        have := ih (k + 1) s1 st (hpres k s s1 hs hc hb) h
        rw [show k + (n + 1) = k + 1 + n by omega]
        exact this
      | return_ r =>
        rw [hb] at h
        exact absurd h (by simp)
    · rw [if_neg hc] at h
      exact absurd h (by simp)

theorem findAllPaths_body_cond {rt : GoRuntime} {fetch : String → Except GoError String}
    {target : String} {st st1 : PathState}
    (h : findAllPaths.body rt fetch target st = .continue_ st1) : (!st.q.empty) = true := by
  cases hn : st.q.next with
  | none => simp [findAllPaths.body, hn] at h
  | some x => exact @queue.not_empty_of_next _ st.q x.2 x.1 hn

/-- After `k` iterations of `findAllPaths` the invariant holds, and the number of
slices taken from the queue plus the number still queued is one more than the
number of visited packages. -/
theorem findAllPaths_stateAfter_inv (rt : GoRuntime) (fetch : String → Except GoError String)
    (root target : String) (n : Nat) (st : PathState)
    (h : findAllPaths.stateAfter rt fetch target root n = some st) :
    AllInv fetch root target st ∧ n + st.q.vals.length = 1 + st.visited.keys.length := by
  have := iterate_inv
    (fun k s => AllInv fetch root target s ∧ k + s.q.vals.length = 1 + s.visited.keys.length)
    (by
      intro k s s1 hs hc hb
      obtain ⟨p, rest, pkg, hq, _, _, hcase⟩ := findAllPaths_body_inv rt fetch root target hs.1 hc
      rcases hcase with ⟨err, _, hret⟩ | ⟨s2, ch, fo, ne, hcont, hinv, h1, _, h3, h6⟩
      · rw [hret] at hb
        exact absurd hb (by simp)
      · rw [hcont] at hb
        have he : s2 = s1 := by simpa using hb
        subst he
        refine ⟨hinv, ?_⟩
        have hlen := h6.length_eq
        have h2 := hs.2
        rw [hq] at h2
        rw [h1, h3]
        simp only [List.length_append, List.length_reverse, List.length_cons] at h2 ⊢
        omega)
    n 0 (PathState.init root) st ⟨AllInv_init fetch root target, by simp [PathState.init, queue.add]⟩ h
  simpa using this

/-- C13 (counterexample): on the graph `cycle`, with root A and target T, the
queue holds the path A at the start, and after two iterations it holds the path
A, B, A: the root is the last element of two paths added to the queue.  The
third iteration takes that path and fetches the dependencies of A a second
time. -/
theorem findAllPaths_root_queued_twice :
    (findAllPaths.stateAfter gcRuntime cycle "github.com/juju/juju/t" "github.com/juju/juju/a" 0).map
        PathState.queued = some [["github.com/juju/juju/a"]] ∧
      (findAllPaths.stateAfter gcRuntime cycle "github.com/juju/juju/t" "github.com/juju/juju/a" 2).map
        PathState.queued =
          some [["github.com/juju/juju/a", "github.com/juju/juju/b", "github.com/juju/juju/a"]] ∧
      (findAllPaths.stateAfter gcRuntime cycle "github.com/juju/juju/t" "github.com/juju/juju/a" 3).map
        PathState.queued = some [] := by
  decide

/-- C13 (amended): in every state that `findAllPaths` reaches after `n`
iterations, the visited packages are pairwise distinct and the target is not
among them, and the number of slices taken from the queue plus the number still
queued is one more than the number of visited packages: besides the path of the
root, added at the start without marking the root, a slice is added to the queue
exactly when its dependency is added to the visited set.  In one iteration the
slices added are `p.append(d)` for pairwise distinct dependencies `d` that were
not visited and differ from the target. -/
theorem findAllPaths_enqueues_once (rt : GoRuntime) (fetch : String → Except GoError String)
    (root target : String) (n : Nat) (st : PathState)
    (h : findAllPaths.stateAfter rt fetch target root n = some st) :
    st.visited.keys.Nodup ∧ target ∉ st.visited.keys
      ∧ n + st.q.vals.length = 1 + st.visited.keys.length
      ∧ ∀ st1, findAllPaths.body rt fetch target st = .continue_ st1 →
          ∃ p rest children news, st.q.vals = p :: rest ∧ st1.q.vals = rest ++ children
            ∧ st1.visited.keys = news.reverse ++ st.visited.keys
            ∧ List.Forall₂ (fun c d => ∃ hc, c = (p.append rt hc d).2) children news
            ∧ news.Nodup ∧ ∀ d ∈ news, d ∉ st.visited.keys ∧ d ≠ target := by
  obtain ⟨hinv, hcount⟩ := findAllPaths_stateAfter_inv rt fetch root target n st h
  refine ⟨hinv.nodup, hinv.no_target, hcount, ?_⟩
  intro st1 hb
  obtain ⟨p, rest, pkg, hq, _, _, hcase⟩ :=
    findAllPaths_body_inv rt fetch root target hinv (findAllPaths_body_cond hb)
  rcases hcase with ⟨err, _, hret⟩ | ⟨s2, ch, fo, ne, hcont, hinv1, h1, _, h3, h6⟩
  · rw [hret] at hb
    exact absurd hb (by simp)
  · rw [hcont] at hb
    have he : s2 = st1 := by simpa using hb
    subst he
    have hnd := hinv1.nodup
    have hnt := hinv1.no_target
    rw [h3] at hnd hnt
    rw [List.nodup_append] at hnd
    refine ⟨p, rest, ch, ne, hq, h1, h3, h6, List.nodup_reverse.1 hnd.1, ?_⟩
    intro d hd
    refine ⟨fun hk => hnd.2.2 (List.mem_reverse.2 hd) hk, fun e => hnt ?_⟩
    rw [← e]
    exact List.mem_append_left _ (List.mem_reverse.2 hd)

/-- C13 (witness): the state of the run on the graph `cycle` after two
iterations. -/
theorem findAllPaths_enqueues_once_witness :
    ∃ st, findAllPaths.stateAfter gcRuntime cycle "github.com/juju/juju/t"
        "github.com/juju/juju/a" 2 = some st ∧
      st.visited.keys.Nodup ∧ "github.com/juju/juju/t" ∉ st.visited.keys
      ∧ 2 + st.q.vals.length = 1 + st.visited.keys.length
      ∧ ∀ st1, findAllPaths.body gcRuntime cycle "github.com/juju/juju/t" st = .continue_ st1 →
          ∃ p rest children news, st.q.vals = p :: rest ∧ st1.q.vals = rest ++ children
            ∧ st1.visited.keys = news.reverse ++ st.visited.keys
            ∧ List.Forall₂ (fun c d => ∃ hc, c = (p.append gcRuntime hc d).2) children news
            ∧ news.Nodup ∧ ∀ d ∈ news, d ∉ st.visited.keys ∧ d ≠ "github.com/juju/juju/t" := by
  obtain ⟨st, hst⟩ := Option.isSome_iff_exists.1
    (show (findAllPaths.stateAfter gcRuntime cycle "github.com/juju/juju/t"
      "github.com/juju/juju/a" 2).isSome = true by decide)
  exact ⟨st, hst, findAllPaths_enqueues_once gcRuntime cycle "github.com/juju/juju/a"
    "github.com/juju/juju/t" 2 st hst⟩

/-! ## The paths returned by findAllPaths are walks (C14) -/

/-- When `findAllPaths` returns a list, the loop has ended in a state that
satisfies the invariant, and the list is what the collected slices read. -/
theorem findAllPaths_final (rt : GoRuntime) (fetch : String → Except GoError String)
    (fuel : Nat) (root target : String) (paths : List (List String))
    (hrun : findAllPaths rt fetch fuel root target = some (.returned (some paths) none)) :
    ∃ st, AllInv fetch root target st ∧ paths = st.paths.map (path.read st.heap) := by
  obtain ⟨st, hinv, hcase⟩ := forLoop_inv (AllInv fetch root target)
    (by
      intro s s1 hs hc hb
      obtain ⟨p, rest, pkg, _, _, _, hcase⟩ := findAllPaths_body_inv rt fetch root target hs hc
      rcases hcase with ⟨err, _, hret⟩ | ⟨s2, ch, fo, ne, hcont, hinv, _⟩
      · rw [hret] at hb
        exact absurd hb (by simp)
      · rw [hcont] at hb
        have he : s2 = s1 := by simpa using hb
        exact he ▸ hinv)
    (AllInv_init fetch root target) hrun
  refine ⟨st, hinv, ?_⟩
  rcases hcase with ⟨_, hr⟩ | ⟨hc, hb⟩
  · simpa using hr
  · obtain ⟨p, rest, pkg, _, _, _, hcase⟩ := findAllPaths_body_inv rt fetch root target hinv hc
    rcases hcase with ⟨err, _, hret⟩ | ⟨s2, ch, fo, ne, hcont, _⟩
    · rw [hret] at hb
      simp at hb
    · rw [hcont] at hb
      simp at hb

theorem WalkTo_to_last {fetch : String → Except GoError String} {root x : String}
    {l : List String} (h : WalkTo fetch root l x) :
    ∀ y ∈ l, Relation.ReflTransGen (Edge fetch) y x := by
  induction h with
  | single =>
    intro y hy
    simp only [List.mem_singleton] at hy
    rw [hy]
  | @snoc l x z _ he ih =>
    intro y hy
    rcases List.mem_append.1 hy with h1 | h1
    · exact Relation.ReflTransGen.tail (ih y h1) he
    · simp only [List.mem_singleton] at h1
      rw [h1]

/-- A walk from the root in a graph whose reachable part has no cycle repeats no
package. -/
theorem WalkTo_nodup {fetch : String → Except GoError String} {root x : String}
    {l : List String} (h : WalkTo fetch root l x)
    (hacyc : ∀ y, Reach fetch root y → ¬ Relation.TransGen (Edge fetch) y y) : l.Nodup := by
  induction h with
  | single => simp
  | @snoc l x z hw he ih =>
    rw [List.nodup_append]
    refine ⟨ih, by simp, ?_⟩
    intro a ha hb
    simp only [List.mem_singleton] at hb
    subst hb
    exact hacyc a ((WalkTo_mem_reach hw).2 a ha)
      (Relation.TransGen.tail' (WalkTo_to_last hw a ha) he)

/-- C14 (counterexample): on the graph `cycle`, with root A and target T,
`findAllPaths` returns the paths A, T and A, B, A, T; the second one holds the
root twice. -/
theorem findAllPaths_cycle_not_simple :
    findAllPaths gcRuntime cycle 4 "github.com/juju/juju/a" "github.com/juju/juju/t" =
        some (.returned (some [["github.com/juju/juju/a", "github.com/juju/juju/t"],
          ["github.com/juju/juju/a", "github.com/juju/juju/b", "github.com/juju/juju/a",
            "github.com/juju/juju/t"]]) none) ∧
      ¬ ["github.com/juju/juju/a", "github.com/juju/juju/b", "github.com/juju/juju/a",
          "github.com/juju/juju/t"].Nodup := by
  decide

/-- On the graph `lasso`, whose cycle does not pass through the root, the one
path that `findAllPaths` from A to T returns on the gc runtime reads A, B, C, B:
the slice collected for T was overwritten by the `p.append` for the visited
dependency B. -/
theorem findAllPaths_lasso_overwritten :
    findAllPaths gcRuntime lasso 5 "github.com/juju/juju/a" "github.com/juju/juju/t" =
      some (.returned (some [["github.com/juju/juju/a", "github.com/juju/juju/b",
        "github.com/juju/juju/c", "github.com/juju/juju/b"]]) none) := by
  decide

/-! ## The invariant of findPath -/

/-- The loop over the dependencies in `findPath`: when it ends without the
target, every queued slice is well formed with a reading that satisfies `P`, and
one slice per dependency was added at the end of the queue; when it returns, the
returned slice reads the elements of `p` followed by the target. -/
theorem findPath_deps_good (rt : GoRuntime) (target : String) (P : List String → Prop)
    (p : path) (l0 : List String) :
    ∀ (fdeps : List String) (h : Heap) (q : queue path),
      (∀ d ∈ fdeps, d ≠ target → P (l0 ++ [d])) →
      p.ok h → p.read h = l0 → (∀ s ∈ q.vals, s.good P p.len h) →
      (∀ h1 q1, findPath.deps rt target p fdeps h q = .inl (h1, q1) →
          (∀ s ∈ q1.vals, s.good P p.len h1) ∧ target ∉ fdeps
            ∧ ∃ children, q1.vals = q.vals ++ children
                ∧ (∀ c ∈ children, c.len = p.len + 1) ∧ children.length = fdeps.length)
        ∧ (∀ h1 np, findPath.deps rt target p fdeps h q = .inr (h1, np) →
            np.read h1 = l0 ++ [target] ∧ target ∈ fdeps) := by
  intro fdeps
  induction fdeps with
  | nil =>
    intro h q _ _ _ hq
    constructor
    · intro h1 q1 e
      simp only [findPath.deps, Sum.inl.injEq, Prod.mk.injEq] at e
      obtain ⟨e1, e2⟩ := e
      subst e1 e2
      exact ⟨hq, by simp, [], by simp, by simp, rfl⟩
    · intro h1 np e
      simp [findPath.deps] at e
  | cons d ds ih =>
    intro h q hP hp hr hq
    simp only [findPath.deps]
    by_cases hd : d = target
    · rw [if_pos hd]
      constructor
      · intro h1 q1 e
        simp at e
      · intro h1 np e
        simp only [Sum.inr.injEq] at e
        have e1 : h1 = (p.append rt h d).1 := by rw [e]
        have e2 : np = (p.append rt h d).2 := by rw [e]
        refine ⟨?_, by simp [hd]⟩
        rw [e1, e2, path.append_read_new rt d hp, hr, hd]
    · rw [if_neg hd]
      have hPd : P (p.read h ++ [d]) := hr ▸ hP d (List.mem_cons_self _ _) hd
      obtain ⟨ih1, ih2⟩ := ih (p.append rt h d).1 (q.add (p.append rt h d).2)
        (fun x hx => hP x (List.mem_cons_of_mem _ hx))
        (path.append_ok_old rt d hp)
        (by rw [path.append_read_self rt d hp, hr])
        (by
          intro s hs
          simp only [queue.add, List.mem_append, List.mem_singleton] at hs
          rcases hs with h1 | h1
          · exact path.good_append_old rt (hq s h1) hPd
          · rw [h1]
            exact path.good_append_new rt hp hPd)
      constructor
      · intro h1 q1 e
        obtain ⟨a, b, ch, c1, c2, c3⟩ := ih1 h1 q1 e
        refine ⟨a, ?_, (p.append rt h d).2 :: ch, ?_, ?_, ?_⟩
        · simp only [List.mem_cons, not_or]
          exact ⟨fun e => hd e.symm, b⟩
        · rw [c1]
          simp [queue.add]
        · intro c hc
          rcases List.mem_cons.1 hc with hc | hc
          · rw [hc, path.append_len]
          · exact c2 c hc
        · simp [c3]
      · intro h1 np e
        obtain ⟨a, b⟩ := ih2 h1 np e
        exact ⟨a, List.mem_cons_of_mem _ b⟩

theorem PathInv_init (fetch : String → Except GoError String) (root target : String) :
    PathInv fetch root target (PathState.init root) := by
  refine ⟨by simp [PathState.init, queue.add], ?_, ?_, by simp [PathState.init],
    by simp [PathState.init]⟩
  · intro a ha b hb
    simp only [PathState.init, queue.add, List.nil_append, List.mem_singleton] at ha hb
    rw [ha, hb]
    omega
  · intro s hs
    simp only [PathState.init, queue.add, List.nil_append, List.mem_singleton] at hs
    subst hs
    have hread : (path.lit [] root).2.read (PathState.init root).heap = [root] := by
      simp [PathState.init, path.lit, path.read]
    refine ⟨⟨by simp [path.lit], by simp [path.lit], by simp [PathState.init, path.lit]⟩, ?_⟩
    rw [hread]
    exact ⟨⟨root, WalkTo.single⟩, by simp, by simp, by simp⟩

theorem PathGood_mono {fetch : String → Except GoError String} {root target : String}
    {v v1 : List String} {l : List String} (h : PathGood fetch root target v l)
    (hv : ∀ y ∈ v, y ∈ v1) : PathGood fetch root target v1 l :=
  ⟨h.1, fun y hy => hv y (h.2.1 y hy), h.2.2.1, h.2.2.2⟩

/-- One execution of the body of `findPath` in a state that satisfies the
invariant, with a non-empty queue.  The path taken from the queue ends in a
reachable package `pkg`.  Either `pkg` is visited and the path is dropped; or
the fetch for `pkg` fails and the error is returned; or the target is a
dependency of `pkg` and the returned path is a walk without repetition to `pkg`
followed by the target; or `pkg` becomes visited and one slice per dependency is
added to the queue. -/
theorem findPath_body_inv (rt : GoRuntime) (fetch : String → Except GoError String)
    (root target : String) {st : PathState} (hinv : PathInv fetch root target st)
    (hc : (!st.q.empty) = true) :
    ∃ p rest pkg, st.q.vals = p :: rest ∧ p.last st.heap = some pkg ∧ Reach fetch root pkg ∧
      ((pkg ∈ st.visited.keys
          ∧ findPath.body rt fetch target st = .continue_ { st with q := ⟨rest⟩ }
          ∧ PathInv fetch root target { st with q := ⟨rest⟩ })
        ∨ (pkg ∉ st.visited.keys ∧ ∃ err, expand fetch pkg = .error err ∧
            findPath.body rt fetch target st = .return_ (.returned none (some err)))
        ∨ (pkg ∉ st.visited.keys ∧ ∃ l0,
            findPath.body rt fetch target st = .return_ (.returned (some (l0 ++ [target])) none)
              ∧ WalkTo fetch root l0 pkg ∧ Edge fetch pkg target ∧ l0.Nodup
              ∧ target ∉ l0.tail)
        ∨ (pkg ∉ st.visited.keys ∧ ∃ st1 children,
            findPath.body rt fetch target st = .continue_ st1
              ∧ PathInv fetch root target st1
              ∧ st1.visited.keys = pkg :: st.visited.keys
              ∧ st1.q.vals = rest ++ children
              ∧ children.length = (fdepsOf fetch pkg).length)) := by
  obtain ⟨p, rest, hq, hnext⟩ := queue.next_cons hc
  have hpmem : p ∈ st.q.vals := hq ▸ List.mem_cons_self _ _
  have hrest : ∀ s ∈ rest, s ∈ st.q.vals := fun s hs => hq ▸ List.mem_cons_of_mem _ hs
  obtain ⟨hpok, ⟨pkg, hwalk⟩, hvis, hnd, hnt⟩ := hinv.good p hpmem
  have hgl := WalkTo_getLast hwalk
  have hlast : p.last st.heap = some pkg := by
    rw [path.last_eq hpok]
    exact hgl
  have hreach := (WalkTo_mem_reach hwalk).1
  have hsorted := hinv.sorted
  rw [hq, List.pairwise_cons] at hsorted
  refine ⟨p, rest, pkg, hq, hlast, hreach, ?_⟩
  by_cases hv : st.visited.contains pkg = true
  · left
    refine ⟨(mem_visited_iff _ _).1 hv, by simp [findPath.body, hnext, hlast, hv], ?_⟩
    exact ⟨hsorted.2, fun a ha b hb => hinv.span a (hrest a ha) b (hrest b hb),
      fun s hs => hinv.good s (hrest s hs), hinv.nodup, hinv.visited_reach⟩
  · right
    have hnv : pkg ∉ st.visited.keys := fun hm => hv ((mem_visited_iff _ _).2 hm)
    cases hex : expand fetch pkg with
    | error err =>
      left
      exact ⟨hnv, err, rfl, by simp [findPath.body, hnext, hlast, hv, hex]⟩
    | ok fdeps =>
      right
      have hfd : fdepsOf fetch pkg = fdeps := by simp [fdepsOf, hex]
      have hl0 : (p.read st.heap).dropLast ++ [pkg] = p.read st.heap :=
        List.dropLast_append_getLast? pkg hgl
      have hne : p.read st.heap ≠ [] := by
        intro h0
        rw [h0] at hgl
        simp at hgl
      have hsub : ∀ y ∈ p.read st.heap, y ∈ pkg :: st.visited.keys := by
        intro y hy
        rw [← hl0] at hy
        rcases List.mem_append.1 hy with h1 | h1
        · exact List.mem_cons_of_mem _ (hvis y h1)
        · rw [List.mem_singleton.1 h1]
          exact List.mem_cons_self _ _
      have hnodup : (p.read st.heap).Nodup := by
        rw [← hl0, List.nodup_append]
        refine ⟨hnd, by simp, ?_⟩
        intro a ha hb
        rw [List.mem_singleton.1 hb] at ha
        exact hnv (hvis pkg ha)
      have hP : ∀ d ∈ fdeps, d ≠ target →
          PathGood fetch root target (pkg :: st.visited.keys) (p.read st.heap ++ [d]) := by
        intro d hd hdt
        refine ⟨⟨d, WalkTo.snoc hwalk (show d ∈ fdepsOf fetch pkg from hfd ▸ hd)⟩, ?_, ?_, ?_⟩
        · rw [List.dropLast_concat]
          exact hsub
        · rw [List.dropLast_concat]
          exact hnodup
        · rw [List.tail_append_of_ne_nil hne]
          simp only [List.mem_append, List.mem_singleton, not_or]
          exact ⟨hnt, fun e => hdt e.symm⟩
      obtain ⟨spec1, spec2⟩ := findPath_deps_good rt target
        (PathGood fetch root target (pkg :: st.visited.keys)) p (p.read st.heap) fdeps st.heap
        ⟨rest⟩ hP hpok rfl
        (fun s hs => ⟨(hinv.good s (hrest s hs)).1, hinv.span p hpmem s (hrest s hs),
          PathGood_mono (hinv.good s (hrest s hs)).2 (fun y hy => List.mem_cons_of_mem _ hy)⟩)
      cases hdeps : findPath.deps rt target p fdeps st.heap ⟨rest⟩ with
      | inr x =>
        left
        obtain ⟨h1, np⟩ := x
        obtain ⟨hread, hmem⟩ := spec2 h1 np hdeps
        refine ⟨hnv, p.read st.heap, ?_, hwalk, show target ∈ fdepsOf fetch pkg from hfd ▸ hmem,
          hnodup, hnt⟩
        simp [findPath.body, hnext, hlast, hv, hex, hdeps, hread]
      | inl x =>
        right
        obtain ⟨h1, q1⟩ := x
        obtain ⟨hgood, _, ch, hq1, hlen, hcount⟩ := spec1 h1 q1 hdeps
        refine ⟨hnv, { st with heap := h1, visited := st.visited.add pkg, q := q1 }, ch,
          by simp [findPath.body, hnext, hlast, hv, hex, hdeps], ?_, rfl, hq1, ?_⟩
        · have hlen_rest : ∀ a ∈ rest, p.len ≤ a.len ∧ a.len ≤ p.len + 1 :=
            fun a ha => ⟨hsorted.1 a ha, hinv.span p hpmem a (hrest a ha)⟩
          have hlen_q : ∀ a ∈ rest ++ ch, p.len ≤ a.len ∧ a.len ≤ p.len + 1 := by
            intro a ha
            rcases List.mem_append.1 ha with h | h
            · exact hlen_rest a h
            · rw [hlen a h]
              omega
          refine ⟨?_, ?_, fun s hs => ⟨(hgood s hs).1, (hgood s hs).2.2⟩,
            List.nodup_cons.2 ⟨hnv, hinv.nodup⟩, ?_⟩
          · show q1.vals.Pairwise _
            rw [hq1]
            simp only [List.pairwise_append]
            refine ⟨hsorted.2, ?_, ?_⟩
            · rw [List.pairwise_iff_forall_sublist]
              intro a b hab
              have ha := hlen a (hab.subset (List.mem_cons_self _ _))
              have hb := hlen b (hab.subset (List.mem_cons_of_mem _ (List.mem_singleton_self _)))
              omega
            · intro a ha b hb
              have := (hlen_rest a ha).2
              rw [hlen b hb]
              exact this
          · show ∀ a ∈ q1.vals, ∀ b ∈ q1.vals, b.len ≤ a.len + 1
            rw [hq1]
            intro a ha b hb
            have := (hlen_q a ha).1
            have := (hlen_q b hb).2
            omega
          · intro x hx
            rcases List.mem_cons.1 hx with h | h
            · rw [h]
              exact hreach
            · exact hinv.visited_reach x h
        · rw [hcount, hfd]

/-! ## The shape of the path returned by findPath (C18) -/

theorem Edge_iff (fetch : String → Except GoError String) (x y : String) :
    Edge fetch x y ↔ ∃ out, fetch x = .ok out ∧ y ∈ filterDeps (parseDeps out) := by
  unfold Edge fdepsOf expand
  cases h : fetch x with
  | error e => simp
  | ok out => simp

/-- When `findPath` returns a path, it is a walk without repetition from the
root to a package that has the target as a dependency, followed by the target,
which does not occur in the walk after its first element. -/
theorem findPath_final (rt : GoRuntime) (fetch : String → Except GoError String)
    (fuel : Nat) (root target : String) (l : List String)
    (hrun : findPath rt fetch fuel root target = some (.returned (some l) none)) :
    ∃ l0 pkg, l = l0 ++ [target] ∧ WalkTo fetch root l0 pkg ∧ Edge fetch pkg target
      ∧ l0.Nodup ∧ target ∉ l0.tail := by
  obtain ⟨st, hinv, hcase⟩ := forLoop_inv (PathInv fetch root target)
    (by
      intro s s1 hs hc hb
      obtain ⟨p, rest, pkg, _, _, _, hcase⟩ := findPath_body_inv rt fetch root target hs hc
      rcases hcase with ⟨_, hcont, hinv⟩ | ⟨_, err, _, hret⟩ | ⟨_, l0, hret, _⟩ |
        ⟨_, s2, ch, hcont, hinv, _⟩
      · rw [hcont] at hb
        have he : { s with q := ⟨rest⟩ } = s1 := by simpa using hb
        exact he ▸ hinv
      · rw [hret] at hb
        exact absurd hb (by simp)
      · rw [hret] at hb
        exact absurd hb (by simp)
      · rw [hcont] at hb
        have he : s2 = s1 := by simpa using hb
        exact he ▸ hinv)
    (PathInv_init fetch root target) hrun
  rcases hcase with ⟨_, hr⟩ | ⟨hc, hb⟩
  · simp at hr
  · obtain ⟨p, rest, pkg, _, _, _, hcase⟩ := findPath_body_inv rt fetch root target hinv hc
    rcases hcase with ⟨_, hcont, _⟩ | ⟨_, err, _, hret⟩ | ⟨_, l0, hret, h1, h2, h3, h4⟩ |
      ⟨_, s2, ch, hcont, _⟩
    · rw [hcont] at hb
      simp at hb
    · rw [hret] at hb
      simp at hb
    · rw [hret] at hb
      have he : l0 ++ [target] = l := by simpa using hb
      exact ⟨l0, pkg, he.symm, h1, h2, h3, h4⟩
    · rw [hcont] at hb
      simp at hb

/-- C18: whenever `findPath` succeeds, the returned path has at least two
elements, starts with the root, ends with the target, and each consecutive pair
`x`, `y` has `y` among the filtered dependencies fetched for `x`.  No identifier
occurs twice among the elements before the last, nor among the elements after
the first, so the only possible repetition is first = last, which is the case
root = target; when root and target differ no identifier occurs twice.  In
particular the one-element path of the root is never returned. -/
theorem findPath_result_shape (rt : GoRuntime) (fetch : String → Except GoError String)
    (fuel : Nat) (root target : String) (l : List String)
    (hrun : findPath rt fetch fuel root target = some (.returned (some l) none)) :
    2 ≤ l.length ∧ l.head? = some root ∧ l.getLast? = some target
      ∧ List.Chain' (fun x y => ∃ out, fetch x = .ok out ∧ y ∈ filterDeps (parseDeps out)) l
      ∧ l.dropLast.Nodup ∧ l.tail.Nodup ∧ (root ≠ target → l.Nodup) ∧ l ≠ [root] := by
  obtain ⟨l0, pkg, rfl, hwalk, hedge, hnd, hnt⟩ :=
    findPath_final rt fetch fuel root target l hrun
  have hpos := WalkTo_length_pos hwalk
  have hne : l0 ≠ [] := by
    intro h0
    rw [h0] at hpos
    simp at hpos
  have hhead := WalkTo_head hwalk
  have hlen : 2 ≤ (l0 ++ [target]).length := by
    rw [List.length_append, List.length_singleton]
    omega
  have htail : (l0 ++ [target]).tail.Nodup := by
    rw [List.tail_append_of_ne_nil hne, List.nodup_append]
    refine ⟨hnd.tail, by simp, ?_⟩
    intro a ha hb
    rw [List.mem_singleton.1 hb] at ha
    exact hnt ha
  refine ⟨hlen, ?_, by simp, ?_, ?_, htail, ?_, ?_⟩
  · rw [List.head?_append_of_ne_nil _ hne]
    exact hhead
  · exact (WalkTo_chain (WalkTo.snoc hwalk hedge)).imp (fun {x y} h => (Edge_iff fetch x y).1 h)
  · rw [List.dropLast_concat]
    exact hnd
  · intro hrt
    cases l0 with
    | nil => exact absurd rfl hne
    | cons a t =>
      simp only [List.head?_cons, Option.some.injEq] at hhead
      subst hhead
      simp only [List.cons_append, List.tail_cons] at htail
      rw [List.cons_append, List.nodup_cons]
      refine ⟨?_, htail⟩
      simp only [List.mem_append, List.mem_singleton, not_or]
      exact ⟨(List.nodup_cons.1 hnd).1, hrt⟩
  · intro h
    rw [h] at hlen
    simp at hlen

/-- C18 (witness): the path returned on the example graph from A to D. -/
theorem findPath_result_shape_witness :
    2 ≤ ["github.com/juju/juju/a", "github.com/juju/juju/b", "github.com/juju/juju/d"].length
      ∧ ["github.com/juju/juju/a", "github.com/juju/juju/b", "github.com/juju/juju/d"].head?
          = some "github.com/juju/juju/a"
      ∧ ["github.com/juju/juju/a", "github.com/juju/juju/b", "github.com/juju/juju/d"].getLast?
          = some "github.com/juju/juju/d"
      ∧ List.Chain' (fun x y => ∃ out, diamond x = .ok out ∧ y ∈ filterDeps (parseDeps out))
          ["github.com/juju/juju/a", "github.com/juju/juju/b", "github.com/juju/juju/d"]
      ∧ ["github.com/juju/juju/a", "github.com/juju/juju/b", "github.com/juju/juju/d"].dropLast.Nodup
      ∧ ["github.com/juju/juju/a", "github.com/juju/juju/b", "github.com/juju/juju/d"].tail.Nodup
      ∧ ("github.com/juju/juju/a" ≠ "github.com/juju/juju/d" →
          ["github.com/juju/juju/a", "github.com/juju/juju/b", "github.com/juju/juju/d"].Nodup)
      ∧ ["github.com/juju/juju/a", "github.com/juju/juju/b", "github.com/juju/juju/d"]
          ≠ ["github.com/juju/juju/a"] :=
  findPath_result_shape gcRuntime diamond 3 "github.com/juju/juju/a" "github.com/juju/juju/d"
    _ (by decide)

/-! ## No index out of range (C20) -/

/-- A run of `findAllPaths` that ends returns a list of paths or the error of a
failing fetch. -/
theorem findAllPaths_outcome (rt : GoRuntime) (fetch : String → Except GoError String)
    (fuel : Nat) (root target : String) (r : Outcome (List (List String)))
    (hrun : findAllPaths rt fetch fuel root target = some r) :
    (∃ paths, r = .returned (some paths) none) ∨ ∃ err, r = .returned none (some err) := by
  obtain ⟨st, hinv, hcase⟩ := forLoop_inv (AllInv fetch root target)
    (by
      intro s s1 hs hc hb
      obtain ⟨p, rest, pkg, _, _, _, hcase⟩ := findAllPaths_body_inv rt fetch root target hs hc
      rcases hcase with ⟨err, _, hret⟩ | ⟨s2, ch, fo, ne, hcont, hinv, _⟩
      · rw [hret] at hb
        exact absurd hb (by simp)
      · rw [hcont] at hb
        have he : s2 = s1 := by simpa using hb
        exact he ▸ hinv)
    (AllInv_init fetch root target) hrun
  rcases hcase with ⟨_, hr⟩ | ⟨hc, hb⟩
  · exact Or.inl ⟨_, hr⟩
  · obtain ⟨p, rest, pkg, _, _, _, hcase⟩ := findAllPaths_body_inv rt fetch root target hinv hc
    rcases hcase with ⟨err, _, hret⟩ | ⟨s2, ch, fo, ne, hcont, _⟩
    · rw [hret] at hb
      exact Or.inr ⟨err, by simpa using hb.symm⟩
    · rw [hcont] at hb
      simp at hb

/-- A run of `findPath` that ends returns a path or an error. -/
theorem findPath_outcome (rt : GoRuntime) (fetch : String → Except GoError String)
    (fuel : Nat) (root target : String) (r : Outcome (List String))
    (hrun : findPath rt fetch fuel root target = some r) :
    (∃ l, r = .returned (some l) none) ∨ ∃ err, r = .returned none (some err) := by
  obtain ⟨st, hinv, hcase⟩ := forLoop_inv (PathInv fetch root target)
    (by
      intro s s1 hs hc hb
      obtain ⟨p, rest, pkg, _, _, _, hcase⟩ := findPath_body_inv rt fetch root target hs hc
      rcases hcase with ⟨_, hcont, hinv⟩ | ⟨_, err, _, hret⟩ | ⟨_, l0, hret, _⟩ |
        ⟨_, s2, ch, hcont, hinv, _⟩
      · rw [hcont] at hb
        have he : { s with q := ⟨rest⟩ } = s1 := by simpa using hb
        exact he ▸ hinv
      · rw [hret] at hb
        exact absurd hb (by simp)
      · rw [hret] at hb
        exact absurd hb (by simp)
      · rw [hcont] at hb
        have he : s2 = s1 := by simpa using hb
        exact he ▸ hinv)
    (PathInv_init fetch root target) hrun
  rcases hcase with ⟨_, hr⟩ | ⟨hc, hb⟩
  · exact Or.inr ⟨_, hr⟩
  · obtain ⟨p, rest, pkg, _, _, _, hcase⟩ := findPath_body_inv rt fetch root target hinv hc
    rcases hcase with ⟨_, hcont, _⟩ | ⟨_, err, _, hret⟩ | ⟨_, l0, hret, _⟩ |
      ⟨_, s2, ch, hcont, _⟩
    · rw [hcont] at hb
      simp at hb
    · rw [hret] at hb
      exact Or.inr ⟨err, by simpa using hb.symm⟩
    · rw [hret] at hb
      exact Or.inl ⟨_, by simpa using hb.symm⟩
    · rw [hcont] at hb
      simp at hb

/-- A run of `buildTree` that ends returns a tree or the error of a failing
fetch. -/
theorem buildTree_outcome (fetch : String → Except GoError String) (fuel : Nat)
    (root : String) (r : Outcome tree) (hrun : buildTree fetch fuel root = some r) :
    (∃ t, r = .returned (some t) none) ∨ ∃ err, r = .returned none (some err) := by
  obtain ⟨st, ⟨i, hinv⟩, hcase⟩ := forLoop_inv (fun st => ∃ i, TreeInv fetch root st i)
    (by
      intro s s1 ⟨i, hs⟩ hc hb
      obtain ⟨cell, hcell, _, hcase⟩ := buildTree_body_spec hs hc
      rcases hcase with ⟨hv, hcont⟩ | ⟨_, e, _, hret⟩ | ⟨hv, hok, hcont⟩
      · rw [hcont] at hb
        have he := Flow.continue_.inj hb
        exact ⟨i + 1, he ▸ TreeInv_skip hs hcell hv⟩
      · rw [hret] at hb
        exact absurd hb (by simp)
      · rw [hcont] at hb
        have he := Flow.continue_.inj hb
        exact ⟨i + 1, he ▸ TreeInv_expand hs hcell hv hok⟩)
    ⟨0, TreeInv_init fetch root⟩ hrun
  rcases hcase with ⟨_, hr⟩ | ⟨hc, hb⟩
  · exact Or.inl ⟨_, hr⟩
  · obtain ⟨cell, hcell, _, hcase⟩ := buildTree_body_spec hinv hc
    rcases hcase with ⟨hv, hcont⟩ | ⟨_, e, _, hret⟩ | ⟨hv, hok, hcont⟩
    · rw [hcont] at hb
      simp at hb
    · rw [hret] at hb
      exact Or.inr ⟨e, by simpa using hb.symm⟩
    · rw [hcont] at hb
      simp at hb

/-- C20: no run of `buildTree`, `findPath` or `findAllPaths` ends in a panic:
`queue.next` is never reached with an empty queue and `path.last` is never
applied to an empty path, for every graph, root, target and runtime.  The queue
is first in, first out: `add` puts an item at the end, and `next` fails exactly
on the empty queue and otherwise returns the oldest item and removes exactly
that item. -/
theorem no_index_out_of_range (rt : GoRuntime) (fetch : String → Except GoError String)
    (fuel : Nat) (root target : String) :
    buildTree fetch fuel root ≠ some .crashed
      ∧ findPath rt fetch fuel root target ≠ some .crashed
      ∧ findAllPaths rt fetch fuel root target ≠ some .crashed
      ∧ (∀ (q : queue path) (t : path), (q.add t).vals = q.vals ++ [t])
      ∧ (∀ (q : queue path), q.next = none ↔ q.empty = true)
      ∧ (∀ (q q1 : queue path) (t : path), q.next = some (t, q1) ↔ q.vals = t :: q1.vals)
      ∧ (∀ (q : queue Nat) (t : Nat), (q.add t).vals = q.vals ++ [t])
      ∧ (∀ (q : queue Nat), q.next = none ↔ q.empty = true)
      ∧ (∀ (q q1 : queue Nat) (t : Nat), q.next = some (t, q1) ↔ q.vals = t :: q1.vals) := by
  have hnext : ∀ (T : Type) (q q1 : queue T) (t : T),
      q.next = some (t, q1) ↔ q.vals = t :: q1.vals := by
    intro T q q1 t
    cases q with
    | mk vals =>
      cases q1 with
      | mk vals1 =>
        cases vals with
        | nil => simp [queue.next]
        | cons a rest => simp [queue.next]
  have hnone : ∀ (T : Type) (q : queue T), q.next = none ↔ q.empty = true := by
    intro T q
    cases q with
    | mk vals =>
      cases vals with
      | nil => simp [queue.next, queue.empty]
      | cons a rest => simp [queue.next, queue.empty]
  refine ⟨?_, ?_, ?_, fun _ _ => rfl, hnone path, hnext path, fun _ _ => rfl, hnone Nat,
    hnext Nat⟩
  · intro h
    rcases buildTree_outcome fetch fuel root _ h with ⟨_, h1⟩ | ⟨_, h1⟩ <;> cases h1
  · intro h
    rcases findPath_outcome rt fetch fuel root target _ h with ⟨_, h1⟩ | ⟨_, h1⟩ <;> cases h1
  · intro h
    rcases findAllPaths_outcome rt fetch fuel root target _ h with ⟨_, h1⟩ | ⟨_, h1⟩ <;> cases h1

/-! ## Termination and the number of fetches (C15) -/

/-- A loop ends, and a count of events of its iterations is bounded, when an
invariant gives a measure `μ` that drops in every iteration and a potential `ν`
that pays for every event. -/
theorem forLoop_bounded {σ ρ α : Type} {cond : σ → Bool} {body : σ → Flow σ ρ}
    (after : σ → ρ) (Inv : σ → Prop) (μ ν : σ → Nat) (f : σ → Option α)
    (hstep : ∀ s, Inv s → cond s = true →
      ((f s).isSome = true → 1 ≤ ν s) ∧
      ∀ s1, body s = .continue_ s1 →
        Inv s1 ∧ μ s1 < μ s ∧ ν s1 + (if (f s).isSome = true then 1 else 0) ≤ ν s)
    {s : σ} (hs : Inv s) :
    (∃ r, forLoop cond body after (μ s + 1) s = some r)
      ∧ ∀ fuel, ((forLoop.states cond body fuel s).filterMap f).length ≤ ν s := by
  constructor
  · exact @forLoop_terminates _ _ cond body after Inv μ
      (fun a b ha hc hb => ⟨((hstep a ha hc).2 b hb).1, ((hstep a ha hc).2 b hb).2.1⟩) s hs
  · intro fuel
    induction fuel generalizing s with
    | zero => simp [forLoop.states]
    | succ fuel ih =>
      simp only [forLoop.states]
      by_cases hc : cond s = true
      · rw [if_pos hc]
        obtain ⟨h1, h2⟩ := hstep s hs hc
        have hcons : ∀ rest : List σ, ((s :: rest).filterMap f).length
            = (if (f s).isSome = true then 1 else 0) + (rest.filterMap f).length := by
          intro rest
          cases hf : f s with
          | none => simp [List.filterMap_cons, hf]
          | some a => simp [List.filterMap_cons, hf]; omega
        rw [hcons]
        cases hb : body s with
        | continue_ s1 =>
          obtain ⟨hi, _, hν⟩ := h2 s1 hb
          have := ih hi
          simp only
          omega
        | return_ r =>
          simp only [List.filterMap_nil, List.length_nil, Nat.add_zero]
          split
          · rename_i hsome
            exact h1 hsome
          · omega
      · rw [if_neg hc]
        simp

theorem nodup_length_le_card (l : List String) (Vf : Finset String) (hn : l.Nodup)
    (hs : ∀ x ∈ l, x ∈ Vf) : l.length ≤ Vf.card := by
  rw [← List.toFinset_card_of_nodup hn]
  apply Finset.card_le_card
  intro x hx
  exact hs x (List.mem_toFinset.1 hx)

/-- One iteration of `findAllPaths` when the reachable packages lie in the
finite set `Vf`. -/
theorem findAllPaths_step_bounded (rt : GoRuntime) (fetch : String → Except GoError String)
    (root target : String) (Vf : Finset String) (hV : ∀ x, Reach fetch root x → x ∈ Vf)
    (s : PathState) (hs : AllInv fetch root target s) (hc : (!s.q.empty) = true) :
    ((findAllPaths.fetched s).isSome = true →
        1 ≤ s.q.vals.length + (Vf.card - s.visited.keys.length)) ∧
      ∀ s1, findAllPaths.body rt fetch target s = .continue_ s1 →
        AllInv fetch root target s1
          ∧ s1.q.vals.length + (Vf.card - s1.visited.keys.length)
              < s.q.vals.length + (Vf.card - s.visited.keys.length)
          ∧ s1.q.vals.length + (Vf.card - s1.visited.keys.length)
              + (if (findAllPaths.fetched s).isSome = true then 1 else 0)
              ≤ s.q.vals.length + (Vf.card - s.visited.keys.length) := by
  obtain ⟨p, rest, pkg, hq, hlast, _, hcase⟩ := findAllPaths_body_inv rt fetch root target hs hc
  have hf : findAllPaths.fetched s = some pkg := by
    simp [findAllPaths.fetched, queue.next, hq, hlast]
  constructor
  · intro _
    rw [hq, List.length_cons]
    omega
  · intro s1 hb
    rcases hcase with ⟨err, _, hret⟩ | ⟨s2, ch, fo, ne, hcont, hinv, h1, _, h3, h6⟩
    · rw [hret] at hb
      exact absurd hb (by simp)
    · rw [hcont] at hb
      have he : s2 = s1 := by simpa using hb
      subst he
      have hk := nodup_length_le_card _ Vf hinv.nodup (fun x hx => hV x (hinv.visited_reach x hx))
      have hlen := h6.length_eq
      rw [h3] at hk
      rw [hf, h1, h3, hq]
      simp only [List.length_append, List.length_reverse, List.length_cons, Option.isSome_some,
        if_true] at hk ⊢
      exact ⟨hinv, by omega, by omega⟩

/-- One iteration of `findPath` when the reachable packages lie in the finite set
`Vf`: the measure drops, and a fetch uses up one unvisited member of `Vf`. -/
theorem findPath_step_bounded (rt : GoRuntime) (fetch : String → Except GoError String)
    (root target : String) (Vf : Finset String) (hV : ∀ x, Reach fetch root x → x ∈ Vf)
    (s : PathState) (hs : PathInv fetch root target s) (hc : (!s.q.empty) = true) :
    ((findPath.fetched s).isSome = true → 1 ≤ (unvisited Vf s.visited).card) ∧
      ∀ s1, findPath.body rt fetch target s = .continue_ s1 →
        PathInv fetch root target s1
          ∧ findPath.measure fetch Vf s1 < findPath.measure fetch Vf s
          ∧ (unvisited Vf s1.visited).card
              + (if (findPath.fetched s).isSome = true then 1 else 0)
              ≤ (unvisited Vf s.visited).card := by
  obtain ⟨p, rest, pkg, hq, hlast, hreach, hcase⟩ := findPath_body_inv rt fetch root target hs hc
  have hf : findPath.fetched s = if s.visited.contains pkg then none else some pkg := by
    simp [findPath.fetched, queue.next, hq, hlast]
  have hmem : pkg ∉ s.visited.keys → pkg ∈ unvisited Vf s.visited := fun hnv =>
    mem_unvisited (hV pkg hreach) (by simpa [stringSet.contains] using hnv)
  constructor
  · intro hsome
    by_cases hv : s.visited.contains pkg = true
    · rw [hf, if_pos hv] at hsome
      simp at hsome
    · exact Finset.card_pos.2 ⟨pkg, hmem (fun hm => hv ((mem_visited_iff _ _).2 hm))⟩
  · intro s1 hb
    rcases hcase with ⟨hvis, hcont, hinv⟩ | ⟨_, err, _, hret⟩ | ⟨_, l0, hret, _⟩ |
      ⟨hnv, s2, ch, hcont, hinv, hkeys, hq1, hlen⟩
    · rw [hcont] at hb
      have he : { s with q := ⟨rest⟩ } = s1 := by simpa using hb
      subst he
      rw [hf, if_pos ((mem_visited_iff _ _).2 hvis)]
      refine ⟨hinv, ?_, by simp⟩
      simp [findPath.measure, hq]
    · rw [hret] at hb
      exact absurd hb (by simp)
    · rw [hret] at hb
      exact absurd hb (by simp)
    · rw [hcont] at hb
      have he : s2 = s1 := by simpa using hb
      subst he
      have hun : unvisited Vf s2.visited = (unvisited Vf s.visited).erase pkg := by
        rw [← unvisited_add]
        simp [unvisited, stringSet.add, hkeys]
      have hv : ¬ s.visited.contains pkg = true := fun h => hnv ((mem_visited_iff _ _).1 h)
      have hsum := Finset.add_sum_erase (unvisited Vf s.visited)
        (fun x => (fdepsOf fetch x).length) (hmem hnv)
      have hcard := Finset.card_erase_of_mem (hmem hnv)
      have hpos : 1 ≤ (unvisited Vf s.visited).card := Finset.card_pos.2 ⟨pkg, hmem hnv⟩
      rw [hf, if_neg hv]
      refine ⟨hinv, ?_, ?_⟩
      · simp only [findPath.measure, hun, hq1, hq, List.length_append, List.length_cons, hlen]
        simp only at hsum
        omega
      · rw [hun, hcard]
        simp only [Option.isSome_some, if_true]
        omega

/-- One iteration of `buildTree` when the reachable packages lie in the finite
set `Vf`: the measure drops, and a fetch uses up one unvisited member of `Vf`. -/
theorem buildTree_step_bounded (fetch : String → Except GoError String) (root : String)
    (Vf : Finset String) (hV : ∀ x, Reach fetch root x → x ∈ Vf)
    (s : TreeState) (hs : ∃ i, TreeInv fetch root s i) (hc : (!s.q.empty) = true) :
    ((buildTree.fetched s).isSome = true → 1 ≤ (unvisited Vf s.visited).card) ∧
      ∀ s1, buildTree.body fetch s = .continue_ s1 →
        (∃ i, TreeInv fetch root s1 i)
          ∧ buildTree.measure fetch Vf s1 < buildTree.measure fetch Vf s
          ∧ (unvisited Vf s1.visited).card
              + (if (buildTree.fetched s).isSome = true then 1 else 0)
              ≤ (unvisited Vf s.visited).card := by
  obtain ⟨i, hinv⟩ := hs
  obtain ⟨cell, hcell, hlt, hcase⟩ := buildTree_body_spec hinv hc
  have hreach : Reach fetch root cell.val := hinv.reach cell (List.getElem?_mem hcell)
  have hq := hinv.queue_eq
  have hq2 : s.q.vals = i :: List.range' (i + 1) (s.heap.length - i - 1) := by
    rw [hq]
    obtain ⟨k, hk⟩ : ∃ k, s.heap.length - i = k + 1 := ⟨s.heap.length - i - 1, by omega⟩
    rw [hk, List.range'_succ]
    simp
  have hf : buildTree.fetched s = if s.visited.contains cell.val then none else some cell.val := by
    simp [buildTree.fetched, queue.next, hq2, hcell]
  have hmem : s.visited.contains cell.val = false → cell.val ∈ unvisited Vf s.visited :=
    fun hv => mem_unvisited (hV _ hreach) hv
  constructor
  · intro hsome
    by_cases hv : s.visited.contains cell.val = true
    · rw [hf, if_pos hv] at hsome
      simp at hsome
    · exact Finset.card_pos.2 ⟨_, hmem (by simpa using hv)⟩
  · intro s1 hb
    rcases hcase with ⟨hv, hcont⟩ | ⟨_, e, _, hret⟩ | ⟨hv, hok, hcont⟩
    · rw [hcont] at hb
      have he := Flow.continue_.inj hb
      subst he
      rw [hf, if_pos hv]
      refine ⟨⟨i + 1, TreeInv_skip hinv hcell hv⟩, ?_, by simp⟩
      simp only [buildTree.measure, hq, List.length_range']
      omega
    · rw [hret] at hb
      exact absurd hb (by simp)
    · rw [hcont] at hb
      have he := Flow.continue_.inj hb
      subst he
      have hsum := Finset.add_sum_erase (unvisited Vf s.visited)
        (fun x => (fdepsOf fetch x).length) (hmem hv)
      have hcard := Finset.card_erase_of_mem (hmem hv)
      have hpos : 1 ≤ (unvisited Vf s.visited).card := Finset.card_pos.2 ⟨_, hmem hv⟩
      rw [hf, hv]
      refine ⟨⟨i + 1, TreeInv_expand hinv hcell hv hok⟩, ?_, ?_⟩
      · simp only [buildTree.measure, hq, List.length_range', unvisited_add]
        simp only at hsum
        omega
      · simp only [unvisited_add, hcard]
        simp only [Bool.false_eq_true, if_false, Option.isSome_some, if_true]
        omega

/-- C15: when finitely many identifiers are reachable from the root (cycles and
self-loops allowed, failing fetches allowed), each of `buildTree`, `findPath`
and `findAllPaths` terminates, for every target and runtime, and the number of
fetches it issues is at most the number of reachable identifiers plus one. -/
theorem traversals_terminate (rt : GoRuntime) (fetch : String → Except GoError String)
    (root target : String) (hfin : {x | Reach fetch root x}.Finite) :
    ∃ n, ∀ fuel, n ≤ fuel →
      (buildTree fetch fuel root).isSome = true
        ∧ (buildTree.fetches fetch fuel root).length ≤ hfin.toFinset.card + 1
        ∧ (findPath rt fetch fuel root target).isSome = true
        ∧ (findPath.fetches rt fetch fuel root target).length ≤ hfin.toFinset.card + 1
        ∧ (findAllPaths rt fetch fuel root target).isSome = true
        ∧ (findAllPaths.fetches rt fetch fuel root target).length ≤ hfin.toFinset.card + 1 := by
  have hV : ∀ x, Reach fetch root x → x ∈ hfin.toFinset := by
    intro x hx
    simpa using hx
  have hcard : ∀ v : stringSet, (unvisited hfin.toFinset v).card ≤ hfin.toFinset.card :=
    fun v => Finset.card_le_card (Finset.filter_subset _ _)
  obtain ⟨⟨r1, h1⟩, b1⟩ := forLoop_bounded
    (fun st : TreeState => Outcome.returned (some (readTree st.heap st.heap.length 0)) none)
    (fun st => ∃ i, TreeInv fetch root st i) (buildTree.measure fetch hfin.toFinset)
    (fun st => (unvisited hfin.toFinset st.visited).card) buildTree.fetched
    (buildTree_step_bounded fetch root hfin.toFinset hV)
    (s := TreeState.init root) ⟨0, TreeInv_init fetch root⟩
  obtain ⟨⟨r2, h2⟩, b2⟩ := forLoop_bounded
    (fun _ : PathState => Outcome.returned none (some (notFound rt root target)))
    (PathInv fetch root target) (findPath.measure fetch hfin.toFinset)
    (fun st => (unvisited hfin.toFinset st.visited).card) findPath.fetched
    (findPath_step_bounded rt fetch root target hfin.toFinset hV)
    (s := PathState.init root) (PathInv_init fetch root target)
  obtain ⟨⟨r3, h3⟩, b3⟩ := forLoop_bounded
    (fun st : PathState => Outcome.returned (some (st.paths.map (path.read st.heap))) none)
    (AllInv fetch root target)
    (fun st => st.q.vals.length + (hfin.toFinset.card - st.visited.keys.length))
    (fun st => st.q.vals.length + (hfin.toFinset.card - st.visited.keys.length))
    findAllPaths.fetched
    (findAllPaths_step_bounded rt fetch root target hfin.toFinset hV)
    (s := PathState.init root) (AllInv_init fetch root target)
  refine ⟨max (buildTree.measure fetch hfin.toFinset (TreeState.init root) + 1)
    (max (findPath.measure fetch hfin.toFinset (PathState.init root) + 1)
      ((PathState.init root).q.vals.length
        + (hfin.toFinset.card - (PathState.init root).visited.keys.length) + 1)), ?_⟩
  intro fuel hfuel
  have f1 := forLoop_mono h1 fuel (le_trans (le_max_left _ _) hfuel)
  have f2 := forLoop_mono h2 fuel
    (le_trans (le_trans (le_max_left _ _) (le_max_right _ _)) hfuel)
  have f3 := forLoop_mono h3 fuel
    (le_trans (le_trans (le_max_right _ _) (le_max_right _ _)) hfuel)
  refine ⟨?_, ?_, ?_, ?_, ?_, ?_⟩
  · simp only [buildTree, buildTree.loop, f1, Option.isSome_some]
  · exact le_trans (b1 fuel) (le_trans (hcard _) (Nat.le_succ _))
  · simp only [findPath, findPath.loop, f2, Option.isSome_some]
  · exact le_trans (b2 fuel) (le_trans (hcard _) (Nat.le_succ _))
  · simp only [findAllPaths, findAllPaths.loop, f3, Option.isSome_some]
  · refine le_trans (b3 fuel) ?_
    simp [PathState.init, queue.add]
    omega

/-- C15 (witness): the example graph, with root A and target D. -/
theorem traversals_terminate_witness :
    ∃ hfin : {x | Reach diamond "github.com/juju/juju/a" x}.Finite,
      ∃ n, ∀ fuel, n ≤ fuel →
        (buildTree diamond fuel "github.com/juju/juju/a").isSome = true
          ∧ (buildTree.fetches diamond fuel "github.com/juju/juju/a").length
              ≤ hfin.toFinset.card + 1
          ∧ (findPath gcRuntime diamond fuel "github.com/juju/juju/a"
              "github.com/juju/juju/d").isSome = true
          ∧ (findPath.fetches gcRuntime diamond fuel "github.com/juju/juju/a"
              "github.com/juju/juju/d").length ≤ hfin.toFinset.card + 1
          ∧ (findAllPaths gcRuntime diamond fuel "github.com/juju/juju/a"
              "github.com/juju/juju/d").isSome = true
          ∧ (findAllPaths.fetches gcRuntime diamond fuel "github.com/juju/juju/a"
              "github.com/juju/juju/d").length ≤ hfin.toFinset.card + 1 :=
  ⟨reach_finite_of_closed _ (by decide) diamond_closed,
    traversals_terminate gcRuntime diamond "github.com/juju/juju/a" "github.com/juju/juju/d"
      (reach_finite_of_closed _ (by decide) diamond_closed)⟩

/-! ## The order of the list returned by findAllPaths (C16) -/

/-- On a graph with finitely many reachable packages, none failing,
`findAllPaths` returns a list of paths. -/
theorem findAllPaths_returns (rt : GoRuntime) (fetch : String → Except GoError String)
    (root target : String) (hfin : {x | Reach fetch root x}.Finite)
    (hok : ∀ x, Reach fetch root x → ∃ out, fetch x = .ok out) :
    ∃ n paths, ∀ fuel, n ≤ fuel →
      findAllPaths rt fetch fuel root target = some (.returned (some paths) none) := by
  have hV : ∀ x, Reach fetch root x → x ∈ hfin.toFinset := by
    intro x hx
    simpa using hx
  obtain ⟨s1, _, _, hrun⟩ := @forLoop_total _ _ (fun st : PathState => !st.q.empty)
    (findAllPaths.body rt fetch target)
    (fun st => Outcome.returned (some (st.paths.map (path.read st.heap))) none)
    (AllInv fetch root target)
    (fun st => st.q.vals.length + (hfin.toFinset.card - st.visited.keys.length))
    (by
      intro s hs hc
      obtain ⟨p, rest, pkg, _, _, hreach, hcase⟩ :=
        findAllPaths_body_inv rt fetch root target hs hc
      rcases hcase with ⟨err, herr, _⟩ | ⟨s2, ch, fo, ne, hcont, _⟩
      · obtain ⟨out, hout⟩ := hok pkg hreach
        rw [expand_eq_fdepsOf hout] at herr
        cases herr
      · obtain ⟨h1, h2, _⟩ :=
          (findAllPaths_step_bounded rt fetch root target hfin.toFinset hV s hs hc).2 s2 hcont
        exact ⟨s2, hcont, h1, h2⟩)
    (PathState.init root) (AllInv_init fetch root target)
  exact ⟨_, _, fun fuel hfuel => forLoop_mono hrun fuel hfuel⟩

/-- C16: the list that `findAllPaths` returns is in discovery order.  The
lengths of the returned paths are non-decreasing, so the first path has the
minimum number of edges among the returned paths; an iteration of the loop only
adds slices at the end of the slices collected before; and on a graph with
finitely many reachable packages, none failing, the list is returned for every
larger amount of fuel. -/
theorem findAllPaths_lengths_sorted (rt : GoRuntime) (fetch : String → Except GoError String)
    (fuel : Nat) (root target : String) (paths : List (List String))
    (hrun : findAllPaths rt fetch fuel root target = some (.returned (some paths) none)) :
    (paths.map List.length).Pairwise (fun a b => a ≤ b)
      ∧ (∀ first ∈ paths.head?, ∀ l ∈ paths, first.length - 1 ≤ l.length - 1)
      ∧ (∀ n st st1, findAllPaths.stateAfter rt fetch target root n = some st →
          findAllPaths.body rt fetch target st = .continue_ st1 →
          ∃ found, st1.paths = st.paths ++ found)
      ∧ (∀ k, fuel ≤ k →
          findAllPaths rt fetch k root target = some (.returned (some paths) none))
      ∧ ({x | Reach fetch root x}.Finite →
          (∀ x, Reach fetch root x → ∃ out, fetch x = .ok out) →
          ∃ n ps, ∀ k, n ≤ k →
            findAllPaths rt fetch k root target = some (.returned (some ps) none)) := by
  obtain ⟨st, hinv, hpaths⟩ := findAllPaths_final rt fetch fuel root target paths hrun
  have hsorted : (paths.map List.length).Pairwise (fun a b => a ≤ b) := by
    rw [hpaths, List.map_map, List.pairwise_map]
    refine hinv.r_sorted.imp_of_mem ?_
    intro a b ha hb hab
    simp only [Function.comp, path.read_length (hinv.r_good a ha).1,
      path.read_length (hinv.r_good b hb).1]
    exact hab
  refine ⟨hsorted, ?_, ?_, fun k hk => findAllPaths_mono hrun k hk,
    fun hfin hok => findAllPaths_returns rt fetch root target hfin hok⟩
  · intro first hfirst l hl
    cases paths with
    | nil => simp at hl
    | cons a rest =>
      simp only [List.head?_cons, Option.mem_def, Option.some.injEq] at hfirst
      subst hfirst
      rcases List.mem_cons.1 hl with h | h
      · rw [h]
      · simp only [List.map_cons, List.pairwise_cons] at hsorted
        have := hsorted.1 l.length (List.mem_map_of_mem _ h)
        omega
  · intro n s s1 hs hb
    obtain ⟨hinv1, _⟩ := findAllPaths_stateAfter_inv rt fetch root target n s hs
    obtain ⟨p, rest, pkg, _, _, _, hcase⟩ :=
      findAllPaths_body_inv rt fetch root target hinv1 (findAllPaths_body_cond hb)
    rcases hcase with ⟨err, _, hret⟩ | ⟨s2, ch, fo, ne, hcont, _, _, h2, _⟩
    · rw [hret] at hb
      exact absurd hb (by simp)
    · rw [hcont] at hb
      have he : s2 = s1 := by simpa using hb
      exact ⟨fo, he ▸ h2⟩

/-- C16 (witness): the two paths returned on the example graph. -/
theorem findAllPaths_lengths_sorted_witness :
    ([["github.com/juju/juju/a", "github.com/juju/juju/b", "github.com/juju/juju/d"],
        ["github.com/juju/juju/a", "github.com/juju/juju/c", "github.com/juju/juju/d"]].map
          List.length).Pairwise (fun a b => a ≤ b)
      ∧ (∀ first ∈ [["github.com/juju/juju/a", "github.com/juju/juju/b", "github.com/juju/juju/d"],
          ["github.com/juju/juju/a", "github.com/juju/juju/c", "github.com/juju/juju/d"]].head?,
          ∀ l ∈ [["github.com/juju/juju/a", "github.com/juju/juju/b", "github.com/juju/juju/d"],
            ["github.com/juju/juju/a", "github.com/juju/juju/c", "github.com/juju/juju/d"]],
            first.length - 1 ≤ l.length - 1)
      ∧ (∀ n st st1, findAllPaths.stateAfter gcRuntime diamond "github.com/juju/juju/d"
            "github.com/juju/juju/a" n = some st →
          findAllPaths.body gcRuntime diamond "github.com/juju/juju/d" st = .continue_ st1 →
          ∃ found, st1.paths = st.paths ++ found)
      ∧ (∀ k, 4 ≤ k →
          findAllPaths gcRuntime diamond k "github.com/juju/juju/a" "github.com/juju/juju/d" =
            some (.returned (some
              [["github.com/juju/juju/a", "github.com/juju/juju/b", "github.com/juju/juju/d"],
                ["github.com/juju/juju/a", "github.com/juju/juju/c", "github.com/juju/juju/d"]])
              none))
      ∧ ({x | Reach diamond "github.com/juju/juju/a" x}.Finite →
          (∀ x, Reach diamond "github.com/juju/juju/a" x → ∃ out, diamond x = .ok out) →
          ∃ n ps, ∀ k, n ≤ k →
            findAllPaths gcRuntime diamond k "github.com/juju/juju/a" "github.com/juju/juju/d" =
              some (.returned (some ps) none)) :=
  findAllPaths_lengths_sorted gcRuntime diamond 4 "github.com/juju/juju/a"
    "github.com/juju/juju/d" _ (by decide)

/-! ## Short paths of findAllPaths on a runtime without spare capacity -/

theorem ShortQ_mono {target : String} {v v1 : List String} {l : List String}
    (h : ShortQ target v l) (hv : ∀ y ∈ v, y ∈ v1) : ShortQ target v1 l :=
  ⟨h.1, fun y hy => hv y (h.2.1 y hy), h.2.2⟩

/-- An `append` to a full slice `p` shorter than `N` leaves every slice of at most
`N` elements as it reads. -/
theorem path.append_read_short (rt : GoRuntime) {h : Heap} {p s : path} (d : String) (N : Nat)
    (hfull : p.len < N → p.cap = p.len) (hs : s.ok h) (hlen : s.len ≤ N) :
    s.read (p.append rt h d).1 = s.read h := by
  rw [path.append_read_old rt d hs]
  split
  · rename_i hc
    have := hfull (by omega)
    omega
  · rfl

/-- The loop over the dependencies in `findAllPaths` keeps the invariant for
short slices. -/
theorem findAllPaths_deps_short (rt : GoRuntime) (target : String) (N : Nat)
    (hN : ∀ n, n < N → rt.growCap (n - 1) n ≤ n) (p : path) (l0 : List String)
    (hfull : p.len < N → p.cap = p.len) :
    ∀ (fdeps : List String) (st : PathState),
      p.ok st.heap → p.read st.heap = l0 →
      (p.len < N → ShortQ target st.visited.keys l0) →
      (∀ s ∈ st.q.vals, s.ok st.heap) → (∀ s ∈ st.paths, s.ok st.heap) →
      ShortInv N target st →
      ShortInv N target (findAllPaths.deps rt target p fdeps st) := by
  intro fdeps
  induction fdeps with
  | nil =>
    intro st _ _ _ _ _ hinv
    exact hinv
  | cons d ds ih =>
    intro st hp hr hl0 hqok hrok hinv
    have hne : l0 ≠ [] := by
      intro h0
      have := path.read_length hp
      rw [hr, h0] at this
      exact hp.1 this.symm
    have hp1 : p.ok (p.append rt st.heap d).1 := path.append_ok_old rt d hp
    have hr1 : p.read (p.append rt st.heap d).1 = l0 := by
      rw [path.append_read_self rt d hp, hr]
    have hqok1 : ∀ s ∈ st.q.vals, s.ok (p.append rt st.heap d).1 :=
      fun s hs => path.append_ok_old rt d (hqok s hs)
    have hrok1 : ∀ s ∈ st.paths, s.ok (p.append rt st.heap d).1 :=
      fun s hs => path.append_ok_old rt d (hrok s hs)
    have hnewok := path.append_ok_new rt d hp
    have hnewread : (p.append rt st.heap d).2.read (p.append rt st.heap d).1 = l0 ++ [d] := by
      rw [path.append_read_new rt d hp, hr]
    have hq1 : ∀ v1, (∀ y ∈ st.visited.keys, y ∈ v1) → ∀ s ∈ st.q.vals,
        (s.len < N → s.cap = s.len)
          ∧ (s.len ≤ N → ShortQ target v1 (s.read (p.append rt st.heap d).1)) := by
      intro v1 hv s hs
      refine ⟨(hinv.q_short s hs).1, fun hl => ?_⟩
      rw [path.append_read_short rt d N hfull (hqok s hs) hl]
      exact ShortQ_mono ((hinv.q_short s hs).2 hl) hv
    have hres1 : ∀ s ∈ st.paths, s.len ≤ N →
        ShortR target (s.read (p.append rt st.heap d).1) := by
      intro s hs hl
      rw [path.append_read_short rt d N hfull (hrok s hs) hl]
      exact hinv.r_short s hs hl
    simp only [findAllPaths.deps]
    by_cases hd : d = target
    · rw [if_pos hd]
      refine ih _ hp1 hr1 hl0 hqok1 ?_ ⟨hq1 _ (fun y hy => hy), ?_⟩
      · intro s hs
        rcases List.mem_append.1 hs with h1 | h1
        · exact hrok1 s h1
        · rw [List.mem_singleton.1 h1]
          exact hnewok
      · intro s hs hl
        rcases List.mem_append.1 hs with h1 | h1
        · exact hres1 s h1 hl
        · rw [List.mem_singleton.1 h1] at hl ⊢
          rw [path.append_len] at hl
          obtain ⟨a, b, c⟩ := hl0 (by omega)
          show ShortR target ((p.append rt st.heap d).2.read (p.append rt st.heap d).1)
          rw [hnewread, hd]
          refine ⟨?_, by simp⟩
          rw [List.tail_append_of_ne_nil hne, List.nodup_append]
          refine ⟨a, by simp, ?_⟩
          intro x hx hx2
          rw [List.mem_singleton.1 hx2] at hx
          exact c hx
    · rw [if_neg hd]
      by_cases hv : st.visited.contains d = true
      · simp only [hv, Bool.not_true, Bool.false_eq_true, if_false]
        exact ih _ hp1 hr1 hl0 hqok1 hrok1 ⟨hq1 _ (fun y hy => hy), hres1⟩
      · simp only [hv, Bool.not_false, if_true]
        have hdn : d ∉ st.visited.keys := by
          simpa [stringSet.contains] using hv
        have hsub : ∀ y ∈ st.visited.keys, y ∈ (st.visited.add d).keys :=
          fun y hy => List.mem_cons_of_mem _ hy
        refine ih _ hp1 hr1 (fun hl => ShortQ_mono (hl0 hl) hsub) ?_ hrok1 ⟨?_, hres1⟩
        · intro s hs
          simp only [queue.add, List.mem_append, List.mem_singleton] at hs
          rcases hs with h1 | h1
          · exact hqok1 s h1
          · rw [h1]
            exact hnewok
        · intro s hs
          simp only [queue.add, List.mem_append, List.mem_singleton] at hs
          rcases hs with h1 | h1
          · exact hq1 _ hsub s h1
          · rw [h1]
            constructor
            · intro hl
              rw [path.append_len] at hl
              have hcap := path.append_cap_of_full rt st.heap p d (hfull (by omega))
              have := hN (p.len + 1) hl
              rw [hcap, path.append_len]
              simp only [Nat.add_sub_cancel] at this
              omega
            · intro hl
              rw [path.append_len] at hl
              obtain ⟨a, b, c⟩ := hl0 (by omega)
              show ShortQ target (st.visited.add d).keys
                ((p.append rt st.heap d).2.read (p.append rt st.heap d).1)
              rw [hnewread]
              refine ⟨?_, ?_, ?_⟩
              · rw [List.tail_append_of_ne_nil hne, List.nodup_append]
                refine ⟨a, by simp, ?_⟩
                intro x hx hx2
                rw [List.mem_singleton.1 hx2] at hx
                exact hdn (b d hx)
              · rw [List.tail_append_of_ne_nil hne]
                intro y hy
                rcases List.mem_append.1 hy with h2 | h2
                · exact List.mem_cons_of_mem _ (b y h2)
                · rw [List.mem_singleton.1 h2]
                  exact List.mem_cons_self _ _
              · rw [List.tail_append_of_ne_nil hne]
                simp only [List.mem_append, List.mem_singleton, not_or]
                exact ⟨c, fun e => hd e.symm⟩

theorem ShortInv_init (N : Nat) (root target : String) :
    ShortInv N target (PathState.init root) := by
  refine ⟨?_, by simp [PathState.init]⟩
  intro s hs
  simp only [PathState.init, queue.add, List.nil_append, List.mem_singleton] at hs
  subst hs
  refine ⟨fun _ => rfl, fun _ => ?_⟩
  have : (path.lit [] root).2.read (PathState.init root).heap = [root] := by
    simp [PathState.init, path.lit, path.read]
  rw [this]
  exact ⟨by simp, by simp, by simp⟩

/-- One iteration of `findAllPaths` keeps the invariant for short slices. -/
theorem findAllPaths_body_short (rt : GoRuntime) (fetch : String → Except GoError String)
    (root target : String) (N : Nat) (hN : ∀ n, n < N → rt.growCap (n - 1) n ≤ n)
    {st st1 : PathState} (hinv : AllInv fetch root target st) (hs : ShortInv N target st)
    (hb : findAllPaths.body rt fetch target st = .continue_ st1) :
    ShortInv N target st1 := by
  obtain ⟨p, rest, hq, hnext⟩ := queue.next_cons (findAllPaths_body_cond hb)
  have hpmem : p ∈ st.q.vals := hq ▸ List.mem_cons_self _ _
  have hrest : ∀ s ∈ rest, s ∈ st.q.vals := fun s hs => hq ▸ List.mem_cons_of_mem _ hs
  obtain ⟨hpok, pkg, hwalk⟩ := hinv.q_good p hpmem
  have hlast : p.last st.heap = some pkg := by
    rw [path.last_eq hpok]
    exact WalkTo_getLast hwalk
  cases hex : expand fetch pkg with
  | error err =>
    simp [findAllPaths.body, hnext, hlast, hex] at hb
  | ok fdeps =>
    have he : findAllPaths.deps rt target p fdeps { st with q := ⟨rest⟩ } = st1 := by
      simpa [findAllPaths.body, hnext, hlast, hex] using hb
    rw [← he]
    exact findAllPaths_deps_short rt target N hN p (p.read st.heap) (hs.q_short p hpmem).1
      fdeps { st with q := ⟨rest⟩ } hpok rfl
      (fun hl => (hs.q_short p hpmem).2 (le_of_lt hl))
      (fun s hs1 => (hinv.q_good s (hrest s hs1)).1)
      (fun s hs1 => (hinv.r_good s hs1).1)
      ⟨fun s hs1 => hs.q_short s (hrest s hs1), hs.r_short⟩

/-- On a runtime whose `append` leaves no spare capacity in slices shorter than
`N`, a path of at most `N` elements that `findAllPaths` returns ends with the
target and repeats no element after its first. -/
theorem findAllPaths_final_short (rt : GoRuntime) (fetch : String → Except GoError String)
    (fuel : Nat) (root target : String) (paths : List (List String))
    (hrun : findAllPaths rt fetch fuel root target = some (.returned (some paths) none))
    (N : Nat) (hN : ∀ n, n < N → rt.growCap (n - 1) n ≤ n) :
    ∀ l ∈ paths, l.length ≤ N → l.tail.Nodup ∧ l.getLast? = some target := by
  obtain ⟨st, ⟨hinv, hshort⟩, hcase⟩ := forLoop_inv
    (fun s => AllInv fetch root target s ∧ ShortInv N target s)
    (by
      intro s s1 hs hc hb
      refine ⟨?_, findAllPaths_body_short rt fetch root target N hN hs.1 hs.2 hb⟩
      obtain ⟨p, rest, pkg, _, _, _, hcase⟩ := findAllPaths_body_inv rt fetch root target hs.1 hc
      rcases hcase with ⟨err, _, hret⟩ | ⟨s2, ch, fo, ne, hcont, hinv, _⟩
      · rw [hret] at hb
        exact absurd hb (by simp)
      · rw [hcont] at hb
        have he : s2 = s1 := by simpa using hb
        exact he ▸ hinv)
    ⟨AllInv_init fetch root target, ShortInv_init N root target⟩ hrun
  have hpaths : paths = st.paths.map (path.read st.heap) := by
    rcases hcase with ⟨_, hr⟩ | ⟨hc, hb⟩
    · simpa using hr
    · obtain ⟨p, rest, pkg, _, _, _, hcase⟩ := findAllPaths_body_inv rt fetch root target hinv hc
      rcases hcase with ⟨err, _, hret⟩ | ⟨s2, ch, fo, ne, hcont, _⟩
      · rw [hret] at hb
        simp at hb
      · rw [hcont] at hb
        simp at hb
  intro l hl hlen
  rw [hpaths] at hl
  obtain ⟨s, hs, rfl⟩ := List.mem_map.1 hl
  rw [path.read_length (hinv.r_good s hs).1] at hlen
  exact hshort.r_short s hs hlen

/-! ## Repetitions in the paths returned by findAllPaths (C14) -/

/-- C14 (amended): every path that `findAllPaths` returns is a walk in the graph:
it starts with the root and each consecutive pair is an edge.  When no cycle is
reachable from the root, every returned path is simple: no identifier occurs
twice in it.  On a runtime whose `append` leaves no spare capacity in slices
shorter than `N`, a returned path of at most `N` identifiers ends with the
target and holds no identifier twice after its first element, so that only the
root can occur twice in it. -/
theorem findAllPaths_simple_of_acyclic (rt : GoRuntime)
    (fetch : String → Except GoError String) (fuel : Nat) (root target : String)
    (paths : List (List String))
    (hrun : findAllPaths rt fetch fuel root target = some (.returned (some paths) none)) :
    ∀ l ∈ paths, l.head? = some root ∧ List.Chain' (Edge fetch) l
      ∧ ((∀ y, Reach fetch root y → ¬ Relation.TransGen (Edge fetch) y y) → l.Nodup)
      ∧ ∀ N, (∀ n, n < N → rt.growCap (n - 1) n ≤ n) → l.length ≤ N →
          l.tail.Nodup ∧ l.getLast? = some target := by
  obtain ⟨st, hinv, hpaths⟩ := findAllPaths_final rt fetch fuel root target paths hrun
  intro l hl
  refine ⟨?_, ?_, ?_, fun N hN hlen =>
    findAllPaths_final_short rt fetch fuel root target paths hrun N hN l hl hlen⟩
  all_goals
    rw [hpaths] at hl
    obtain ⟨s, hs, rfl⟩ := List.mem_map.1 hl
    obtain ⟨_, x, hwalk⟩ := hinv.r_good s hs
  · exact WalkTo_head hwalk
  · exact WalkTo_chain hwalk
  · exact fun hacyc => WalkTo_nodup hwalk hacyc

/-- A graph has no cycle through a package reachable from the root when a rank
increases along every edge that leaves a member of a closed set that holds the
root. -/
theorem acyclic_of_rank {fetch : String → Except GoError String} {root : String}
    (V : List String) (rank : String → Nat) (hroot : root ∈ V)
    (hclosed : ∀ x ∈ V, ∀ y ∈ fdepsOf fetch x, y ∈ V)
    (hrank : ∀ x ∈ V, ∀ y ∈ fdepsOf fetch x, rank x < rank y) :
    ∀ y, Reach fetch root y → ¬ Relation.TransGen (Edge fetch) y y := by
  have key : ∀ x z, Relation.TransGen (Edge fetch) x z → x ∈ V → z ∈ V ∧ rank x < rank z := by
    intro x z h
    induction h with
    | single he => exact fun hx => ⟨hclosed x hx _ he, hrank x hx _ he⟩
    | tail _ he ih =>
      intro hx
      obtain ⟨hb, hlt⟩ := ih hx
      exact ⟨hclosed _ hb _ he, lt_trans hlt (hrank _ hb _ he)⟩
  intro y hy hcyc
  exact absurd (key y y hcyc (reach_mem_of_closed V hroot hclosed y hy)).2 (lt_irrefl _)

/-- C14 (witness): the two paths returned on the example graph, which has no
cycle, on the gc runtime, whose `append` leaves no spare capacity in slices
shorter than 3. -/
theorem findAllPaths_simple_of_acyclic_witness :
    (["github.com/juju/juju/a", "github.com/juju/juju/b", "github.com/juju/juju/d"].head?
          = some "github.com/juju/juju/a"
        ∧ List.Chain' (Edge diamond)
            ["github.com/juju/juju/a", "github.com/juju/juju/b", "github.com/juju/juju/d"]
        ∧ ["github.com/juju/juju/a", "github.com/juju/juju/b", "github.com/juju/juju/d"].Nodup
        ∧ ["github.com/juju/juju/a", "github.com/juju/juju/b",
            "github.com/juju/juju/d"].tail.Nodup
        ∧ ["github.com/juju/juju/a", "github.com/juju/juju/b",
            "github.com/juju/juju/d"].getLast? = some "github.com/juju/juju/d")
      ∧ (["github.com/juju/juju/a", "github.com/juju/juju/c", "github.com/juju/juju/d"].head?
          = some "github.com/juju/juju/a"
        ∧ List.Chain' (Edge diamond)
            ["github.com/juju/juju/a", "github.com/juju/juju/c", "github.com/juju/juju/d"]
        ∧ ["github.com/juju/juju/a", "github.com/juju/juju/c", "github.com/juju/juju/d"].Nodup
        ∧ ["github.com/juju/juju/a", "github.com/juju/juju/c",
            "github.com/juju/juju/d"].tail.Nodup
        ∧ ["github.com/juju/juju/a", "github.com/juju/juju/c",
            "github.com/juju/juju/d"].getLast? = some "github.com/juju/juju/d") :=
  have h := findAllPaths_simple_of_acyclic gcRuntime diamond 4 "github.com/juju/juju/a"
    "github.com/juju/juju/d"
    [["github.com/juju/juju/a", "github.com/juju/juju/b", "github.com/juju/juju/d"],
      ["github.com/juju/juju/a", "github.com/juju/juju/c", "github.com/juju/juju/d"]]
    (by decide)
  have hacyc := @acyclic_of_rank diamond "github.com/juju/juju/a" _ (fun s => s.back.toNat)
    (by decide) diamond_closed (by decide)
  have hgc : ∀ n, n < 3 → gcRuntime.growCap (n - 1) n ≤ n := by decide
  have h1 := h _ (List.mem_cons_self _ _)
  have h2 := h _ (List.mem_cons_of_mem _ (List.mem_cons_self _ _))
  ⟨⟨h1.1, h1.2.1, h1.2.2.1 hacyc, h1.2.2.2 3 hgc (by decide)⟩,
    ⟨h2.1, h2.2.1, h2.2.2.1 hacyc, h2.2.2.2 3 hgc (by decide)⟩⟩

end Deps
